import Mathlib

/-!
# astrophe.c: a reference-counted, type-erased container

A shallow embedding of `src/astrophe.c`.

* A data buffer (`void *data`) is the list of its bytes; its length is the number of bytes that
  were allocated.  A pointer into a buffer that is only read (`startingData`, `value`, the
  source of a `memcpy`) is the list of bytes readable from that pointer on.
* `Object *` is an address into an explicit heap; `malloc` hands out the next fresh address and
  `free` empties the cell.  Object pointers stored in a buffer are their 8 little-endian bytes.
* Every function returns `none` where the C code leaves defined behaviour: a `memcpy` or
  `memcmp` outside its buffers, a dereference of a freed or unallocated object, a division by
  zero, or an exhausted address space.
* `size_t` sums and products of counts and element sizes are computed in `Nat`: they are
  sizes of buffers that were allocated.  The increment `refcount++`, the product `size * 2` of
  `object_list_resize` and the decrements `x--` and `x - 1` wrap as `size_t` does.
* The bytes that `reallocarray` leaves indeterminate are taken from the parameter `junk`.
-/

namespace Astrophe

/-- The enum `ObjectType`. -/
inductive ObjectType where
  | TYPE_NULL
  | TYPE_LIST
  | TYPE_MAP
  | TYPE_OBJECT
  deriving DecidableEq, Repr

/-- The struct `Object`; `data` is the allocated buffer, byte by byte. -/
structure Object where
  data : List Nat
  refcount : Nat
  elemSize : Nat
  count : Nat
  capacity : Nat
  recurse : Bool
  type : ObjectType
  deriving DecidableEq, Repr

/-- An `Object *`. -/
abbrev Ptr := Nat

/-- The heap of `Object` structs: cell `p` is `none` when nothing is allocated at `p`. -/
abbrev Heap := List (Option Object)

/-- Number of distinct addresses of a 64-bit machine. -/
def SIZE_MAX1 : Nat := 2 ^ 64

/-- The `size_t` decrement: wraps at `0`. -/
def wdec (n : Nat) : Nat := if n = 0 then SIZE_MAX1 - 1 else n - 1

/-- The constant `sizeof(Object *)`. -/
def sizeofPtr : Nat := 8

/-- Dereference of an `Object *`. -/
def Heap.get (h : Heap) (p : Ptr) : Option Object := h[p]?.join

/-- Store through an `Object *` that was dereferenced before. -/
def Heap.put (h : Heap) (p : Ptr) (o : Object) : Heap := h.set p (some o)

/-- The call `malloc(sizeof(Object))` followed by the initialisation of the struct: a fresh address. -/
def malloc (h : Heap) (o : Object) : Option (Heap × Ptr) :=
  if h.length < SIZE_MAX1 then some (h ++ [some o], h.length) else none

/-- The call `free(object)`. -/
def free (h : Heap) (p : Ptr) : Heap := h.set p none

/-- The call `calloc(n, size)`: a zero-filled buffer. -/
def calloc (n size : Nat) : List Nat := List.replicate (n * size) 0

/-- The call `memcpy(dst + doff, src, n)` where `src` lists the bytes readable from the source pointer. -/
def memcpy (dst : List Nat) (doff : Nat) (src : List Nat) (n : Nat) : Option (List Nat) :=
  if n ≤ src.length ∧ doff + n ≤ dst.length then
    some (dst.take doff ++ src.take n ++ dst.drop (doff + n))
  else none

/-- The test `memcmp(a, b, n) == 0` where `a` and `b` list the bytes readable from the two pointers. -/
def memcmp_eq (a b : List Nat) (n : Nat) : Option Bool :=
  if n ≤ a.length ∧ n ≤ b.length then some (decide (a.take n = b.take n)) else none

/-- The call `reallocarray(data, n, size)`: the first bytes are kept, new bytes are indeterminate. -/
def reallocarray (junk : Nat → Nat) (data : List Nat) (n size : Nat) : List Nat :=
  data.take (n * size) ++
    (List.range (n * size - data.length)).map (fun k => junk (data.length + k))

/-- The object representation of a pointer: 8 little-endian bytes. -/
def ptrBytes (p : Ptr) : List Nat :=
  (List.range sizeofPtr).map (fun k => p / 256 ^ k % 256)

/-- The pointer whose object representation starts the byte list. -/
def bytesPtr (bs : List Nat) : Ptr :=
  (bs.take sizeofPtr).foldr (fun b acc => b + 256 * acc) 0

/-- The macro `object_vat(object, Object *, idx)`: the pointer stored in slot `idx` of the buffer. -/
def object_vat (o : Object) (idx : Nat) : Option Ptr :=
  if idx * sizeofPtr + sizeofPtr ≤ o.data.length then
    some (bytesPtr (o.data.drop (idx * sizeofPtr)))
  else none

/-- The function `object_create`. -/
def object_create (h : Heap) (data : List Nat) (type : ObjectType) : Option (Heap × Ptr) :=
  malloc h
    { data := data, refcount := 1, elemSize := 0, count := 0, capacity := 0,
      type := type, recurse := false }

/-- The function `object_incref`. -/
def object_incref (h : Heap) (object : Ptr) : Option Heap := do
  let o ← h.get object
  pure (h.put object { o with refcount := (o.refcount + 1) % SIZE_MAX1 })

mutual
/-- The function `object_decref`; each level of the recursion takes one unit of `fuel`. -/
def object_decref : Nat → Heap → Ptr → Option Heap
  | 0, _, _ => none
  | fuel + 1, h, object => do
    let o ← h.get object
    let h := h.put object { o with refcount := wdec o.refcount }
    let o ← h.get object
    if o.refcount = 0 then
      let h ← if o.recurse then object_decref_children fuel h object 0 else pure h
      pure (free h object)
    else pure h
/-- The `for` loop of `object_decref` from index `i` on; each iteration takes one unit of
`fuel`. -/
def object_decref_children : Nat → Heap → Ptr → Nat → Option Heap
  | 0, _, _, _ => none
  | fuel + 1, h, object, i => do
    let o ← h.get object
    if i < o.count then
      let current ← object_vat o i
      let h ← object_decref fuel h current
      object_decref_children fuel h object (i + 1)
    else pure h
end

/-- The function `object_list_create`; `startingData` lists the bytes readable from the pointer. -/
def object_list_create (h : Heap) (startingData : List Nat) (len elemSize : Nat) :
    Option (Heap × Ptr) := do
  let (h, retval) ← object_create h [] ObjectType.TYPE_LIST
  let r ← h.get retval
  let r := { r with capacity := len * 2 }
  let data := calloc r.capacity elemSize
  let r := { r with data := data }
  let data ← memcpy data 0 startingData (len * elemSize)
  let r := { r with data := data, elemSize := elemSize, count := len }
  pure (h.put retval r, retval)

/-- The function `object_list_resize`. -/
def object_list_resize (junk : Nat → Nat) (h : Heap) (list : Ptr) (size : Nat) :
    Option Heap := do
  let l ← h.get list
  let newsize := size * 2 % SIZE_MAX1
  pure (h.put list
    { l with data := reallocarray junk l.data newsize l.elemSize, capacity := newsize })

/-- The function `object_list_append`. -/
def object_list_append (junk : Nat → Nat) (h : Heap) (list olist : Ptr) : Option Heap := do
  let l ← h.get list
  let o ← h.get olist
  let h ← if l.capacity ≤ l.count + o.count then
      object_list_resize junk h list (l.capacity + o.count)
    else pure h
  let l ← h.get list
  let o ← h.get olist
  let data ← memcpy l.data (l.count * l.elemSize) o.data (o.count * l.elemSize)
  let h := h.put list { l with data := data }
  let l ← h.get list
  let o ← h.get olist
  pure (h.put list { l with count := l.count + o.count })

/-- The function `object_list_prepend`. -/
def object_list_prepend (h : Heap) (list olist : Ptr) : Option Heap := do
  let l ← h.get list
  let o ← h.get olist
  let newbuf := calloc (l.capacity + o.count) l.elemSize
  let newbuf ← memcpy newbuf 0 o.data (o.count * o.elemSize)
  let newbuf ← memcpy newbuf (o.count * o.elemSize) l.data (l.count * l.elemSize)
  let h := h.put list { l with data := newbuf }
  let l ← h.get list
  let o ← h.get olist
  let h := h.put list { l with capacity := l.capacity + o.count }
  let l ← h.get list
  let o ← h.get olist
  pure (h.put list { l with count := l.count + o.count })

/-- The function `object_list_trim`. -/
def object_list_trim (junk : Nat → Nat) (h : Heap) (object : Ptr) : Option Heap := do
  let o ← h.get object
  pure (h.put object { o with data := reallocarray junk o.data o.count o.elemSize })

/-- The function `object_list_to_single`. -/
def object_list_to_single (junk : Nat → Nat) (h : Heap) (list : Ptr) : Option Heap := do
  let l ← h.get list
  if l.type = ObjectType.TYPE_LIST ∧ l.count = 1 then
    let h ← object_list_trim junk h list
    let l ← h.get list
    pure (h.put list { l with type := ObjectType.TYPE_OBJECT, count := 1, capacity := 1 })
  else pure h

/-- The function `object_list_pop_front`. -/
def object_list_pop_front (junk : Nat → Nat) (h : Heap) (list : Ptr) :
    Option (Heap × Ptr) := do
  let l ← h.get list
  let (h, retval) ← object_list_create h l.data 1 l.elemSize
  let l ← h.get list
  let newbuf := calloc (wdec l.capacity) l.elemSize
  let h := h.put list { l with count := wdec l.count }
  let l ← h.get list
  let newbuf ← memcpy newbuf 0 (l.data.drop l.elemSize) (l.count * l.elemSize)
  let h := h.put list { l with data := newbuf }
  let h ← object_list_to_single junk h retval
  pure (h, retval)

/-- The function `object_list_pop_back`.  The source pointer is `list->data + list->count - 1`, an offset in
bytes; with `count = 0` it lies before the buffer. -/
def object_list_pop_back (junk : Nat → Nat) (h : Heap) (list : Ptr) :
    Option (Heap × Ptr) := do
  let l ← h.get list
  if l.count = 0 then none
  let (h, retval) ← object_list_create h (l.data.drop (l.count - 1)) 1 l.elemSize
  let l ← h.get list
  let h := h.put list { l with count := wdec l.count }
  let h ← object_list_to_single junk h retval
  pure (h, retval)

/-- The function `object_list_push_front_object`; `&value` is the 8-byte representation of the pointer. -/
def object_list_push_front_object (h : Heap) (list value : Ptr) : Option Heap := do
  let l ← h.get list
  if l.recurse then
    let h ← object_incref h value
    let l ← h.get list
    let newbuf := calloc (l.capacity + 1) l.elemSize
    let h := h.put list { l with count := l.count + 1 }
    let l ← h.get list
    let h := h.put list { l with capacity := l.capacity + 1 }
    let l ← h.get list
    let newbuf ← memcpy newbuf 0 (ptrBytes value) l.elemSize
    let newbuf ← memcpy newbuf l.elemSize l.data (l.count * l.elemSize)
    pure (h.put list { l with data := newbuf })
  else pure h

/-- The function `object_list_push_back_object`; `&value` is the 8-byte representation of the pointer. -/
def object_list_push_back_object (junk : Nat → Nat) (h : Heap) (list value : Ptr) :
    Option Heap := do
  let l ← h.get list
  if l.recurse then
    let h ← object_incref h value
    let l ← h.get list
    let h ← if l.count ≥ l.capacity then object_list_resize junk h list (l.capacity + 1)
      else pure h
    let l ← h.get list
    let data ← memcpy l.data (l.count * l.elemSize) (ptrBytes value) l.elemSize
    let h := h.put list { l with data := data }
    let l ← h.get list
    pure (h.put list { l with count := l.count + 1 })
  else pure h

/-- The function `object_create_single`. -/
def object_create_single (h : Heap) (data : List Nat) (size : Nat) : Option (Heap × Ptr) := do
  let (h, retval) ← object_create h data ObjectType.TYPE_OBJECT
  let r ← h.get retval
  pure (h.put retval { r with count := 1, capacity := 1, elemSize := size }, retval)

/-- The unsigned division of `object_list_split`; dividing by zero is undefined. -/
def udiv (a b : Nat) : Option Nat := if b = 0 then none else some (a / b)

/-- The `for` loop of `object_list_split` from index `i` on; `cursor` is the byte offset of
the C pointer `cursor` in `list->data`.  Each iteration takes one unit of `fuel`.  Returns the
heap and the cursor at the end of the loop. -/
def object_list_split_loop (junk : Nat → Nat) :
    Nat → Heap → Ptr → List Nat → Nat → Ptr → Nat → Nat → Option (Heap × Nat)
  | 0, _, _, _, _, _, _, _ => none
  | fuel + 1, h, list, value, vcount, retval, i, cursor => do
    let l ← h.get list
    if i < l.count then
      let current := i * l.elemSize
      if ← memcmp_eq (l.data.drop current) value (l.elemSize * vcount) then
        let n ← udiv (current - cursor) l.elemSize
        let (h, blob) ← object_list_create h (l.data.drop cursor) n l.elemSize
        let h ← object_list_push_back_object junk h retval blob
        let h ← object_decref (fuel + 1) h blob
        let l ← h.get list
        let current := current + vcount * l.elemSize
        let i := i + vcount * l.elemSize
        let cursor := current
        object_list_split_loop junk fuel h list value vcount retval (i + 1) cursor
      else
        object_list_split_loop junk fuel h list value vcount retval (i + 1) cursor
    else pure (h, cursor)

/-- The function `object_list_split`; `value` lists the bytes readable from the delimiter pointer. -/
def object_list_split (junk : Nat → Nat) (fuel : Nat) (h : Heap) (list : Ptr)
    (value : List Nat) (vcount : Nat) : Option (Heap × Ptr) := do
  let (h, retval) ← object_list_create h [] 0 sizeofPtr
  let r ← h.get retval
  let h := h.put retval { r with recurse := true }
  let cursor := 0
  let (h, cursor) ← object_list_split_loop junk fuel h list value vcount retval 0 cursor
  let l ← h.get list
  let endptr := l.count * l.elemSize
  if cursor < endptr then
    let n ← udiv (endptr - cursor) l.elemSize
    let (h, blob) ← object_list_create h (l.data.drop cursor) n l.elemSize
    let h ← object_list_push_back_object junk h retval blob
    let h ← object_decref (fuel + 1) h blob
    pure (h, retval)
  else pure (h, retval)

/-- The macro `object_create_string(string)`: `strlen(string)` bytes of the literal, element size 1. -/
def object_create_string (h : Heap) (string : List Nat) : Option (Heap × Ptr) :=
  object_list_create h (string ++ [0]) string.length 1

/-- The macro `object_split(list, obj)`. -/
def object_split (junk : Nat → Nat) (fuel : Nat) (h : Heap) (list obj : Ptr) :
    Option (Heap × Ptr) := do
  let o ← h.get obj
  object_list_split junk fuel h list o.data o.count

/-- The first `count` elements of an object: the bytes `[0, count * elemSize)` of its buffer. -/
def content (o : Object) : List Nat := o.data.take (o.count * o.elemSize)

/-- The element of an object at index `i`: `elemSize` bytes from byte `i * elemSize` on. -/
def element (o : Object) (i : Nat) : List Nat := (o.data.drop (i * o.elemSize)).take o.elemSize

/-- The objects referenced by the slots `[0, count)` of a list of `Object *`, as
`object_list_for(list, Object *)` visits them. -/
def children (h : Heap) (list : Ptr) : Option (List Object) := do
  let l ← h.get list
  (List.range l.count).mapM (fun i => do
    let p ← object_vat l i
    h.get p)

/-- The first eight statements of `main`, on the bytes of the string literals.  Returns the
heap and the pointers `str1`, `space`, `ee`, `str2`. -/
def main_build (junk : Nat → Nat) (h : Heap) : Option (Heap × Ptr × Ptr × Ptr × Ptr) := do
  let (h, str1) ← object_create_string h [121, 101, 101, 97, 116]
  let (h, space) ← object_create_string h [32]
  let (h, ee) ← object_create_string h [101, 101]
  let (h, str2) ← object_create_string h [115, 112, 108]
  let h ← object_list_append junk h str1 space
  let h ← object_list_append junk h str1 str2
  let h ← object_list_prepend h str1 space
  let h ← object_list_prepend h str1 str2
  pure (h, str1, space, ee, str2)

/-- The statements of `main` up to the two pops.  Returns the heap and the pointers `str1`,
`split`, `split2`, `pf`, `pb`. -/
def main (junk : Nat → Nat) (fuel : Nat) (h : Heap) :
    Option (Heap × Ptr × Ptr × Ptr × Ptr × Ptr) := do
  let (h, str1, space, ee, _) ← main_build junk h
  let (h, split) ← object_split junk fuel h str1 space
  let (h, split2) ← object_split junk fuel h str1 ee
  let (h, pf) ← object_list_pop_front junk h str1
  let (h, pb) ← object_list_pop_back junk h str1
  pure (h, str1, split, split2, pf, pb)

/-! ## Result structs of the single operations -/

/-- The struct that `object_list_create` initialises. -/
def createdObject (src : List Nat) (len es : Nat) : Object :=
  { data := src.take (len * es) ++ List.replicate (len * es) 0, refcount := 1, elemSize := es,
    count := len, capacity := len * 2, recurse := false, type := ObjectType.TYPE_LIST }

/-- The struct of `list` after `object_list_append(list, olist)`, when the copy is in bounds. -/
def appendedObject (junk : Nat → Nat) (l o : Object) : Object :=
  let l1 : Object := if l.capacity ≤ l.count + o.count then
    { l with
      data := reallocarray junk l.data ((l.capacity + o.count) * 2 % SIZE_MAX1) l.elemSize,
      capacity := (l.capacity + o.count) * 2 % SIZE_MAX1 } else l
  { l1 with
    data := l1.data.take (l.count * l.elemSize) ++ o.data.take (o.count * l.elemSize) ++
      l1.data.drop (l.count * l.elemSize + o.count * l.elemSize),
    count := l.count + o.count }

/-- The struct of `list` after `object_list_prepend(list, olist)`, when the copies are in
bounds. -/
def prependedObject (l o : Object) : Object :=
  { l with
    data := o.data.take (o.count * o.elemSize) ++ l.data.take (l.count * l.elemSize) ++
      List.replicate ((l.capacity + o.count) * l.elemSize -
        (o.count * o.elemSize + l.count * l.elemSize)) 0,
    capacity := l.capacity + o.count,
    count := l.count + o.count }

/-- The struct of `list` after `object_list_pop_front(list)`, when the copy is in bounds. -/
def poppedFrontObject (l : Object) : Object :=
  { l with
    count := wdec l.count,
    data := (l.data.drop l.elemSize).take (wdec l.count * l.elemSize) ++
      List.replicate (wdec l.capacity * l.elemSize - wdec l.count * l.elemSize) 0 }

/-- The struct after `object_list_to_single` has collapsed a list of one element. -/
def singleObject (junk : Nat → Nat) (o : Object) : Object :=
  { o with data := reallocarray junk o.data o.count o.elemSize,
           type := ObjectType.TYPE_OBJECT, count := 1, capacity := 1 }

/-- The struct of `list` after `object_list_pop_back(list)`. -/
def poppedBackObject (l : Object) : Object := { l with count := wdec l.count }

/-- The struct of `list` after `object_list_push_back_object(list, value)` on a list with
`recurse` set, when the copy is in bounds. -/
def pushedBackObject (junk : Nat → Nat) (l : Object) (value : Ptr) : Object :=
  let l1 : Object := if l.count ≥ l.capacity then
    { l with data := reallocarray junk l.data ((l.capacity + 1) * 2 % SIZE_MAX1) l.elemSize,
             capacity := (l.capacity + 1) * 2 % SIZE_MAX1 } else l
  { l1 with
    data := l1.data.take (l.count * l.elemSize) ++ (ptrBytes value).take l.elemSize ++
      l1.data.drop (l.count * l.elemSize + l.elemSize),
    count := l.count + 1 }

/-- The result of `n` successive calls `object_list_pop_front(list)`: the heap afterwards and the returned
pointers in call order. -/
def pop_front_repeat (junk : Nat → Nat) : Nat → Heap → Ptr → Option (Heap × List Ptr)
  | 0, h, _ => some (h, [])
  | n + 1, h, list => do
    let (h, p) ← object_list_pop_front junk h list
    let (h, ps) ← pop_front_repeat junk n h list
    pure (h, p :: ps)

/-- A Scalar container as the pops return it: one element, `count = capacity = 1`,
`refcount = 1`. -/
def scalarObject (bytes : List Nat) (es : Nat) : Object :=
  { data := bytes, refcount := 1, elemSize := es, count := 1, capacity := 1, recurse := false,
    type := ObjectType.TYPE_OBJECT }

/-- What `object_list_split` maintains about its result list while it holds `n` segments that
were allocated at the addresses `base, base + 1, ...`: the slots `[0, n)` hold these addresses
in order, and the capacity has gone through `0, 2, 6, 14, ...` (each `(capacity + 1) * 2`). -/
def SplitResult (base : Nat) (R : Object) (n : Nat) : Prop :=
  R.recurse = true ∧ R.elemSize = sizeofPtr ∧ R.refcount = 1 ∧
  R.type = ObjectType.TYPE_LIST ∧ R.count = n ∧ R.count ≤ R.capacity ∧
  R.data.length = R.capacity * sizeofPtr ∧
  R.data.take (n * sizeofPtr) = ((List.range n).map (fun j => ptrBytes (base + j))).flatten ∧
  ∃ k, R.capacity + 2 = 2 ^ k

/-- The segments that the loop of `object_list_split` cuts from index `i` on, without the
heap: for each match the byte offset of `cursor` and the element count passed to
`object_list_create`, in order, and the cursor at the end of the loop.  `none` where the loop
compares or copies outside the buffers or divides by zero, or when `fuel` runs out. -/
def splitScan (l : Object) (value : List Nat) (vcount : Nat) :
    Nat → Nat → Nat → Option (List (Nat × Nat) × Nat)
  | 0, _, _ => none
  | fuel + 1, i, cursor =>
    if i < l.count then
      match memcmp_eq (l.data.drop (i * l.elemSize)) value (l.elemSize * vcount) with
      | none => none
      | some true =>
        match udiv (i * l.elemSize - cursor) l.elemSize with
        | none => none
        | some n =>
          if n * l.elemSize ≤ (l.data.drop cursor).length then
            match splitScan l value vcount fuel (i + vcount * l.elemSize + 1)
                (i * l.elemSize + vcount * l.elemSize) with
            | none => none
            | some (rs, c) => some ((cursor, n) :: rs, c)
          else none
      | some false => splitScan l value vcount fuel (i + 1) cursor
    else some ([], cursor)

/-- The struct of the segment that `object_list_split` creates for a cut `(cursor, n)`. -/
def blobOf (l : Object) (r : Nat × Nat) : Object :=
  createdObject (l.data.drop r.1) r.2 l.elemSize

/-- The cuts `(cursor, n)` of all segments of `object_list_split`, in order: those of the
loop, then the one after the loop when the cursor is before the end of the content. -/
def splitCuts (l : Object) (value : List Nat) (vcount fuel : Nat) : Option (List (Nat × Nat)) :=
  match splitScan l value vcount fuel 0 0 with
  | none => none
  | some (rs, c) =>
    if c < l.count * l.elemSize then
      match udiv (l.count * l.elemSize - c) l.elemSize with
      | none => none
      | some n => if n * l.elemSize ≤ (l.data.drop c).length then some (rs ++ [(c, n)]) else none
    else some rs

/-- Whether the scan of `object_list_split` over the source stays inside the buffers: every
`memcmp` and every copy of a segment lies inside the source buffer and the delimiter, and no
division is by zero.  The loop visits each index at most once, so `count + 1` iterations are
enough. -/
def splitInBounds (l : Object) (value : List Nat) (vcount : Nat) : Bool :=
  (splitCuts l value vcount (l.count + 1)).isSome

/-- The list `str1` of `main` after the first eight statements: `"spl yeeat spl"`. -/
def demoList : Object :=
  { data := [115, 112, 108, 32, 121, 101, 101, 97, 116, 32, 115, 112, 108, 0], refcount := 1,
    elemSize := 1, count := 13, capacity := 14, recurse := false,
    type := ObjectType.TYPE_LIST }

/-- The heap of `main` after the first eight statements, started on the empty heap: `str1`,
`space`, `ee`, `str2` at the addresses 0, 1, 2, 3. -/
def demoHeap : Heap :=
  [some demoList, some (createdObject [32, 0] 1 1), some (createdObject [101, 101, 0] 2 1),
    some (createdObject [115, 112, 108, 0] 3 1)]

/-- An empty list of `Object *` with room for two, as a concrete input. -/
def exampleRefList : Object :=
  { data := List.replicate 16 0, refcount := 1, elemSize := 8, count := 0, capacity := 2,
    recurse := true, type := ObjectType.TYPE_LIST }

/-- The result of `n` successive calls `object_incref(object)`. -/
def incref_repeat : Nat → Heap → Ptr → Option Heap
  | 0, h, _ => some h
  | n + 1, h, object => do
    let h ← object_incref h object
    incref_repeat n h object

/-- The result of `k` successive calls `object_decref(object)`, each with the given fuel. -/
def decref_repeat (fuel : Nat) : Nat → Heap → Ptr → Option Heap
  | 0, h, _ => some h
  | k + 1, h, object => do
    let h ← object_decref fuel h object
    decref_repeat fuel k h object

/-- The calls `object_decref(c)` for the pointers `c` of a list, one after the other, each with
the given fuel. -/
def decref_each (fuel : Nat) : Heap → List Ptr → Option Heap
  | h, [] => some h
  | h, c :: cs => do
    let h ← object_decref fuel h c
    decref_each fuel h cs

/-- The container `b` is `a` or is held, directly or through further lists, in a slot of the
list `a`: the objects that a teardown of `a` can touch. -/
inductive Reach (h : Heap) : Nat → Nat → Prop where
  | refl (a : Nat) : Reach h a a
  | step (a b d : Nat) (o : Object) (j : Nat) : h.get a = some o → o.recurse = true →
      j < o.count → object_vat o j = some d → Reach h d b → Reach h a b

/-- Every live cell of `h2` is a live cell of `h` with the same buffer, count and `recurse`. -/
def Heap.Sub (h2 h : Heap) : Prop :=
  h2.length = h.length ∧ ∀ q o2, h2.get q = some o2 →
    ∃ o, h.get q = some o ∧ o2.data = o.data ∧ o2.count = o.count ∧ o2.recurse = o.recurse

/-- The cell of a container after `k` calls of `object_decref` that do not recurse into it:
freed when the refcount was `k`, else the same struct with the refcount `k` less. -/
def releasedTimes (o : Object) (k : Nat) : Option Object :=
  if o.refcount = k then none else some { o with refcount := o.refcount - k }

/-- The list created from `"c"` with the given refcount, as a concrete child. -/
def exampleChild (r : Nat) : Object := { createdObject [99] 1 1 with refcount := r }

/-- A list of `Object *` with `recurse` set that holds the pointer `c` in its only slot. -/
def exampleHolder (c : Ptr) : Object := pushedBackObject (fun _ => 0) exampleRefList c

/-- A list of `Object *` with `recurse` set that holds the pointer 1 in both of its slots. -/
def exampleTwice : Object := pushedBackObject (fun _ => 0) (exampleHolder 1) 1

/-! ## The heap -/

theorem Heap.get_lt {h : Heap} {p : Nat} {o : Object} (hg : h.get p = some o) : p < h.length := by
  unfold Heap.get at hg
  by_contra hlt
  have : h[p]? = none := by simp; omega
  simp [this] at hg

theorem Heap.get_put_same {h : Heap} {p : Nat} (o : Object) (hp : p < h.length) :
    (h.put p o).get p = some o := by
  simp [Heap.get, Heap.put, hp]

theorem Heap.get_put_ne {h : Heap} {p q : Nat} (o : Object) (hne : p ≠ q) :
    (h.put p o).get q = h.get q := by
  simp [Heap.get, Heap.put, List.getElem?_set_ne hne]

theorem Heap.length_put (h : Heap) (p : Nat) (o : Object) : (h.put p o).length = h.length := by
  simp [Heap.put]

theorem Heap.get_append_left {h : Heap} (t : Heap) {p : Nat} (hp : p < h.length) :
    Heap.get (h ++ t) p = h.get p := by
  simp [Heap.get, List.getElem?_append_left hp]

theorem Heap.get_append_right (h t : Heap) (k : Nat) :
    Heap.get (h ++ t) (h.length + k) = Heap.get t k := by
  simp [Heap.get, List.getElem?_append_right]

theorem Heap.put_append_left {h : Heap} (t : Heap) {p : Nat} (o : Object) (hp : p < h.length) :
    Heap.put (h ++ t) p o = h.put p o ++ t := by
  simp [Heap.put, List.set_append, hp]

theorem Heap.put_put (h : Heap) (p : Nat) (o o2 : Object) :
    (h.put p o).put p o2 = h.put p o2 := by
  simp [Heap.put]

/-! ## Memory primitives and single operations -/

theorem Heap.get_snoc (h : Heap) (o : Object) : Heap.get (h ++ [some o]) h.length = some o := by
  simp [Heap.get]

theorem Heap.put_snoc (h : Heap) (o o2 : Object) :
    Heap.put (h ++ [some o]) h.length o2 = h ++ [some o2] := by
  simp [Heap.put]

theorem object_list_create_eq (h : Heap) (src : List Nat) (len es : Nat)
    (hs : len * es ≤ src.length) (hh : h.length < SIZE_MAX1) :
    object_list_create h src len es = some (h ++ [some (createdObject src len es)], h.length) := by
  have h1 : len * 2 * es = len * es + len * es := by ring
  simp [object_list_create, object_create, malloc, hh, Heap.get_snoc, Heap.put_snoc, memcpy,
    calloc, hs, createdObject, h1]

theorem length_reallocarray (junk : Nat → Nat) (data : List Nat) (n size : Nat) :
    (reallocarray junk data n size).length = n * size := by
  simp [reallocarray]; omega

theorem take_reallocarray (junk : Nat → Nat) (data : List Nat) (n size k : Nat)
    (hk : k ≤ data.length) (hn : k ≤ n * size) :
    (reallocarray junk data n size).take k = data.take k := by
  unfold reallocarray
  rw [List.take_append_of_le_length (by simp; omega), List.take_take]
  congr 1; omega

theorem reallocarray_shrink (junk : Nat → Nat) (data : List Nat) (n size : Nat)
    (hn : n * size ≤ data.length) :
    reallocarray junk data n size = data.take (n * size) := by
  simp [reallocarray, Nat.sub_eq_zero_of_le hn]

theorem length_memcpy {dst src : List Nat} {doff n : Nat} {r : List Nat}
    (hm : memcpy dst doff src n = some r) : r.length = dst.length := by
  unfold memcpy at hm
  split at hm
  · rename_i hc
    simp at hm; subst hm; simp; omega
  · simp at hm

theorem memcpy_eq {dst src : List Nat} {doff n : Nat} (hs : n ≤ src.length)
    (hd : doff + n ≤ dst.length) :
    memcpy dst doff src n = some (dst.take doff ++ src.take n ++ dst.drop (doff + n)) := by
  simp [memcpy, hs, hd]

theorem object_list_resize_eq (junk : Nat → Nat) {h : Heap} {list : Nat} {l : Object}
    (size : Nat) (hl : h.get list = some l) :
    object_list_resize junk h list size = some (h.put list
      { l with data := reallocarray junk l.data (size * 2 % SIZE_MAX1) l.elemSize,
               capacity := size * 2 % SIZE_MAX1 }) := by
  simp [object_list_resize, hl]

theorem object_incref_eq {h : Heap} {p : Nat} {o : Object} (ho : h.get p = some o) :
    object_incref h p = some (h.put p { o with refcount := (o.refcount + 1) % SIZE_MAX1 }) := by
  simp [object_incref, ho]

theorem memcpy_eq_none {dst src : List Nat} {doff n : Nat}
    (hn : ¬ (n ≤ src.length ∧ doff + n ≤ dst.length)) : memcpy dst doff src n = none := by
  simp only [memcpy, if_neg hn]

theorem memcpy_bounds {dst src : List Nat} {doff n : Nat} {r : List Nat}
    (hm : memcpy dst doff src n = some r) : n ≤ src.length ∧ doff + n ≤ dst.length := by
  by_contra hn
  rw [memcpy_eq_none hn] at hm
  exact absurd hm (by simp)

theorem object_decref_eq_of_shared (fuel : Nat) {h : Heap} {p : Nat} {o : Object}
    (ho : h.get p = some o) (hr : 2 ≤ o.refcount) :
    object_decref (fuel + 1) h p = some (h.put p { o with refcount := o.refcount - 1 }) := by
  have hp := Heap.get_lt ho
  have hw : wdec o.refcount = o.refcount - 1 := by
    unfold wdec; rw [if_neg (by omega)]
  have hne : ¬ (o.refcount - 1 = 0) := by omega
  simp [object_decref, ho, Heap.get_put_same _ hp, hw, hne]

theorem object_list_append_eq (junk : Nat → Nat) {h : Heap} {list olist : Nat} {l o : Object}
    (hl : h.get list = some l) (ho : h.get olist = some o) (hne : list ≠ olist)
    (hsrc : o.count * l.elemSize ≤ o.data.length)
    (hroom : (l.count + o.count) * l.elemSize ≤
      if l.capacity ≤ l.count + o.count then (l.capacity + o.count) * 2 % SIZE_MAX1 * l.elemSize
      else l.data.length) :
    object_list_append junk h list olist = some (h.put list (appendedObject junk l o)) := by
  have hp := Heap.get_lt hl
  rw [Nat.add_mul] at hroom
  unfold object_list_append appendedObject
  by_cases hc : l.capacity ≤ l.count + o.count
  · rw [if_pos hc] at hroom
    have hd : l.count * l.elemSize + o.count * l.elemSize ≤
        (reallocarray junk l.data ((l.capacity + o.count) * 2 % SIZE_MAX1) l.elemSize).length := by
      rw [length_reallocarray]; exact hroom
    simp [hl, ho, hc, object_list_resize_eq junk _ hl, Heap.get_put_same _ hp,
      Heap.get_put_ne _ hne, memcpy_eq hsrc hd, Heap.put_put]
  · rw [if_neg hc] at hroom
    simp [hl, ho, hc, Heap.get_put_same _ hp,
      Heap.get_put_ne _ hne, memcpy_eq hsrc hroom, Heap.put_put]

theorem memcpy_calloc {src : List Nat} {k n m : Nat} (pre : List Nat) (hs : n ≤ src.length)
    (hpre : pre.length = k) (hd : k + n ≤ m) :
    memcpy (pre ++ List.replicate (m - k) 0) k src n =
      some ((pre ++ src.take n) ++ List.replicate (m - (k + n)) 0) := by
  subst hpre
  rw [memcpy_eq hs (by simp; omega)]
  simp
  omega

theorem object_list_prepend_eq {h : Heap} {list olist : Nat} {l o : Object}
    (hl : h.get list = some l) (ho : h.get olist = some o) (hne : list ≠ olist)
    (hes : o.elemSize = l.elemSize) (hcap : l.count ≤ l.capacity)
    (hbuf : l.count * l.elemSize ≤ l.data.length)
    (hsrc : o.count * l.elemSize ≤ o.data.length) :
    object_list_prepend h list olist = some (h.put list (prependedObject l o)) := by
  have hp := Heap.get_lt hl
  have e : (l.capacity + o.count) * l.elemSize =
      l.capacity * l.elemSize + o.count * l.elemSize := Nat.add_mul _ _ _
  have hcap2 := Nat.mul_le_mul_right l.elemSize hcap
  have m1 := memcpy_calloc (m := (l.capacity + o.count) * l.elemSize) (k := 0) []
    hsrc rfl (by omega)
  have m2 := memcpy_calloc (m := (l.capacity + o.count) * l.elemSize)
    (k := o.count * l.elemSize) (o.data.take (o.count * l.elemSize))
    hbuf (by simp; omega) (by omega)
  simp only [List.nil_append, Nat.sub_zero, Nat.zero_add] at m1 m2
  unfold object_list_prepend prependedObject
  simp only [hl, ho, hes, calloc, Option.bind_eq_bind, Option.some_bind, Option.pure_def, m1, m2,
    Heap.get_put_same _ hp, Heap.get_put_ne _ hne, Heap.put_put]

theorem wdec_pos {n : Nat} (hn : 1 ≤ n) : wdec n = n - 1 := by
  unfold wdec; rw [if_neg (by omega)]

theorem Heap.put_append_right (h : Heap) (o o2 : Object) :
    Heap.put (h ++ [some o]) h.length o2 = h ++ [some o2] := by
  simp [Heap.put]

theorem object_list_to_single_eq (junk : Nat → Nat) {h : Heap} {list : Nat} {l : Object}
    (hl : h.get list = some l) (ht : l.type = ObjectType.TYPE_LIST) (hc : l.count = 1) :
    object_list_to_single junk h list = some (h.put list (singleObject junk l)) := by
  have hp := Heap.get_lt hl
  simp [object_list_to_single, object_list_trim, hl, ht, hc, Heap.get_put_same _ hp,
    Heap.put_put, singleObject]

theorem object_list_pop_front_eq (junk : Nat → Nat) {h : Heap} {list : Nat} {l : Object}
    (hl : h.get list = some l) (hh : h.length < SIZE_MAX1)
    (hc : 1 ≤ l.count) (hcap : l.count ≤ l.capacity)
    (hbuf : l.count * l.elemSize ≤ l.data.length) :
    object_list_pop_front junk h list =
      some (h.put list (poppedFrontObject l) ++
        [some (singleObject junk (createdObject l.data 1 l.elemSize))], h.length) := by
  have hp := Heap.get_lt hl
  have hne : list ≠ h.length := by omega
  have e1 : l.count * l.elemSize = (l.count - 1) * l.elemSize + l.elemSize := by
    have : l.count = (l.count - 1) + 1 := by omega
    nth_rewrite 1 [this]; ring
  have h1 : 1 * l.elemSize ≤ l.data.length := by omega
  have h2 : (l.count - 1) * l.elemSize ≤ (l.data.drop l.elemSize).length := by
    simp; omega
  have h3 : (l.count - 1) * l.elemSize ≤ (l.capacity - 1) * l.elemSize :=
    Nat.mul_le_mul_right _ (by omega)
  have m1 := memcpy_calloc (m := (l.capacity - 1) * l.elemSize) (k := 0) []
    h2 rfl (by omega)
  simp only [List.nil_append, Nat.sub_zero, Nat.zero_add] at m1
  have hg1 : Heap.get (h ++ [some (createdObject l.data 1 l.elemSize)]) list = some l := by
    rw [Heap.get_append_left _ hp]; exact hl
  unfold object_list_pop_front poppedFrontObject
  simp only [hl, Option.bind_eq_bind, Option.some_bind, Option.pure_def,
    object_list_create_eq h l.data 1 l.elemSize h1 hh, hg1, calloc, wdec_pos hc,
    wdec_pos (le_trans hc hcap), Heap.put_append_left _ _ hp, Heap.put_put]
  rw [Heap.get_append_left _ (by rw [Heap.length_put]; exact hp), Heap.get_put_same _ hp]
  simp only [Option.some_bind, m1]
  have hg2 := Heap.get_snoc (Heap.put h list
      { data := List.take ((l.count - 1) * l.elemSize) (List.drop l.elemSize l.data) ++
          List.replicate ((l.capacity - 1) * l.elemSize - (l.count - 1) * l.elemSize) 0,
        refcount := l.refcount, elemSize := l.elemSize, count := l.count - 1,
        capacity := l.capacity, recurse := l.recurse, type := l.type })
      (createdObject l.data 1 l.elemSize)
  rw [Heap.length_put] at hg2
  rw [object_list_to_single_eq junk hg2 rfl rfl]
  have := Heap.put_append_right (Heap.put h list
      { data := List.take ((l.count - 1) * l.elemSize) (List.drop l.elemSize l.data) ++
          List.replicate ((l.capacity - 1) * l.elemSize - (l.count - 1) * l.elemSize) 0,
        refcount := l.refcount, elemSize := l.elemSize, count := l.count - 1,
        capacity := l.capacity, recurse := l.recurse, type := l.type })
      (createdObject l.data 1 l.elemSize) (singleObject junk (createdObject l.data 1 l.elemSize))
  rw [Heap.length_put] at this
  simp only [this, Option.some_bind]

theorem length_ptrBytes (p : Nat) : (ptrBytes p).length = 8 := by
  simp [ptrBytes, sizeofPtr]

theorem object_list_pop_back_eq (junk : Nat → Nat) {h : Heap} {list : Nat} {l : Object}
    (hl : h.get list = some l) (hh : h.length < SIZE_MAX1)
    (hc : 1 ≤ l.count) (hbuf : l.count - 1 + l.elemSize ≤ l.data.length) :
    object_list_pop_back junk h list =
      some (h.put list (poppedBackObject l) ++
        [some (singleObject junk (createdObject (l.data.drop (l.count - 1)) 1 l.elemSize))],
        h.length) := by
  have hp := Heap.get_lt hl
  have hc0 : ¬ l.count = 0 := by omega
  have h1 : 1 * l.elemSize ≤ (l.data.drop (l.count - 1)).length := by simp; omega
  have hg1 : Heap.get (h ++ [some (createdObject (l.data.drop (l.count - 1)) 1 l.elemSize)])
      list = some l := by
    rw [Heap.get_append_left _ hp]; exact hl
  unfold object_list_pop_back poppedBackObject
  simp only [hl, Option.bind_eq_bind, Option.some_bind, Option.pure_def, hc0, if_false,
    object_list_create_eq h _ 1 l.elemSize h1 hh, hg1, wdec_pos hc,
    Heap.put_append_left _ _ hp]
  have hg2 := Heap.get_snoc (Heap.put h list { l with count := l.count - 1 })
      (createdObject (l.data.drop (l.count - 1)) 1 l.elemSize)
  rw [Heap.length_put] at hg2
  rw [object_list_to_single_eq junk hg2 rfl rfl]
  have := Heap.put_append_right (Heap.put h list { l with count := l.count - 1 })
      (createdObject (l.data.drop (l.count - 1)) 1 l.elemSize)
      (singleObject junk (createdObject (l.data.drop (l.count - 1)) 1 l.elemSize))
  rw [Heap.length_put] at this
  simp only [this, Option.some_bind]

theorem object_list_push_back_object_eq (junk : Nat → Nat) {h : Heap} {list value : Nat}
    {l v : Object} (hl : h.get list = some l) (hv : h.get value = some v) (hne : list ≠ value)
    (hr : l.recurse = true) (hes : l.elemSize ≤ 8)
    (hroom : (l.count + 1) * l.elemSize ≤
      if l.count ≥ l.capacity then (l.capacity + 1) * 2 % SIZE_MAX1 * l.elemSize
      else l.data.length) :
    object_list_push_back_object junk h list value =
      some ((h.put value { v with refcount := (v.refcount + 1) % SIZE_MAX1 }).put list
        (pushedBackObject junk l value)) := by
  have hp := Heap.get_lt hl
  have hpv := Heap.get_lt hv
  have hs : l.elemSize ≤ (ptrBytes value).length := by rw [length_ptrBytes]; exact hes
  have hl1 : (h.put value { v with refcount := (v.refcount + 1) % SIZE_MAX1 }).get list =
      some l := by
    rw [Heap.get_put_ne _ (Ne.symm hne)]; exact hl
  have hp1 : list < (h.put value { v with refcount := (v.refcount + 1) % SIZE_MAX1 }).length := by
    rw [Heap.length_put]; exact hp
  rw [Nat.add_mul, Nat.one_mul] at hroom
  unfold object_list_push_back_object pushedBackObject
  by_cases hc : l.count ≥ l.capacity
  · rw [if_pos hc] at hroom
    have hd : l.count * l.elemSize + l.elemSize ≤
        (reallocarray junk l.data ((l.capacity + 1) * 2 % SIZE_MAX1) l.elemSize).length := by
      rw [length_reallocarray]; exact hroom
    simp only [hl, hr, if_true, object_incref_eq hv, Option.bind_eq_bind, Option.some_bind,
      Option.pure_def, hl1, hc, object_list_resize_eq junk _ hl1, Heap.get_put_same _ hp1,
      memcpy_eq hs hd, Heap.put_put]
  · rw [if_neg hc] at hroom
    simp only [hl, hr, if_true, object_incref_eq hv, Option.bind_eq_bind, Option.some_bind,
      Option.pure_def, hl1, hc, if_false, Heap.get_put_same _ hp1,
      memcpy_eq hs hroom, Heap.put_put]

theorem object_list_push_back_object_eq_none (junk : Nat → Nat) {h : Heap} {list value : Nat}
    {l v : Object} (hl : h.get list = some l) (hv : h.get value = some v)
    (hr : l.recurse = true)
    (hn : ¬ (l.elemSize ≤ 8 ∧ (l.count + 1) * l.elemSize ≤
      if l.count ≥ l.capacity then (l.capacity + 1) * 2 % SIZE_MAX1 * l.elemSize
      else l.data.length)) :
    object_list_push_back_object junk h list value = none := by
  have hp := Heap.get_lt hl
  rw [Nat.add_mul, Nat.one_mul] at hn
  have key : ∃ l1, (h.put value { v with refcount := (v.refcount + 1) % SIZE_MAX1 }).get list =
      some l1 ∧ l1.count = l.count ∧ l1.capacity = l.capacity ∧ l1.elemSize = l.elemSize ∧
      l1.data = l.data := by
    by_cases hne : value = list
    · subst hne
      rw [hl] at hv
      cases hv
      exact ⟨_, Heap.get_put_same _ hp, rfl, rfl, rfl, rfl⟩
    · exact ⟨l, by rw [Heap.get_put_ne _ hne]; exact hl, rfl, rfl, rfl, rfl⟩
  obtain ⟨l1, hl1, e1, e2, e3, e4⟩ := key
  have hp1 : list < (h.put value { v with refcount := (v.refcount + 1) % SIZE_MAX1 }).length := by
    rw [Heap.length_put]; exact hp
  unfold object_list_push_back_object
  by_cases hc : l.count ≥ l.capacity
  · rw [if_pos hc] at hn
    have hm : memcpy (reallocarray junk l.data ((l.capacity + 1) * 2 % SIZE_MAX1) l.elemSize)
        (l.count * l.elemSize) (ptrBytes value) l.elemSize = none :=
      memcpy_eq_none (by rw [length_reallocarray, length_ptrBytes]; exact hn)
    simp only [hl, hr, if_true, object_incref_eq hv, Option.bind_eq_bind, Option.some_bind,
      Option.pure_def, hl1, e1, e2, e3, e4, hc, object_list_resize_eq junk _ hl1,
      Heap.get_put_same _ hp1, hm, Option.none_bind]
  · rw [if_neg hc] at hn
    have hm : memcpy l.data (l.count * l.elemSize) (ptrBytes value) l.elemSize = none :=
      memcpy_eq_none (by rw [length_ptrBytes]; exact hn)
    simp only [hl, hr, if_true, object_incref_eq hv, Option.bind_eq_bind, Option.some_bind,
      Option.pure_def, hl1, e1, e2, e3, e4, hc, if_false, hm, Option.none_bind]

theorem object_list_push_back_object_eq_self (junk : Nat → Nat) {h : Heap} {list : Nat}
    {l : Object} (hl : h.get list = some l)
    (hr : l.recurse = true) (hes : l.elemSize ≤ 8)
    (hroom : (l.count + 1) * l.elemSize ≤
      if l.count ≥ l.capacity then (l.capacity + 1) * 2 % SIZE_MAX1 * l.elemSize
      else l.data.length) :
    object_list_push_back_object junk h list list =
      some (h.put list
        (pushedBackObject junk
          (Object.mk l.data ((l.refcount + 1) % SIZE_MAX1) l.elemSize l.count l.capacity
            l.recurse l.type) list)) := by
  have hp := Heap.get_lt hl
  have hs : l.elemSize ≤ (ptrBytes list).length := by rw [length_ptrBytes]; exact hes
  have hp1 : list < (h.put list (Object.mk l.data ((l.refcount + 1) % SIZE_MAX1) l.elemSize
      l.count l.capacity l.recurse l.type)).length := by rw [Heap.length_put]; exact hp
  rw [Nat.add_mul, Nat.one_mul] at hroom
  unfold object_list_push_back_object pushedBackObject
  by_cases hc : l.count ≥ l.capacity
  · rw [if_pos hc] at hroom
    have hd : l.count * l.elemSize + l.elemSize ≤
        (reallocarray junk l.data ((l.capacity + 1) * 2 % SIZE_MAX1) l.elemSize).length := by
      rw [length_reallocarray]; exact hroom
    simp only [hl, hr, if_true, object_incref_eq hl, Option.bind_eq_bind, Option.some_bind,
      Option.pure_def, hc, Heap.get_put_same _ hp, Heap.get_put_same _ hp1,
      object_list_resize_eq junk _ (Heap.get_put_same _ hp), memcpy_eq hs hd, Heap.put_put]
  · rw [if_neg hc] at hroom
    simp only [hl, hr, if_true, object_incref_eq hl, Option.bind_eq_bind, Option.some_bind,
      Option.pure_def, hc, if_false, Heap.get_put_same _ hp, Heap.get_put_same _ hp1,
      memcpy_eq hs hroom, Heap.put_put]

theorem element_eq_content (o : Object) (i : Nat) (hi : i < o.count) :
    element o i = ((content o).drop (i * o.elemSize)).take o.elemSize := by
  unfold element content
  rw [List.drop_take, List.take_take]
  congr 1
  have : (i + 1) * o.elemSize ≤ o.count * o.elemSize := Nat.mul_le_mul_right _ hi
  have e : (i + 1) * o.elemSize = i * o.elemSize + o.elemSize := by ring
  omega

theorem length_content (o : Object) (hb : o.count * o.elemSize ≤ o.data.length) :
    (content o).length = o.count * o.elemSize := by
  simp [content]; omega

theorem element_of_content_append {a : Object} {ca cb : List Nat} {es n : Nat}
    (hes : a.elemSize = es) (hc : content a = ca ++ cb) (hn : ca.length = n * es) :
    (∀ i, i < n → i < a.count → element a i = (ca.drop (i * es)).take es) ∧
    (∀ j, n + j < a.count → element a (n + j) = (cb.drop (j * es)).take es) := by
  constructor
  · intro i hi hia
    rw [element_eq_content a i hia, hc, hes]
    have : (i + 1) * es ≤ n * es := Nat.mul_le_mul_right _ hi
    have e : (i + 1) * es = i * es + es := by ring
    rw [List.drop_append_of_le_length (by omega), List.take_append_of_le_length (by simp; omega)]
  · intro j hj
    rw [element_eq_content a (n + j) hj, hc, hes]
    have e : (n + j) * es = ca.length + j * es := by rw [hn]; ring
    rw [e, List.drop_append]

theorem singleObject_createdObject (junk : Nat → Nat) (src : List Nat) (es : Nat)
    (hs : es ≤ src.length) :
    singleObject junk (createdObject src 1 es) = scalarObject (src.take es) es := by
  unfold singleObject createdObject scalarObject
  simp only [Nat.one_mul]
  rw [reallocarray_shrink junk _ _ _ (by simp)]
  simp only [Nat.one_mul]
  rw [List.take_append_of_le_length (by simp; exact hs), List.take_take]
  simp

theorem element_zero (o : Object) : element o 0 = o.data.take o.elemSize := by
  simp [element]

theorem content_poppedFrontObject (l : Object) (hc : 1 ≤ l.count)
    (hbuf : l.count * l.elemSize ≤ l.data.length) :
    content (poppedFrontObject l) = (content l).drop l.elemSize := by
  have e1 : l.count * l.elemSize = (l.count - 1) * l.elemSize + l.elemSize := by
    have : l.count = (l.count - 1) + 1 := by omega
    nth_rewrite 1 [this]; ring
  unfold content poppedFrontObject
  simp only [wdec_pos hc]
  rw [List.take_append_of_le_length (by simp; omega), List.take_take, List.drop_take]
  congr 1
  omega

theorem length_data_poppedFrontObject (l : Object) (hc : 1 ≤ l.count)
    (hcap : l.count ≤ l.capacity) (hbuf : l.count * l.elemSize ≤ l.data.length) :
    (poppedFrontObject l).data.length = (l.capacity - 1) * l.elemSize := by
  have e1 : l.count * l.elemSize = (l.count - 1) * l.elemSize + l.elemSize := by
    have : l.count = (l.count - 1) + 1 := by omega
    nth_rewrite 1 [this]; ring
  have h3 : (l.count - 1) * l.elemSize ≤ (l.capacity - 1) * l.elemSize :=
    Nat.mul_le_mul_right _ (by omega)
  unfold poppedFrontObject
  simp only [wdec_pos hc, wdec_pos (le_trans hc hcap)]
  simp
  omega

theorem pop_front_repeat_eq (junk : Nat → Nat) (list : Nat) :
    ∀ (k : Nat) (h : Heap) (l : Object), h.get list = some l → k ≤ l.count →
      l.count ≤ l.capacity → l.count * l.elemSize ≤ l.data.length →
      h.length + k ≤ SIZE_MAX1 →
      ∃ h2 l2, pop_front_repeat junk k h list = some (h2, (List.range k).map (h.length + ·)) ∧
        h2.length = h.length + k ∧ h2.get list = some l2 ∧
        content l2 = (content l).drop (k * l.elemSize) ∧ l2.count = l.count - k ∧
        l2.elemSize = l.elemSize ∧ l2.type = l.type ∧ l2.capacity = l.capacity ∧
        (∀ p, p < h.length → p ≠ list → h2.get p = h.get p) ∧
        ∀ j, j < k → h2.get (h.length + j) = some (scalarObject (element l j) l.elemSize) := by
  intro k
  induction k with
  | zero =>
    intro h l hl _ _ _ _
    exact ⟨h, l, by simp [pop_front_repeat], by simp, hl, by simp, by simp, rfl, rfl, rfl,
      fun _ _ _ => rfl, fun j hj => absurd hj (Nat.not_lt_zero j)⟩
  | succ k ih =>
    intro h l hl hk hcap hbuf hh
    have hp := Heap.get_lt hl
    have hc : 1 ≤ l.count := by omega
    have e1 : l.count * l.elemSize = (l.count - 1) * l.elemSize + l.elemSize := by
      have : l.count = (l.count - 1) + 1 := by omega
      nth_rewrite 1 [this]; ring
    have hstep := object_list_pop_front_eq junk hl (by omega) hc hcap hbuf
    rw [singleObject_createdObject junk l.data l.elemSize (by omega), ← element_zero] at hstep
    have hl1 : Heap.get (h.put list (poppedFrontObject l) ++
        [some (scalarObject (element l 0) l.elemSize)]) list = some (poppedFrontObject l) := by
      rw [Heap.get_append_left _ (by rw [Heap.length_put]; exact hp), Heap.get_put_same _ hp]
    have hlen1 : (h.put list (poppedFrontObject l) ++
        [some (scalarObject (element l 0) l.elemSize)]).length = h.length + 1 := by
      simp [Heap.length_put]
    have hcnt : (poppedFrontObject l).count = l.count - 1 := by
      simp [poppedFrontObject, wdec_pos hc]
    have hes : (poppedFrontObject l).elemSize = l.elemSize := rfl
    have hcp : (poppedFrontObject l).capacity = l.capacity := rfl
    have hty : (poppedFrontObject l).type = l.type := rfl
    have hdl := length_data_poppedFrontObject l hc hcap hbuf
    have h3 : (l.count - 1) * l.elemSize ≤ (l.capacity - 1) * l.elemSize :=
      Nat.mul_le_mul_right _ (by omega)
    obtain ⟨h2, l2, hrep, hlen2, hl2, hcont2, hcnt2, hes2, hty2, hcp2, hframe, hsc⟩ :=
      ih _ (poppedFrontObject l) hl1 (by rw [hcnt]; omega) (by rw [hcnt, hcp]; omega)
        (by rw [hcnt, hes, hdl]; exact h3) (by rw [hlen1]; omega)
    refine ⟨h2, l2, ?_, by rw [hlen2, hlen1]; omega, hl2, ?_, by rw [hcnt2, hcnt]; omega,
      hes2.trans hes, hty2.trans hty, hcp2.trans hcp, ?_, ?_⟩
    · simp only [pop_front_repeat, hstep, hrep, Option.bind_eq_bind, Option.some_bind,
        Option.pure_def, hlen1]
      rw [List.range_succ_eq_map]
      simp [Function.comp_def, Nat.add_assoc, Nat.add_comm 1]
    · rw [hcont2, content_poppedFrontObject l hc hbuf, hes, List.drop_drop]
      congr 1; ring
    · intro p hp1 hpne
      rw [hframe p (by rw [hlen1]; omega) hpne,
        Heap.get_append_left _ (by rw [Heap.length_put]; exact hp1),
        Heap.get_put_ne _ (Ne.symm hpne)]
    · intro j hj
      cases j with
      | zero =>
        have hne : h.length ≠ list := by omega
        rw [Nat.add_zero, hframe h.length (by rw [hlen1]; omega) hne]
        have := Heap.get_snoc (h.put list (poppedFrontObject l))
          (scalarObject (element l 0) l.elemSize)
        rw [Heap.length_put] at this
        exact this
      | succ j =>
        have := hsc j (by omega)
        rw [hlen1, hes] at this
        rw [show h.length + (j + 1) = h.length + 1 + j by omega, this]
        congr 1
        rw [element_eq_content _ j (by rw [hcnt]; omega), element_eq_content l (j + 1) (by omega),
          content_poppedFrontObject l hc hbuf, hes, List.drop_drop]
        congr 2; ring_nf

theorem length_data_prependedObject (l o : Object) (hes : o.elemSize = l.elemSize)
    (hcap : l.count ≤ l.capacity) (hbuf : l.count * l.elemSize ≤ l.data.length)
    (hsrc : o.count * o.elemSize ≤ o.data.length) :
    (prependedObject l o).data.length = (l.capacity + o.count) * l.elemSize := by
  have e : (l.capacity + o.count) * l.elemSize =
      l.capacity * l.elemSize + o.count * l.elemSize := Nat.add_mul _ _ _
  have hcap2 := Nat.mul_le_mul_right l.elemSize hcap
  rw [hes] at hsrc
  simp [prependedObject, hes]
  omega

theorem content_prependedObject (l o : Object) (hes : o.elemSize = l.elemSize)
    (hbuf : l.count * l.elemSize ≤ l.data.length)
    (hsrc : o.count * o.elemSize ≤ o.data.length) :
    content (prependedObject l o) = content o ++ content l := by
  have e : (l.count + o.count) * l.elemSize = l.count * l.elemSize + o.count * l.elemSize := by
    ring
  rw [hes] at hsrc
  unfold content prependedObject
  simp only [hes, e]
  rw [List.take_append_of_le_length (by simp; omega)]
  rw [List.take_of_length_le (by simp; omega)]

/-- C7: after `object_list_prepend(A, B)` on two distinct lists of the same element size, `k`
successive calls of `object_list_pop_front(A)` (for every `k` up to `B.count` plus the
original count of `A`) return, in call order, Scalar containers holding the elements of `B`
in their original order followed by the original elements of `A` in their original order. -/
theorem object_list_prepend_pop_front_spec (junk : Nat → Nat) (h : Heap) (list olist : Nat)
    (A B : Object) (hA : h.get list = some A) (hB : h.get olist = some B) (hne : list ≠ olist)
    (hes : B.elemSize = A.elemSize) (hcap : A.count ≤ A.capacity)
    (hbufA : A.count * A.elemSize ≤ A.data.length)
    (hbufB : B.count * B.elemSize ≤ B.data.length)
    (k : Nat) (hk : k ≤ B.count + A.count) (hh : h.length + k ≤ SIZE_MAX1) :
    ∃ h1 h2 ps, object_list_prepend h list olist = some h1 ∧
      pop_front_repeat junk k h1 list = some (h2, ps) ∧ ps.length = k ∧
      ∀ j, j < k → ∃ p, ps[j]? = some p ∧
        h2.get p = some (scalarObject
          (if j < B.count then element B j else element A (j - B.count)) A.elemSize) := by
  have hp := Heap.get_lt hA
  have hpre := object_list_prepend_eq hA hB hne hes hcap hbufA (by rw [← hes]; exact hbufB)
  have hcont := content_prependedObject A B hes hbufA hbufB
  have hdl := length_data_prependedObject A B hes hcap hbufA hbufB
  have hcnt : (prependedObject A B).count = A.count + B.count := rfl
  have hcp : (prependedObject A B).capacity = A.capacity + B.count := rfl
  have hes2 : (prependedObject A B).elemSize = A.elemSize := rfl
  have hl1 : (h.put list (prependedObject A B)).get list = some (prependedObject A B) :=
    Heap.get_put_same _ hp
  have hlenB : (content B).length = B.count * A.elemSize := by
    rw [length_content B hbufB, hes]
  obtain ⟨e1, e2⟩ := element_of_content_append hes2 hcont hlenB
  obtain ⟨h2, l2, hrep, -, -, -, -, -, -, -, -, hsc⟩ :=
    pop_front_repeat_eq junk list k (h.put list (prependedObject A B)) (prependedObject A B)
      hl1 (by rw [hcnt]; omega) (by rw [hcnt, hcp]; omega)
      (by rw [hcnt, hes2, hdl]; exact Nat.mul_le_mul_right _ (by omega))
      (by rw [Heap.length_put]; exact hh)
  refine ⟨_, h2, _, hpre, hrep, by simp, ?_⟩
  intro j hj
  refine ⟨(h.put list (prependedObject A B)).length + j, by simp [hj], ?_⟩
  rw [hsc j hj, hes2]
  congr 1
  by_cases hjB : j < B.count
  · rw [if_pos hjB, e1 j hjB (by rw [hcnt]; omega), element_eq_content B j hjB, hes]
  · rw [if_neg hjB]
    obtain ⟨m, rfl⟩ : ∃ m, j = B.count + m := ⟨j - B.count, by omega⟩
    rw [e2 m (by rw [hcnt]; omega), Nat.add_sub_cancel_left,
      element_eq_content A m (by omega)]

theorem element_scalarObject (bytes : List Nat) (es : Nat) (hb : bytes.length = es) :
    element (scalarObject bytes es) 0 = bytes := by
  simp [element, scalarObject, ← hb]

theorem length_element (o : Object) (i : Nat) (hi : i < o.count)
    (hbuf : o.count * o.elemSize ≤ o.data.length) : (element o i).length = o.elemSize := by
  have : (i + 1) * o.elemSize ≤ o.count * o.elemSize := Nat.mul_le_mul_right _ hi
  have e : (i + 1) * o.elemSize = i * o.elemSize + o.elemSize := by ring
  simp [element]; omega

/-- C9: `object_list_pop_front` on a list with `count >= 1` (and `count <= capacity`, a buffer
holding the `count` elements) returns a container that was not allocated before, with
refcount 1, shape Scalar (`TYPE_OBJECT`), `count = capacity = 1`, holding the old element 0;
afterwards the list has its count decremented by one, its elements are the old elements
`1 .. count - 1` in the same order, and its shape is still `TYPE_LIST`, whatever the new
count. -/
theorem object_list_pop_front_spec (junk : Nat → Nat) (h : Heap) (list : Nat) (l : Object)
    (hl : h.get list = some l) (hh : h.length < SIZE_MAX1) (ht : l.type = ObjectType.TYPE_LIST)
    (hc : 1 ≤ l.count) (hcap : l.count ≤ l.capacity)
    (hbuf : l.count * l.elemSize ≤ l.data.length) :
    ∃ h' r o l', object_list_pop_front junk h list = some (h', r) ∧
      h.get r = none ∧ h'.get r = some o ∧
      o.refcount = 1 ∧ o.type = ObjectType.TYPE_OBJECT ∧ o.count = 1 ∧ o.capacity = 1 ∧
      o.elemSize = l.elemSize ∧ element o 0 = element l 0 ∧
      h'.get list = some l' ∧ l'.count = l.count - 1 ∧ l'.elemSize = l.elemSize ∧
      (∀ i, i + 1 < l.count → element l' i = element l (i + 1)) ∧
      l'.type = ObjectType.TYPE_LIST := by
  have hp := Heap.get_lt hl
  have hstep := object_list_pop_front_eq junk hl hh hc hcap hbuf
  have e1 : l.count * l.elemSize = (l.count - 1) * l.elemSize + l.elemSize := by
    have : l.count = (l.count - 1) + 1 := by omega
    nth_rewrite 1 [this]; ring
  rw [singleObject_createdObject junk l.data l.elemSize (by omega), ← element_zero] at hstep
  have hcnt : (poppedFrontObject l).count = l.count - 1 := by
    simp [poppedFrontObject, wdec_pos hc]
  refine ⟨_, _, scalarObject (element l 0) l.elemSize, poppedFrontObject l, hstep, ?_, ?_,
    rfl, rfl, rfl, rfl, rfl, element_scalarObject _ _ (length_element l 0 (by omega) hbuf),
    ?_, hcnt, rfl, ?_, ht⟩
  · simp [Heap.get]
  · have := Heap.get_snoc (h.put list (poppedFrontObject l))
      (scalarObject (element l 0) l.elemSize)
    rw [Heap.length_put] at this
    exact this
  · rw [Heap.get_append_left _ (by rw [Heap.length_put]; exact hp), Heap.get_put_same _ hp]
  · intro i hi
    rw [element_eq_content _ i (by rw [hcnt]; omega), element_eq_content l (i + 1) hi,
      content_poppedFrontObject l hc hbuf, List.drop_drop]
    show List.take l.elemSize (List.drop (l.elemSize + i * l.elemSize) (content l)) = _
    congr 2; ring

/-- C8, at the failing input: the list created from the two 2-byte elements `[1, 2]` and
`[3, 4]` has last element `[3, 4]`, and `object_list_pop_back` returns a Scalar container
holding the bytes `[2, 3]`: the source pointer `list->data + list->count - 1` is an offset of
`count - 1` bytes, not of `count - 1` elements. -/
theorem object_list_pop_back_wrong_element (junk : Nat → Nat) :
    ∃ h1 list l h2 r o, object_list_create [] [1, 2, 3, 4] 2 2 = some (h1, list) ∧
      h1.get list = some l ∧ l.count = 2 ∧ l.elemSize = 2 ∧ element l (l.count - 1) = [3, 4] ∧
      object_list_pop_back junk h1 list = some (h2, r) ∧ h2.get r = some o ∧
      o.type = ObjectType.TYPE_OBJECT ∧ o.count = 1 ∧ o.data = [2, 3] := by
  have hc := object_list_create_eq [] [1, 2, 3, 4] 2 2 (by decide) (by decide)
  have hl : Heap.get ([] ++ [some (createdObject [1, 2, 3, 4] 2 2)]) 0 =
      some (createdObject [1, 2, 3, 4] 2 2) := by
    simp [Heap.get]
  have hpb := object_list_pop_back_eq junk hl (by decide) (by decide) (by decide)
  rw [singleObject_createdObject junk _ _ (by decide)] at hpb
  refine ⟨_, _, createdObject [1, 2, 3, 4] 2 2, _, _,
    scalarObject (((createdObject [1, 2, 3, 4] 2 2).data.drop
      ((createdObject [1, 2, 3, 4] 2 2).count - 1)).take (createdObject [1, 2, 3, 4] 2 2).elemSize)
      (createdObject [1, 2, 3, 4] 2 2).elemSize,
    hc, hl, rfl, rfl, by decide, hpb, ?_, rfl, rfl, by decide⟩
  simp [Heap.get, Heap.put]

theorem foldr_bytes (k : Nat) : ∀ p : Nat,
    ((List.range k).map (fun i => p / 256 ^ i % 256)).foldr (fun b acc => b + 256 * acc) 0 =
      p % 256 ^ k := by
  induction k with
  | zero => intro p; simp [Nat.mod_one]
  | succ k ih =>
    intro p
    rw [List.range_succ_eq_map, List.map_cons, List.map_map, List.foldr_cons]
    have : ((fun i => p / 256 ^ i % 256) ∘ Nat.succ) = fun i => p / 256 / 256 ^ i % 256 := by
      funext i
      simp [Nat.pow_succ, Nat.div_div_eq_div_mul, Nat.mul_comm]
    rw [this, ih (p / 256), Nat.pow_succ, Nat.mul_comm (256 ^ k) 256, Nat.mod_mul]
    simp

theorem bytesPtr_ptrBytes (p : Nat) (rest : List Nat) (hp : p < SIZE_MAX1) :
    bytesPtr (ptrBytes p ++ rest) = p := by
  unfold bytesPtr
  rw [List.take_append_of_le_length (by rw [length_ptrBytes]; decide),
    List.take_of_length_le (by rw [length_ptrBytes]; decide)]
  unfold ptrBytes
  rw [foldr_bytes sizeofPtr p]
  exact Nat.mod_eq_of_lt hp

theorem take_write (d pb : List Nat) (k m : Nat) (hk : k + m ≤ d.length) (hpb : pb.length = m) :
    (d.take k ++ pb ++ d.drop (k + m)).take (k + m) = d.take k ++ pb ∧
    (d.take k ++ pb ++ d.drop (k + m)).length = d.length := by
  constructor
  · rw [List.take_append_of_le_length (by simp; omega), List.take_of_length_le (by simp; omega)]
  · simp; omega

theorem length_flatten_ptrBytes (base n : Nat) :
    (((List.range n).map (fun j => ptrBytes (base + j))).flatten).length = n * sizeofPtr := by
  induction n with
  | zero => simp
  | succ n ih =>
    rw [List.range_succ, List.map_append, List.flatten_append, List.length_append, ih]
    simp [length_ptrBytes, sizeofPtr]
    ring

theorem pow2_room (cap k : Nat) (hk : cap + 2 = 2 ^ k) (hc : cap + 3 ≤ SIZE_MAX1) :
    (cap + 1) * 2 < SIZE_MAX1 ∧ (cap + 1) * 2 + 2 = 2 ^ (k + 1) := by
  have h64 : SIZE_MAX1 = 2 ^ 64 := rfl
  have hlt : k < 64 := by
    by_contra hge
    have := Nat.pow_le_pow_right (show 0 < 2 by decide) (show 64 ≤ k by omega)
    omega
  have hle := Nat.pow_le_pow_right (show 0 < 2 by decide) (show k + 1 ≤ 64 by omega)
  have e : 2 ^ (k + 1) = 2 ^ k * 2 := Nat.pow_succ 2 k
  omega

theorem SplitResult_room (base : Nat) (R : Object) (n : Nat) (hR : SplitResult base R n)
    (hn : n + 3 ≤ SIZE_MAX1) :
    (R.count + 1) * R.elemSize ≤
      if R.count ≥ R.capacity then (R.capacity + 1) * 2 % SIZE_MAX1 * R.elemSize
      else R.data.length := by
  obtain ⟨hrec, hes, hrc, hty, hcnt, hcap, hlen, htake, k, hk⟩ := hR
  by_cases hc : R.count ≥ R.capacity
  · rw [if_pos hc]
    have hp := pow2_room R.capacity k hk (by omega)
    rw [Nat.mod_eq_of_lt hp.1]
    exact Nat.mul_le_mul_right _ (by omega)
  · rw [if_neg hc, hlen, hes]
    exact Nat.mul_le_mul_right _ (by omega)

theorem SplitResult_pushedBackObject (junk : Nat → Nat) (base : Nat) (R : Object) (n : Nat)
    (hR : SplitResult base R n) (hn : n + 3 ≤ SIZE_MAX1) :
    SplitResult base (pushedBackObject junk R (base + n)) (n + 1) := by
  obtain ⟨hrec, hes, hrc, hty, hcnt, hcap, hlen, htake, k, hk⟩ := hR
  have hpb : (ptrBytes (base + n)).take sizeofPtr = ptrBytes (base + n) :=
    List.take_of_length_le (by rw [length_ptrBytes]; decide)
  have e8 : sizeofPtr = 8 := rfl
  have hn8 : n * sizeofPtr ≤ R.data.length := by
    rw [hlen, ← hcnt]; exact Nat.mul_le_mul_right _ hcap
  have key : ∃ (d : List Nat) (cap : Nat), pushedBackObject junk R (base + n) =
      { R with data := d.take (n * sizeofPtr) ++ ptrBytes (base + n) ++
                 d.drop (n * sizeofPtr + sizeofPtr),
               capacity := cap, count := n + 1 } ∧
      d.length = cap * sizeofPtr ∧ d.take (n * sizeofPtr) = R.data.take (n * sizeofPtr) ∧
      n + 1 ≤ cap ∧ ∃ k2, cap + 2 = 2 ^ k2 := by
    unfold pushedBackObject
    by_cases hc : R.count ≥ R.capacity
    · rw [if_pos hc]
      have hp := pow2_room R.capacity k hk (by omega)
      rw [Nat.mod_eq_of_lt hp.1]
      refine ⟨reallocarray junk R.data ((R.capacity + 1) * 2) sizeofPtr, (R.capacity + 1) * 2,
        by simp only [hes, hcnt, hpb], length_reallocarray _ _ _ _,
        take_reallocarray junk _ _ _ _ hn8 (by rw [e8]; omega), by omega, k + 1, hp.2⟩
    · rw [if_neg hc]
      exact ⟨R.data, R.capacity, by simp only [hes, hcnt, hpb], hlen, rfl, by omega, k, hk⟩
  obtain ⟨d, cap, hpush, hdlen, hdtake, hncap, hpow⟩ := key
  have hw := take_write d (ptrBytes (base + n)) (n * sizeofPtr) sizeofPtr
    (by rw [hdlen, e8]; omega) (length_ptrBytes _)
  rw [hpush]
  refine ⟨hrec, hes, hrc, hty, rfl, hncap, ?_, ?_, hpow⟩
  · show (d.take (n * sizeofPtr) ++ ptrBytes (base + n) ++
      d.drop (n * sizeofPtr + sizeofPtr)).length = cap * sizeofPtr
    rw [hw.2, hdlen]
  · show (d.take (n * sizeofPtr) ++ ptrBytes (base + n) ++
      d.drop (n * sizeofPtr + sizeofPtr)).take ((n + 1) * sizeofPtr) = _
    rw [Nat.add_mul, Nat.one_mul, hw.1, hdtake, htake, List.range_succ, List.map_append,
      List.flatten_append]
    simp

theorem Heap.get_mid (h0 T : Heap) (R : Object) :
    Heap.get (h0 ++ [some R] ++ T) h0.length = some R := by
  have := Heap.get_append_right h0 ([some R] ++ T) 0
  rw [List.append_assoc]
  simpa [Heap.get] using this

theorem Heap.put_mid (h0 T : Heap) (R R2 : Object) :
    Heap.put (h0 ++ [some R] ++ T) h0.length R2 = h0 ++ [some R2] ++ T := by
  simp [Heap.put]

theorem Heap.get_last (H : Heap) (b : Object) (n : Nat) (hn : n = H.length) :
    Heap.get (H ++ [some b]) n = some b := by
  subst hn; simp [Heap.get]

theorem Heap.put_last (H : Heap) (b b2 : Object) (n : Nat) (hn : n = H.length) :
    Heap.put (H ++ [some b]) n b2 = H ++ [some b2] := by
  subst hn; simp [Heap.put]

/-- One segment of `object_list_split`: `object_list_create`, `object_list_push_back_object`
into the result list at `h0.length`, `object_decref`. -/
theorem split_emit (junk : Nat → Nat) (fuel : Nat) (h0 : Heap) (R : Object)
    (segs : List Object) (src : List Nat) (n es : Nat)
    (hR : SplitResult (h0.length + 1) R segs.length) (hs : n * es ≤ src.length)
    (hh : h0.length + 1 + segs.length < SIZE_MAX1) (h01 : 1 ≤ h0.length) :
    ∃ R2, SplitResult (h0.length + 1) R2 (segs.length + 1) ∧
      object_list_create (h0 ++ [some R] ++ segs.map some) src n es =
        some (h0 ++ [some R] ++ segs.map some ++ [some (createdObject src n es)],
          h0.length + 1 + segs.length) ∧
      object_list_push_back_object junk
        (h0 ++ [some R] ++ segs.map some ++ [some (createdObject src n es)])
        h0.length (h0.length + 1 + segs.length) =
        some (h0 ++ [some R2] ++ segs.map some ++
          [some { createdObject src n es with refcount := 2 }]) ∧
      object_decref (fuel + 1)
        (h0 ++ [some R2] ++ segs.map some ++
          [some { createdObject src n es with refcount := 2 }])
        (h0.length + 1 + segs.length) =
        some (h0 ++ [some R2] ++ (segs ++ [createdObject src n es]).map some) := by
  have hlenH : (h0 ++ [some R] ++ segs.map some).length = h0.length + 1 + segs.length := by
    simp; omega
  have hR0 := hR
  have hroom := SplitResult_room _ R _ hR (by omega)
  obtain ⟨hrec, hes, hrc, hty, hcnt, hcap, hlen, htake, -⟩ := hR
  refine ⟨pushedBackObject junk R (h0.length + 1 + segs.length),
    SplitResult_pushedBackObject junk _ R _ hR0 (by omega), ?_, ?_, ?_⟩
  · rw [object_list_create_eq _ src n es hs (by rw [hlenH]; exact hh), hlenH]
  · have hl : Heap.get (h0 ++ [some R] ++ segs.map some ++ [some (createdObject src n es)])
        h0.length = some R := by
      rw [List.append_assoc (h0 ++ [some R])]
      exact Heap.get_mid h0 _ R
    have hv := Heap.get_last (h0 ++ [some R] ++ segs.map some) (createdObject src n es)
      (h0.length + 1 + segs.length) hlenH.symm
    rw [object_list_push_back_object_eq junk hl hv (by omega) hrec (by rw [hes]; decide) hroom]
    rw [Heap.put_last _ _ _ _ hlenH.symm, List.append_assoc (h0 ++ [some R]), Heap.put_mid,
      ← List.append_assoc]
    rfl
  · have hlen2 : (h0 ++ [some (pushedBackObject junk R (h0.length + 1 + segs.length))] ++
        segs.map some).length = h0.length + 1 + segs.length := by simp; omega
    have hv := Heap.get_last (h0 ++ [some (pushedBackObject junk R (h0.length + 1 + segs.length))]
      ++ segs.map some) { createdObject src n es with refcount := 2 }
      (h0.length + 1 + segs.length) hlen2.symm
    rw [object_decref_eq_of_shared fuel hv (le_refl 2), Heap.put_last _ _ _ _ hlen2.symm]
    simp [createdObject]

theorem split_loop_eq (junk : Nat → Nat) (h0 : Heap) (list : Nat) (l : Object)
    (value : List Nat) (vcount : Nat) (hl : h0.get list = some l) :
    ∀ (fuel i cursor : Nat) (segs : List Object) (R : Object) (rs : List (Nat × Nat)) (c : Nat),
      SplitResult (h0.length + 1) R segs.length →
      splitScan l value vcount fuel i cursor = some (rs, c) →
      h0.length + 1 + segs.length + rs.length ≤ SIZE_MAX1 →
      ∃ R2, SplitResult (h0.length + 1) R2 (segs.length + rs.length) ∧
        object_list_split_loop junk fuel (h0 ++ [some R] ++ segs.map some) list value vcount
          h0.length i cursor =
          some (h0 ++ [some R2] ++ (segs ++ rs.map (blobOf l)).map some, c) := by
  have hp := Heap.get_lt hl
  have hget : ∀ (R : Object) (T : Heap), Heap.get (h0 ++ [some R] ++ T) list = some l := by
    intro R T
    rw [List.append_assoc, Heap.get_append_left _ hp]; exact hl
  intro fuel
  induction fuel with
  | zero => intro i cursor segs R rs c _ hscan _; simp [splitScan] at hscan
  | succ fuel ih =>
    intro i cursor segs R rs c hR hscan hh
    rw [splitScan] at hscan
    rw [object_list_split_loop]
    simp only [hget, Option.bind_eq_bind, Option.some_bind, Option.pure_def]
    by_cases hi : i < l.count
    · simp only [hi, if_true] at hscan ⊢
      cases hm : memcmp_eq (l.data.drop (i * l.elemSize)) value (l.elemSize * vcount) with
      | none => simp [hm] at hscan
      | some b =>
        cases b with
        | false =>
          simp only [hm] at hscan
          simp only [Option.some_bind, Bool.false_eq_true, if_false]
          exact ih _ _ _ _ _ _ hR hscan hh
        | true =>
          simp only [hm] at hscan
          simp only [Option.some_bind, if_true]
          cases hd : udiv (i * l.elemSize - cursor) l.elemSize with
          | none => simp [hd] at hscan
          | some n =>
            simp only [hd] at hscan
            by_cases hb : n * l.elemSize ≤ (l.data.drop cursor).length
            · simp only [hb, if_true] at hscan
              cases hrec : splitScan l value vcount fuel (i + vcount * l.elemSize + 1)
                  (i * l.elemSize + vcount * l.elemSize) with
              | none => simp [hrec] at hscan
              | some res =>
                obtain ⟨rs2, c2⟩ := res
                simp only [hrec, Option.some.injEq, Prod.mk.injEq] at hscan
                obtain ⟨hrs, hc⟩ := hscan
                subst hrs; subst hc
                simp only [List.length_cons] at hh
                obtain ⟨R1, hR1, e1, e2, e3⟩ := split_emit junk fuel h0 R segs
                  (l.data.drop cursor) n l.elemSize hR hb (by omega) (by omega)
                have hR1b : SplitResult (h0.length + 1) R1
                    (segs ++ [createdObject (l.data.drop cursor) n l.elemSize]).length := by
                  simpa using hR1
                obtain ⟨R2, hR2, e4⟩ := ih (i + vcount * l.elemSize + 1)
                  (i * l.elemSize + vcount * l.elemSize)
                  (segs ++ [createdObject (l.data.drop cursor) n l.elemSize]) R1 rs2 c2 hR1b hrec
                  (by simp; omega)
                refine ⟨R2, by simpa [Nat.add_assoc, Nat.add_comm 1] using hR2, ?_⟩
                simp only [e1, e2, e3, Option.some_bind, hget, e4]
                simp [blobOf]
            · rw [if_neg hb] at hscan
              exact absurd hscan (by simp)
    · simp only [hi, if_false, Option.some.injEq, Prod.mk.injEq] at hscan ⊢
      obtain ⟨hrs, hc⟩ := hscan
      subst hrs; subst hc
      exact ⟨R, by simpa using hR, by simp⟩

theorem SplitResult_init (base : Nat) :
    SplitResult base { createdObject [] 0 sizeofPtr with recurse := true } 0 := by
  unfold SplitResult createdObject
  exact ⟨rfl, rfl, rfl, rfl, rfl, by simp, by simp, by simp, 1, rfl⟩

theorem object_list_split_eq (junk : Nat → Nat) (fuel : Nat) (h : Heap) (list : Nat)
    (l : Object) (value : List Nat) (vcount : Nat) (cuts : List (Nat × Nat))
    (hl : h.get list = some l) (hcuts : splitCuts l value vcount fuel = some cuts)
    (hh : h.length + 1 + cuts.length ≤ SIZE_MAX1) :
    ∃ R, SplitResult (h.length + 1) R cuts.length ∧
      object_list_split junk fuel h list value vcount =
        some (h ++ [some R] ++ (cuts.map (blobOf l)).map some, h.length) := by
  have hp := Heap.get_lt hl
  have hget : ∀ (R : Object) (T : Heap), Heap.get (h ++ [some R] ++ T) list = some l := by
    intro R T
    rw [List.append_assoc, Heap.get_append_left _ hp]; exact hl
  unfold splitCuts at hcuts
  unfold object_list_split
  rw [object_list_create_eq h [] 0 sizeofPtr (by simp) (by omega)]
  simp only [Option.bind_eq_bind, Option.some_bind, Option.pure_def, Heap.get_snoc,
    Heap.put_snoc]
  cases hscan : splitScan l value vcount fuel 0 0 with
  | none => simp [hscan] at hcuts
  | some res =>
    obtain ⟨rs, c⟩ := res
    simp only [hscan] at hcuts
    have hrl : rs.length ≤ cuts.length := by
      split at hcuts
      · split at hcuts
        · simp at hcuts
        · split at hcuts
          · simp at hcuts; subst hcuts; simp
          · simp at hcuts
      · simp at hcuts; subst hcuts; exact le_refl _
    obtain ⟨R1, hR1, e1⟩ := split_loop_eq junk h list l value vcount hl fuel 0 0 []
      { createdObject [] 0 sizeofPtr with recurse := true } rs c (SplitResult_init _) hscan
      (by simp; omega)
    simp only [List.map_nil, List.append_nil, List.nil_append, List.length_nil,
      Nat.zero_add] at e1 hR1
    simp only [e1, Option.some_bind, hget]
    by_cases hc : c < l.count * l.elemSize
    · simp only [hc, if_true] at hcuts ⊢
      cases hd : udiv (l.count * l.elemSize - c) l.elemSize with
      | none => simp [hd] at hcuts
      | some n =>
        simp only [hd] at hcuts
        by_cases hb : n * l.elemSize ≤ (l.data.drop c).length
        · rw [if_pos hb] at hcuts
          simp only [Option.some.injEq] at hcuts
          subst hcuts
          simp only [List.length_append, List.length_singleton] at hh
          have hR1b : SplitResult (h.length + 1) R1 (rs.map (blobOf l)).length := by
            simpa using hR1
          obtain ⟨R2, hR2, e2, e3, e4⟩ := split_emit junk fuel h R1 (rs.map (blobOf l))
            (l.data.drop c) n l.elemSize hR1b hb (by simp; omega) (by omega)
          refine ⟨R2, by simpa using hR2, ?_⟩
          simp only [e2, e3, e4, Option.some_bind]
          simp [blobOf]
        · rw [if_neg hb] at hcuts
          exact absurd hcuts (by simp)
    · simp only [hc, if_false, Option.some.injEq] at hcuts ⊢
      subst hcuts
      exact ⟨R1, hR1, rfl⟩

theorem mapM_range_eq {β : Type} (f : Nat → Option β) (ys : List β)
    (hf : ∀ i (hi : i < ys.length), f i = some ys[i]) :
    (List.range ys.length).mapM f = some ys := by
  induction ys using List.reverseRecOn with
  | nil => rfl
  | append_singleton ys y ih =>
    have h1 : (List.range ys.length).mapM f = some ys := by
      apply ih
      intro i hi
      rw [hf i (by simp; omega)]
      simp [List.getElem_append_left hi]
    have h2 : f ys.length = some y := by
      rw [hf ys.length (by simp)]
      simp
    rw [List.length_append, List.length_singleton, List.range_succ, List.mapM_append, h1,
      List.mapM_cons, List.mapM_nil, h2]
    rfl

theorem drop_flatten_ptrBytes (base n i : Nat) (hi : i < n) :
    ∃ rest, (((List.range n).map (fun j => ptrBytes (base + j))).flatten).drop (i * sizeofPtr) =
      ptrBytes (base + i) ++ rest := by
  induction n with
  | zero => omega
  | succ n ih =>
    rw [List.range_succ, List.map_append, List.flatten_append]
    by_cases hin : i < n
    · obtain ⟨rest, hrest⟩ := ih hin
      refine ⟨rest ++ ([n].map (fun j => ptrBytes (base + j))).flatten, ?_⟩
      rw [List.drop_append_of_le_length (by
        rw [length_flatten_ptrBytes]; exact Nat.mul_le_mul_right _ (by omega)), hrest,
        List.append_assoc]
    · have : i = n := by omega
      subst this
      refine ⟨[], ?_⟩
      rw [List.drop_append_eq_append_drop, List.drop_of_length_le (by
        rw [length_flatten_ptrBytes]), length_flatten_ptrBytes]
      simp

theorem children_split (h : Heap) (R : Object) (segs : List Object)
    (hR : SplitResult (h.length + 1) R segs.length)
    (hh : h.length + 1 + segs.length ≤ SIZE_MAX1) :
    children (h ++ [some R] ++ segs.map some) h.length = some segs := by
  obtain ⟨hrec, hes, hrc, hty, hcnt, hcap, hlen, htake, -⟩ := hR
  unfold children
  simp only [Heap.get_mid, Option.bind_eq_bind, Option.some_bind, hcnt]
  apply mapM_range_eq
  intro i hi
  have h8 : sizeofPtr = 8 := rfl
  have hb : i * sizeofPtr + sizeofPtr ≤ R.data.length := by
    rw [hlen, h8]; omega
  obtain ⟨rest, hrest⟩ := drop_flatten_ptrBytes (h.length + 1) segs.length i hi
  have hdrop : R.data.drop (i * sizeofPtr) =
      ptrBytes (h.length + 1 + i) ++ (rest ++ R.data.drop (segs.length * sizeofPtr)) := by
    conv_lhs => rw [← List.take_append_drop (segs.length * sizeofPtr) R.data]
    rw [htake, List.drop_append_of_le_length (by
      rw [length_flatten_ptrBytes]; exact Nat.mul_le_mul_right _ (by omega)), hrest,
      List.append_assoc]
  simp only [object_vat, hb, if_true, Option.some_bind, hdrop]
  rw [bytesPtr_ptrBytes _ _ (by omega)]
  have := Heap.get_append_right (h ++ [some R]) (segs.map some) i
  simp only [List.length_append, List.length_singleton] at this
  rw [this]
  simp [Heap.get, hi]

theorem memcmp_eq_some {a b : List Nat} {n : Nat} (ha : n ≤ a.length) (hb : n ≤ b.length) :
    memcmp_eq a b n = some (decide (a.take n = b.take n)) := by
  simp [memcmp_eq, ha, hb]

theorem memcmp_eq_true {a b : List Nat} {n : Nat} (h : memcmp_eq a b n = some true) :
    a.take n = b.take n := by
  unfold memcmp_eq at h
  split at h
  · simpa using h
  · simp at h

theorem udiv_pos (a : Nat) {b : Nat} (hb : 1 ≤ b) : udiv a b = some (a / b) := by
  unfold udiv; rw [if_neg (by omega)]

theorem splitScan_total (l : Object) (value : List Nat) (vcount : Nat)
    (hes : 1 ≤ l.elemSize) (hv : l.elemSize * vcount ≤ value.length)
    (hd : ∀ i, i < l.count → i * l.elemSize + l.elemSize * vcount ≤ l.data.length) :
    ∀ (fuel i cursor : Nat), l.count - i < fuel → cursor ≤ i * l.elemSize →
      ∃ rs c, splitScan l value vcount fuel i cursor = some (rs, c) ∧
        rs.length ≤ l.count - i := by
  intro fuel
  induction fuel with
  | zero => intro i cursor hf _; omega
  | succ fuel ih =>
    intro i cursor hf hcur
    rw [splitScan]
    by_cases hi : i < l.count
    · rw [if_pos hi]
      have hdi := hd i hi
      rw [memcmp_eq_some (by simp; omega) hv]
      by_cases hm : (l.data.drop (i * l.elemSize)).take (l.elemSize * vcount) =
          value.take (l.elemSize * vcount)
      · simp only [hm, decide_True, udiv_pos _ hes]
        have hn : (i * l.elemSize - cursor) / l.elemSize * l.elemSize ≤
            (l.data.drop cursor).length := by
          have := Nat.div_mul_le_self (i * l.elemSize - cursor) l.elemSize
          simp; omega
        rw [if_pos hn]
        have hcur2 : i * l.elemSize + vcount * l.elemSize ≤
            (i + vcount * l.elemSize + 1) * l.elemSize := by
          have : vcount * l.elemSize ≤ vcount * l.elemSize * l.elemSize :=
            Nat.le_mul_of_pos_right _ (by omega)
          nlinarith
        obtain ⟨rs, c, hrs, hlen⟩ := ih (i + vcount * l.elemSize + 1)
          (i * l.elemSize + vcount * l.elemSize) (by omega) hcur2
        exact ⟨(cursor, (i * l.elemSize - cursor) / l.elemSize) :: rs, c, by simp only [hrs],
          by simp; omega⟩
      · simp only [hm, decide_False]
        obtain ⟨rs, c, hrs, hlen⟩ := ih (i + 1) cursor (by omega)
          (le_trans hcur (Nat.mul_le_mul_right _ (by omega)))
        exact ⟨rs, c, hrs, by omega⟩
    · rw [if_neg hi]
      exact ⟨[], cursor, rfl, by simp⟩

theorem splitScan_cursor_le (l : Object) (value : List Nat) (vcount : Nat) :
    ∀ (fuel i cursor : Nat) (rs : List (Nat × Nat)) (c : Nat), cursor ≤ i * l.elemSize →
      splitScan l value vcount fuel i cursor = some (rs, c) →
      c = cursor ∨ ∃ j, i ≤ j ∧ j < l.count ∧
        (l.data.drop (j * l.elemSize)).take (l.elemSize * vcount) =
          value.take (l.elemSize * vcount) ∧
        c = j * l.elemSize + vcount * l.elemSize := by
  intro fuel
  induction fuel with
  | zero => intro i cursor rs c _ h; simp [splitScan] at h
  | succ fuel ih =>
    intro i cursor rs c hcur hscan
    rw [splitScan] at hscan
    by_cases hi : i < l.count
    · rw [if_pos hi] at hscan
      cases hm : memcmp_eq (l.data.drop (i * l.elemSize)) value (l.elemSize * vcount) with
      | none => simp [hm] at hscan
      | some b =>
        cases b with
        | false =>
          simp only [hm] at hscan
          rcases ih (i + 1) cursor rs c
            (le_trans hcur (Nat.mul_le_mul_right _ (by omega))) hscan with h1 | ⟨j, hj, h2⟩
          · exact Or.inl h1
          · exact Or.inr ⟨j, by omega, h2⟩
        | true =>
          simp only [hm] at hscan
          have hmt := memcmp_eq_true hm
          cases hd : udiv (i * l.elemSize - cursor) l.elemSize with
          | none => simp [hd] at hscan
          | some n =>
            simp only [hd] at hscan
            split at hscan
            · cases hrec : splitScan l value vcount fuel (i + vcount * l.elemSize + 1)
                  (i * l.elemSize + vcount * l.elemSize) with
              | none => simp [hrec] at hscan
              | some res =>
                obtain ⟨rs2, c2⟩ := res
                simp only [hrec, Option.some.injEq, Prod.mk.injEq] at hscan
                obtain ⟨-, hc⟩ := hscan
                subst hc
                have hes : l.elemSize ≠ 0 := by
                  intro h0; simp [udiv, h0] at hd
                have hcur2 : i * l.elemSize + vcount * l.elemSize ≤
                    (i + vcount * l.elemSize + 1) * l.elemSize := by
                  have : vcount * l.elemSize ≤ vcount * l.elemSize * l.elemSize :=
                    Nat.le_mul_of_pos_right _ (by omega)
                  nlinarith
                rcases ih _ _ rs2 c2 hcur2 hrec with h1 | ⟨j, hj, h2⟩
                · exact Or.inr ⟨i, le_refl _, hi, hmt, h1⟩
                · exact Or.inr ⟨j, by omega, h2⟩
            · simp at hscan
    · rw [if_neg hi] at hscan
      simp only [Option.some.injEq, Prod.mk.injEq] at hscan
      exact Or.inl hscan.2.symm

theorem content_createdObject (src : List Nat) (n es : Nat) (hs : n * es ≤ src.length) :
    content (createdObject src n es) = src.take (n * es) := by
  unfold content createdObject
  simp only
  rw [List.take_append_of_le_length (by simp; omega), List.take_take]
  simp

theorem take_drop_split (d : List Nat) (a b c : Nat) (hab : a ≤ b) (hbc : b ≤ c) :
    (d.drop a).take (c - a) = (d.drop a).take (b - a) ++ (d.drop b).take (c - b) := by
  have e : c - a = (b - a) + (c - b) := by omega
  rw [e, List.take_add, List.drop_drop]
  congr 3
  omega

theorem splitScan_cover (l : Object) (value : List Nat) (vcount : Nat) (hes : 1 ≤ l.elemSize) :
    ∀ (fuel i cursor : Nat) (rs : List (Nat × Nat)) (c : Nat), l.elemSize ∣ cursor →
      cursor ≤ i * l.elemSize →
      splitScan l value vcount fuel i cursor = some (rs, c) →
      cursor ≤ c ∧ l.elemSize ∣ c ∧
      (l.data.drop cursor).take (c - cursor) =
        (rs.map (fun r => content (blobOf l r) ++ value.take (l.elemSize * vcount))).flatten := by
  intro fuel
  induction fuel with
  | zero => intro i cursor rs c _ _ h; simp [splitScan] at h
  | succ fuel ih =>
    intro i cursor rs c hdvd hcur hscan
    rw [splitScan] at hscan
    by_cases hi : i < l.count
    · rw [if_pos hi] at hscan
      cases hm : memcmp_eq (l.data.drop (i * l.elemSize)) value (l.elemSize * vcount) with
      | none => simp [hm] at hscan
      | some b =>
        cases b with
        | false =>
          simp only [hm] at hscan
          exact ih (i + 1) cursor rs c hdvd
            (le_trans hcur (Nat.mul_le_mul_right _ (by omega))) hscan
        | true =>
          simp only [hm, udiv_pos _ hes] at hscan
          have hmt := memcmp_eq_true hm
          split at hscan
          · rename_i hb
            cases hrec : splitScan l value vcount fuel (i + vcount * l.elemSize + 1)
                (i * l.elemSize + vcount * l.elemSize) with
            | none => simp [hrec] at hscan
            | some res =>
              obtain ⟨rs2, c2⟩ := res
              simp only [hrec, Option.some.injEq, Prod.mk.injEq] at hscan
              obtain ⟨hrs, hc⟩ := hscan
              subst hc; subst hrs
              have hcur2 : i * l.elemSize + vcount * l.elemSize ≤
                  (i + vcount * l.elemSize + 1) * l.elemSize := by
                have : vcount * l.elemSize ≤ vcount * l.elemSize * l.elemSize :=
                  Nat.le_mul_of_pos_right _ (by omega)
                nlinarith
              have hdvd2 : l.elemSize ∣ i * l.elemSize + vcount * l.elemSize :=
                Dvd.dvd.add (Dvd.intro_left _ rfl) (Dvd.intro_left _ rfl)
              obtain ⟨hle, hdc, hcov⟩ := ih _ _ rs2 c2 hdvd2 hcur2 hrec
              have hn : (i * l.elemSize - cursor) / l.elemSize * l.elemSize =
                  i * l.elemSize - cursor :=
                Nat.div_mul_cancel (Nat.dvd_sub' (Dvd.intro_left _ rfl) hdvd)
              refine ⟨by omega, hdc, ?_⟩
              rw [List.map_cons, List.flatten_cons, ← hcov]
              simp only [blobOf]
              rw [content_createdObject _ _ _ hb, hn, ← hmt,
                take_drop_split l.data cursor (i * l.elemSize) c2 hcur (by omega),
                take_drop_split l.data (i * l.elemSize) (i * l.elemSize + vcount * l.elemSize) c2
                  (by omega) hle, List.append_assoc]
              congr 3
              rw [Nat.add_sub_cancel_left, Nat.mul_comm]
          · simp at hscan
    · rw [if_neg hi] at hscan
      simp only [Option.some.injEq, Prod.mk.injEq] at hscan
      obtain ⟨hrs, hc⟩ := hscan
      subst hrs; subst hc
      exact ⟨le_refl _, hdvd, by simp⟩

theorem intercalate_snoc (D : List Nat) (xs : List (List Nat)) (t : List Nat) :
    List.intercalate D (xs ++ [t]) = (xs.map (fun x => x ++ D)).flatten ++ t := by
  induction xs with
  | nil => simp [List.intercalate]
  | cons x xs ih =>
    cases xs with
    | nil => simp [List.intercalate]
    | cons y ys =>
      simp only [List.intercalate, List.cons_append, List.intersperse, List.flatten_cons,
        List.map_cons] at ih ⊢
      change x ++ (D ++ (List.intersperse D (y :: (ys ++ [t]))).flatten) = _
      rw [ih]
      simp

theorem splitCuts_total (l : Object) (value : List Nat) (vcount fuel : Nat)
    (hes : 1 ≤ l.elemSize) (hv : l.elemSize * vcount ≤ value.length)
    (hd : ∀ i, i < l.count → i * l.elemSize + l.elemSize * vcount ≤ l.data.length)
    (hbuf : l.count * l.elemSize ≤ l.data.length) (hfuel : l.count < fuel) :
    ∃ rs c, splitScan l value vcount fuel 0 0 = some (rs, c) ∧ rs.length ≤ l.count ∧
      splitCuts l value vcount fuel =
        some (if c < l.count * l.elemSize then
          rs ++ [(c, (l.count * l.elemSize - c) / l.elemSize)] else rs) := by
  obtain ⟨rs, c, hscan, hlen⟩ := splitScan_total l value vcount hes hv hd fuel 0 0
    (by omega) (by omega)
  refine ⟨rs, c, hscan, by omega, ?_⟩
  unfold splitCuts
  simp only [hscan, udiv_pos _ hes]
  by_cases hc : c < l.count * l.elemSize
  · have hn : (l.count * l.elemSize - c) / l.elemSize * l.elemSize ≤
        (l.data.drop c).length := by
      have := Nat.div_mul_le_self (l.count * l.elemSize - c) l.elemSize
      simp; omega
    simp only [hc, if_true, hn]
  · simp only [hc, if_false]

theorem bounds_of_last (l : Object) (vcount : Nat)
    (hb : l.count * l.elemSize + vcount * l.elemSize ≤ l.data.length + l.elemSize) :
    ∀ i, i < l.count → i * l.elemSize + l.elemSize * vcount ≤ l.data.length := by
  intro i hi
  have h1 : (i + 1) * l.elemSize ≤ l.count * l.elemSize := Nat.mul_le_mul_right _ hi
  have e : (i + 1) * l.elemSize = i * l.elemSize + l.elemSize := by ring
  rw [Nat.mul_comm l.elemSize vcount]
  omega

theorem object_list_split_children (junk : Nat → Nat) (fuel : Nat) (h : Heap) (list : Nat)
    (l : Object) (value : List Nat) (vcount : Nat) (cuts : List (Nat × Nat))
    (hl : h.get list = some l) (hcuts : splitCuts l value vcount fuel = some cuts)
    (hh : h.length + 1 + cuts.length ≤ SIZE_MAX1) :
    ∃ h2 R, object_list_split junk fuel h list value vcount = some (h2, h.length) ∧
      h2.get h.length = some R ∧ SplitResult (h.length + 1) R cuts.length ∧
      children h2 h.length = some (cuts.map (blobOf l)) ∧
      h2.length = h.length + 1 + cuts.length ∧
      (∀ p, p < h.length → h2.get p = h.get p) := by
  obtain ⟨R, hR, hsplit⟩ := object_list_split_eq junk fuel h list l value vcount cuts hl hcuts hh
  have hR2 : SplitResult (h.length + 1) R (cuts.map (blobOf l)).length := by simpa using hR
  refine ⟨_, R, hsplit, Heap.get_mid _ _ _, hR,
    children_split h R (cuts.map (blobOf l)) hR2 (by simpa using hh), by simp; omega, ?_⟩
  intro p hp
  rw [List.append_assoc, Heap.get_append_left _ hp]

theorem object_list_create_inv {h : Heap} {src : List Nat} {len es : Nat} {r : Heap × Nat}
    (hc : object_list_create h src len es = some r) :
    len * es ≤ src.length ∧ h.length < SIZE_MAX1 := by
  by_cases hh : h.length < SIZE_MAX1
  · refine ⟨?_, hh⟩
    by_contra hs
    have hm : memcpy (calloc (len * 2) es) 0 src (len * es) = none :=
      memcpy_eq_none (fun hx => hs hx.1)
    simp [object_list_create, object_create, malloc, hh, Heap.get_snoc, hm] at hc
  · simp [object_list_create, object_create, malloc, hh] at hc

theorem splitScan_length (l : Object) (value : List Nat) (vcount : Nat) :
    ∀ (fuel i cursor : Nat) (rs : List (Nat × Nat)) (c : Nat),
      splitScan l value vcount fuel i cursor = some (rs, c) → rs.length ≤ l.count - i := by
  intro fuel
  induction fuel with
  | zero => intro i cursor rs c h; simp [splitScan] at h
  | succ fuel ih =>
    intro i cursor rs c hscan
    rw [splitScan] at hscan
    by_cases hi : i < l.count
    · rw [if_pos hi] at hscan
      cases hm : memcmp_eq (l.data.drop (i * l.elemSize)) value (l.elemSize * vcount) with
      | none => simp [hm] at hscan
      | some b =>
        cases b with
        | false =>
          simp only [hm] at hscan
          have := ih _ _ _ _ hscan
          omega
        | true =>
          simp only [hm] at hscan
          cases hd : udiv (i * l.elemSize - cursor) l.elemSize with
          | none => simp [hd] at hscan
          | some n =>
            simp only [hd] at hscan
            split at hscan
            · cases hrec : splitScan l value vcount fuel (i + vcount * l.elemSize + 1)
                  (i * l.elemSize + vcount * l.elemSize) with
              | none => simp [hrec] at hscan
              | some res =>
                obtain ⟨rs2, c2⟩ := res
                simp only [hrec, Option.some.injEq, Prod.mk.injEq] at hscan
                obtain ⟨hrs, -⟩ := hscan
                subst hrs
                have := ih _ _ _ _ hrec
                simp only [List.length_cons]
                omega
            · simp at hscan
    · rw [if_neg hi] at hscan
      simp only [Option.some.injEq, Prod.mk.injEq] at hscan
      rw [← hscan.1]; simp

theorem splitScan_mono (l : Object) (value : List Nat) (vcount : Nat) :
    ∀ (fuel fuel2 i cursor : Nat) (res : List (Nat × Nat) × Nat), fuel ≤ fuel2 →
      splitScan l value vcount fuel i cursor = some res →
      splitScan l value vcount fuel2 i cursor = some res := by
  intro fuel
  induction fuel with
  | zero => intro fuel2 i cursor res _ h; simp [splitScan] at h
  | succ fuel ih =>
    intro fuel2 i cursor res hle hscan
    obtain ⟨g, rfl⟩ : ∃ g, fuel2 = g + 1 := ⟨fuel2 - 1, by omega⟩
    rw [splitScan] at hscan ⊢
    by_cases hi : i < l.count
    · rw [if_pos hi] at hscan ⊢
      cases hm : memcmp_eq (l.data.drop (i * l.elemSize)) value (l.elemSize * vcount) with
      | none => simp [hm] at hscan
      | some b =>
        cases b with
        | false =>
          simp only [hm] at hscan ⊢
          exact ih _ _ _ _ (by omega) hscan
        | true =>
          simp only [hm] at hscan ⊢
          cases hd : udiv (i * l.elemSize - cursor) l.elemSize with
          | none => simp [hd] at hscan
          | some n =>
            simp only [hd] at hscan ⊢
            by_cases hb : n * l.elemSize ≤ (l.data.drop cursor).length
            · rw [if_pos hb] at hscan ⊢
              cases hrec : splitScan l value vcount fuel (i + vcount * l.elemSize + 1)
                  (i * l.elemSize + vcount * l.elemSize) with
              | none => simp [hrec] at hscan
              | some res2 =>
                rw [ih _ _ _ _ (by omega) hrec]
                simpa [hrec] using hscan
            · rw [if_neg hb] at hscan
              exact absurd hscan (by simp)
    · rw [if_neg hi] at hscan ⊢
      exact hscan

theorem splitScan_fuel (l : Object) (value : List Nat) (vcount : Nat) :
    ∀ (fuel i cursor : Nat) (res : List (Nat × Nat) × Nat),
      splitScan l value vcount fuel i cursor = some res →
      splitScan l value vcount (l.count - i + 1) i cursor = some res := by
  intro fuel
  induction fuel with
  | zero => intro i cursor res h; simp [splitScan] at h
  | succ fuel ih =>
    intro i cursor res hscan
    rw [splitScan] at hscan ⊢
    by_cases hi : i < l.count
    · rw [if_pos hi] at hscan ⊢
      cases hm : memcmp_eq (l.data.drop (i * l.elemSize)) value (l.elemSize * vcount) with
      | none => simp [hm] at hscan
      | some b =>
        cases b with
        | false =>
          simp only [hm] at hscan ⊢
          exact splitScan_mono l value vcount _ _ _ _ _ (by omega) (ih _ _ _ hscan)
        | true =>
          simp only [hm] at hscan ⊢
          cases hd : udiv (i * l.elemSize - cursor) l.elemSize with
          | none => simp [hd] at hscan
          | some n =>
            simp only [hd] at hscan ⊢
            by_cases hb : n * l.elemSize ≤ (l.data.drop cursor).length
            · rw [if_pos hb] at hscan ⊢
              cases hrec : splitScan l value vcount fuel (i + vcount * l.elemSize + 1)
                  (i * l.elemSize + vcount * l.elemSize) with
              | none => simp [hrec] at hscan
              | some res2 =>
                rw [splitScan_mono l value vcount _ _ _ _ _ (by omega) (ih _ _ _ hrec)]
                simpa [hrec] using hscan
            · rw [if_neg hb] at hscan
              exact absurd hscan (by simp)
    · rw [if_neg hi] at hscan ⊢
      exact hscan

theorem splitCuts_mono (l : Object) (value : List Nat) (vcount fuel fuel2 : Nat)
    (cuts : List (Nat × Nat)) (hle : fuel ≤ fuel2)
    (hc : splitCuts l value vcount fuel = some cuts) :
    splitCuts l value vcount fuel2 = some cuts := by
  unfold splitCuts at hc ⊢
  cases hscan : splitScan l value vcount fuel 0 0 with
  | none => simp [hscan] at hc
  | some res =>
    rw [splitScan_mono l value vcount fuel fuel2 0 0 res hle hscan]
    simpa [hscan] using hc

theorem splitCuts_fuel (l : Object) (value : List Nat) (vcount fuel : Nat)
    (cuts : List (Nat × Nat)) (hc : splitCuts l value vcount fuel = some cuts) :
    splitCuts l value vcount (l.count + 1) = some cuts := by
  unfold splitCuts at hc ⊢
  cases hscan : splitScan l value vcount fuel 0 0 with
  | none => simp [hscan] at hc
  | some res =>
    have := splitScan_fuel l value vcount fuel 0 0 res hscan
    rw [Nat.sub_zero] at this
    rw [this]
    simpa [hscan] using hc

theorem splitCuts_length (l : Object) (value : List Nat) (vcount fuel : Nat)
    (cuts : List (Nat × Nat)) (hc : splitCuts l value vcount fuel = some cuts) :
    cuts.length ≤ l.count + 1 := by
  unfold splitCuts at hc
  cases hscan : splitScan l value vcount fuel 0 0 with
  | none => simp [hscan] at hc
  | some res =>
    obtain ⟨rs, c⟩ := res
    have hlen := splitScan_length l value vcount fuel 0 0 rs c hscan
    simp only [hscan] at hc
    split at hc
    · split at hc
      · simp at hc
      · split at hc
        · simp at hc; subst hc; simp; omega
        · simp at hc
    · simp at hc; subst hc; omega

theorem split_loop_inv (junk : Nat → Nat) (h0 : Heap) (list : Nat) (l : Object)
    (value : List Nat) (vcount : Nat) (hl : h0.get list = some l) :
    ∀ (fuel i cursor : Nat) (segs : List Object) (R : Object) (res : Heap × Nat),
      SplitResult (h0.length + 1) R segs.length →
      h0.length + 1 + segs.length ≤ SIZE_MAX1 →
      object_list_split_loop junk fuel (h0 ++ [some R] ++ segs.map some) list value vcount
        h0.length i cursor = some res →
      ∃ rs, splitScan l value vcount fuel i cursor = some (rs, res.2) ∧
        h0.length + 1 + segs.length + rs.length ≤ SIZE_MAX1 := by
  have hp := Heap.get_lt hl
  have hget : ∀ (R : Object) (T : Heap), Heap.get (h0 ++ [some R] ++ T) list = some l := by
    intro R T
    rw [List.append_assoc, Heap.get_append_left _ hp]; exact hl
  intro fuel
  induction fuel with
  | zero => intro i cursor segs R res _ _ hloop; simp [object_list_split_loop] at hloop
  | succ fuel ih =>
    intro i cursor segs R res hR hlen hloop
    rw [object_list_split_loop] at hloop
    simp only [hget, Option.bind_eq_bind, Option.some_bind, Option.pure_def] at hloop
    rw [splitScan]
    by_cases hi : i < l.count
    · simp only [hi, if_true] at hloop ⊢
      cases hm : memcmp_eq (l.data.drop (i * l.elemSize)) value (l.elemSize * vcount) with
      | none => simp [hm] at hloop
      | some b =>
        cases b with
        | false =>
          simp only [hm, Option.some_bind, Bool.false_eq_true, if_false] at hloop ⊢
          exact ih _ _ _ _ _ hR hlen hloop
        | true =>
          simp only [hm, Option.some_bind, if_true] at hloop ⊢
          cases hd : udiv (i * l.elemSize - cursor) l.elemSize with
          | none => simp [hd] at hloop
          | some n =>
            simp only [hd, Option.some_bind] at hloop ⊢
            cases hcr : object_list_create (h0 ++ [some R] ++ segs.map some)
                (l.data.drop cursor) n l.elemSize with
            | none =>
              simp only [hcr, Option.none_bind] at hloop
              exact absurd hloop (by simp)
            | some cr =>
              obtain ⟨hb, hh⟩ := object_list_create_inv hcr
              have hlenH : (h0 ++ [some R] ++ segs.map some).length =
                  h0.length + 1 + segs.length := by simp; omega
              rw [hlenH] at hh
              obtain ⟨R1, hR1, e1, e2, e3⟩ := split_emit junk fuel h0 R segs
                (l.data.drop cursor) n l.elemSize hR hb hh (by omega)
              have hR1b : SplitResult (h0.length + 1) R1
                  (segs ++ [createdObject (l.data.drop cursor) n l.elemSize]).length := by
                simpa using hR1
              simp only [e1, e2, e3, Option.some_bind, hget] at hloop
              obtain ⟨rs2, hs2, hl2⟩ := ih (i + vcount * l.elemSize + 1)
                (i * l.elemSize + vcount * l.elemSize)
                (segs ++ [createdObject (l.data.drop cursor) n l.elemSize]) R1 res hR1b
                (by simp; omega) (by simpa using hloop)
              refine ⟨(cursor, n) :: rs2, ?_, ?_⟩
              · rw [if_pos hb, hs2]
              · simp only [List.length_append, List.length_singleton] at hl2
                simp only [List.length_cons]
                omega
    · simp only [hi, if_false, Option.some.injEq] at hloop ⊢
      subst hloop
      exact ⟨[], rfl, by simpa using hlen⟩

theorem object_list_split_inv (junk : Nat → Nat) (fuel : Nat) (h : Heap) (list : Nat)
    (l : Object) (value : List Nat) (vcount : Nat) (res : Heap × Nat)
    (hl : h.get list = some l)
    (hsplit : object_list_split junk fuel h list value vcount = some res) :
    ∃ cuts, splitCuts l value vcount fuel = some cuts ∧
      h.length + 1 + cuts.length ≤ SIZE_MAX1 := by
  have hp := Heap.get_lt hl
  have hget : ∀ (R : Object) (T : Heap), Heap.get (h ++ [some R] ++ T) list = some l := by
    intro R T
    rw [List.append_assoc, Heap.get_append_left _ hp]; exact hl
  unfold object_list_split at hsplit
  cases hcr : object_list_create h [] 0 sizeofPtr with
  | none => simp [hcr] at hsplit
  | some cr =>
    obtain ⟨-, hh⟩ := object_list_create_inv hcr
    rw [object_list_create_eq h [] 0 sizeofPtr (by simp) hh] at hsplit
    simp only [Option.bind_eq_bind, Option.some_bind, Option.pure_def, Heap.get_snoc,
      Heap.put_snoc] at hsplit
    cases hloop : object_list_split_loop junk fuel
        (h ++ [some { createdObject [] 0 sizeofPtr with recurse := true }]) list value vcount
        h.length 0 0 with
    | none => simp [hloop] at hsplit
    | some lr =>
      obtain ⟨hres, c⟩ := lr
      have hloop2 : object_list_split_loop junk fuel
          (h ++ [some { createdObject [] 0 sizeofPtr with recurse := true }] ++
            ([] : List Object).map some) list value vcount h.length 0 0 = some (hres, c) := by
        simpa using hloop
      obtain ⟨rs, hscan, hlen⟩ := split_loop_inv junk h list l value vcount hl fuel 0 0 []
        _ _ (SplitResult_init _) (by simp; omega) hloop2
      simp only [List.length_nil, Nat.add_zero] at hlen
      obtain ⟨R1, hR1, e1⟩ := split_loop_eq junk h list l value vcount hl fuel 0 0 []
        { createdObject [] 0 sizeofPtr with recurse := true } rs c (SplitResult_init _) hscan
        (by simp; omega)
      simp only [List.map_nil, List.append_nil, List.nil_append, List.length_nil,
        Nat.zero_add] at e1 hR1
      rw [hloop] at e1
      simp only [Option.some.injEq, Prod.mk.injEq] at e1
      obtain ⟨e1, -⟩ := e1
      subst e1
      simp only [hloop, Option.some_bind, hget] at hsplit
      unfold splitCuts
      simp only [hscan]
      by_cases hc : c < l.count * l.elemSize
      · simp only [hc, if_true] at hsplit ⊢
        cases hd : udiv (l.count * l.elemSize - c) l.elemSize with
        | none => simp [hd] at hsplit
        | some n =>
          simp only [hd, Option.some_bind] at hsplit ⊢
          cases hcr2 : object_list_create (h ++ [some R1] ++ (rs.map (blobOf l)).map some)
              (l.data.drop c) n l.elemSize with
          | none =>
            simp only [hcr2, Option.none_bind] at hsplit
            exact absurd hsplit (by simp)
          | some cr2 =>
            obtain ⟨hb, hh2⟩ := object_list_create_inv hcr2
            rw [if_pos hb]
            refine ⟨_, rfl, ?_⟩
            simp at hh2 ⊢
            omega
      · simp only [hc, if_false]
        exact ⟨rs, rfl, by omega⟩

theorem object_list_split_returns (junk : Nat → Nat) (fuel : Nat) (h : Heap) (list : Nat)
    (l : Object) (value : List Nat) (vcount : Nat) (h2 : Heap) (r : Nat)
    (hl : h.get list = some l)
    (hsplit : object_list_split junk fuel h list value vcount = some (h2, r)) :
    r = h.length ∧ ∃ cuts R, splitCuts l value vcount fuel = some cuts ∧
      h2.get r = some R ∧ SplitResult (h.length + 1) R cuts.length ∧
      children h2 r = some (cuts.map (blobOf l)) ∧
      h2.length = h.length + 1 + cuts.length ∧
      (∀ p, p < h.length → h2.get p = h.get p) := by
  obtain ⟨cuts, hcuts, hh⟩ := object_list_split_inv junk fuel h list l value vcount _ hl hsplit
  obtain ⟨h3, R, hs3, hR, hres, hch, hlen, hfr⟩ := object_list_split_children junk fuel h list l
    value vcount cuts hl hcuts hh
  rw [hsplit] at hs3
  simp only [Option.some.injEq, Prod.mk.injEq] at hs3
  obtain ⟨e1, e2⟩ := hs3
  subst e1; subst e2
  exact ⟨rfl, cuts, R, hcuts, hR, hres, hch, hlen, hfr⟩

theorem object_list_split_of_inBounds (junk : Nat → Nat) (fuel : Nat) (h : Heap) (list : Nat)
    (l : Object) (value : List Nat) (vcount : Nat) (hl : h.get list = some l)
    (hin : splitInBounds l value vcount = true) (hfuel : l.count < fuel)
    (hh : h.length + l.count + 2 ≤ SIZE_MAX1) :
    ∃ h2 r, object_list_split junk fuel h list value vcount = some (h2, r) := by
  unfold splitInBounds at hin
  obtain ⟨cuts, hcuts⟩ := Option.isSome_iff_exists.mp hin
  have hlen := splitCuts_length l value vcount _ cuts hcuts
  have hcuts2 := splitCuts_mono l value vcount (l.count + 1) fuel cuts (by omega) hcuts
  obtain ⟨h2, R, hsplit, -⟩ := object_list_split_children junk fuel h list l value vcount cuts
    hl hcuts2 (by omega)
  exact ⟨h2, h.length, hsplit⟩

theorem splitInBounds_of_split (junk : Nat → Nat) (fuel : Nat) (h : Heap) (list : Nat)
    (l : Object) (value : List Nat) (vcount : Nat) (res : Heap × Nat)
    (hl : h.get list = some l)
    (hsplit : object_list_split junk fuel h list value vcount = some res) :
    splitInBounds l value vcount = true := by
  obtain ⟨cuts, hcuts, -⟩ := object_list_split_inv junk fuel h list l value vcount _ hl hsplit
  unfold splitInBounds
  rw [splitCuts_fuel l value vcount fuel cuts hcuts]
  rfl

theorem splitCuts_roundtrip (l : Object) (value : List Nat) (vcount fuel : Nat)
    (cuts : List (Nat × Nat)) (hes : 1 ≤ l.elemSize)
    (hcuts : splitCuts l value vcount fuel = some cuts)
    (hnoend : ∀ i, i < l.count → l.count ≤ i + vcount →
      (l.data.drop (i * l.elemSize)).take (l.elemSize * vcount) ≠
        value.take (l.elemSize * vcount)) :
    List.intercalate (value.take (l.elemSize * vcount))
      ((cuts.map (blobOf l)).map content) = content l := by
  unfold splitCuts at hcuts
  cases hscan : splitScan l value vcount fuel 0 0 with
  | none => simp [hscan] at hcuts
  | some res =>
    obtain ⟨rs, c⟩ := res
    simp only [hscan, udiv_pos _ hes] at hcuts
    have hlen := splitScan_length l value vcount fuel 0 0 rs c hscan
    obtain ⟨-, hdc, hcov⟩ := splitScan_cover l value vcount hes fuel 0 0 rs c
      (Nat.dvd_zero _) (by omega) hscan
    rw [List.drop_zero, Nat.sub_zero] at hcov
    by_cases hc0 : l.count = 0
    · have hc : ¬ c < l.count * l.elemSize := by rw [hc0]; omega
      rw [if_neg hc] at hcuts
      have hrs : rs = [] := by
        cases rs with
        | nil => rfl
        | cons r rs => simp at hlen; omega
      simp only [Option.some.injEq] at hcuts
      subst hcuts; subst hrs
      simp [List.intercalate, content, hc0]
    · have hc : c < l.count * l.elemSize := by
        rcases splitScan_cursor_le l value vcount fuel 0 0 rs c (by omega) hscan with
          h0 | ⟨j, -, hj, hm, hcj⟩
        · rw [h0]; exact Nat.mul_pos (by omega) (by omega)
        · have hjv : j + vcount < l.count := by
            by_contra hge
            exact hnoend j hj (by omega) hm
          rw [hcj, ← Nat.add_mul]
          exact Nat.mul_lt_mul_of_pos_right hjv (by omega)
      rw [if_pos hc] at hcuts
      have hn : (l.count * l.elemSize - c) / l.elemSize * l.elemSize =
          l.count * l.elemSize - c :=
        Nat.div_mul_cancel (Nat.dvd_sub' (Dvd.intro_left _ rfl) hdc)
      split at hcuts
      · rename_i hb
        simp only [Option.some.injEq] at hcuts
        subst hcuts
        rw [List.map_append, List.map_append, List.map_singleton, List.map_singleton,
          intercalate_snoc, List.map_map, List.map_map]
        have hf : (((fun x => x ++ value.take (l.elemSize * vcount)) ∘ content) ∘ blobOf l) =
            fun r => content (blobOf l r) ++ value.take (l.elemSize * vcount) := rfl
        rw [hf, ← hcov]
        simp only [blobOf]
        rw [content_createdObject _ _ _ hb, hn]
        unfold content
        have := take_drop_split l.data 0 c (l.count * l.elemSize) (by omega) (by omega)
        simpa using this.symm
      · simp at hcuts

theorem splitInBounds_of_bounds (l : Object) (value : List Nat) (vcount : Nat)
    (hes : 1 ≤ l.elemSize) (hv : l.elemSize * vcount ≤ value.length)
    (hbuf : l.count * l.elemSize ≤ l.data.length)
    (hcmp : l.count * l.elemSize + vcount * l.elemSize ≤ l.data.length + l.elemSize) :
    splitInBounds l value vcount = true := by
  obtain ⟨rs, c, -, -, hcuts⟩ := splitCuts_total l value vcount (l.count + 1) hes hv
    (bounds_of_last l vcount hcmp) hbuf (by omega)
  unfold splitInBounds
  rw [hcuts]
  rfl

theorem intercalate_nil_of_nil (xs : List (List Nat)) (hx : ∀ x, x ∈ xs → x = []) :
    List.intercalate [] xs = [] := by
  unfold List.intercalate
  rw [List.flatten_eq_nil_iff]
  intro y hy
  induction xs with
  | nil => simp at hy
  | cons a as ih =>
    cases as with
    | nil =>
      simp only [List.intersperse_single, List.mem_singleton] at hy
      rw [hy]
      exact hx a (List.mem_cons_self _ _)
    | cons b bs =>
      rw [List.intersperse_cons₂] at hy
      rcases List.mem_cons.1 hy with e | hy2
      · rw [e]; exact hx a (List.mem_cons_self _ _)
      · rcases List.mem_cons.1 hy2 with e | hy3
        · exact e
        · exact ih (fun x hxm => hx x (List.mem_cons_of_mem _ hxm)) hy3

theorem splitCuts_roundtrip_zero (l : Object) (value : List Nat) (vcount : Nat)
    (cuts : List (Nat × Nat)) (hes : l.elemSize = 0) :
    List.intercalate (value.take (l.elemSize * vcount))
      ((cuts.map (blobOf l)).map content) = content l := by
  have hc : content l = [] := by unfold content; rw [hes]; simp
  rw [hc, hes, Nat.zero_mul, List.take_zero]
  apply intercalate_nil_of_nil
  intro x hx
  rw [List.map_map] at hx
  obtain ⟨r, -, rfl⟩ := List.mem_map.1 hx
  simp [content, blobOf, createdObject, hes]

/-- C2, as amended: for a source list and a delimiter of the same element size such that no
occurrence of the delimiter in the buffer that starts inside the content ends at or beyond
the end of the content: whenever `object_list_split` has a result, concatenating its
segments in order with the delimiter re-inserted between consecutive segments yields exactly
the `count` elements of the source.  The split has a result (with fuel above `count`, in a heap
with room for the new objects) when the scan of the source stays inside the buffers, and only
then. -/
theorem object_list_split_join (junk : Nat → Nat) (fuel : Nat) (h : Heap) (list : Nat)
    (l : Object) (value : List Nat) (vcount : Nat)
    (hl : h.get list = some l)
    (hnoend : ∀ i, i < l.count → l.count ≤ i + vcount →
      (l.data.drop (i * l.elemSize)).take (l.elemSize * vcount) ≠
        value.take (l.elemSize * vcount)) :
    (∀ h2 r, object_list_split junk fuel h list value vcount = some (h2, r) →
      ∃ segs, children h2 r = some segs ∧
        List.intercalate (value.take (l.elemSize * vcount)) (segs.map content) = content l) ∧
    (splitInBounds l value vcount = true → l.count < fuel →
      h.length + l.count + 2 ≤ SIZE_MAX1 →
      ∃ h2 r, object_list_split junk fuel h list value vcount = some (h2, r)) ∧
    (∀ h2 r, object_list_split junk fuel h list value vcount = some (h2, r) →
      splitInBounds l value vcount = true) := by
  refine ⟨?_, ?_, ?_⟩
  · intro h2 r hsplit
    obtain ⟨-, cuts, R, hcuts, -, -, hch, -, -⟩ := object_list_split_returns junk fuel h list l
      value vcount h2 r hl hsplit
    refine ⟨_, hch, ?_⟩
    by_cases hes : l.elemSize = 0
    · exact splitCuts_roundtrip_zero l value vcount cuts hes
    · exact splitCuts_roundtrip l value vcount fuel cuts (by omega) hcuts hnoend
  · intro hin hfuel hh
    exact object_list_split_of_inBounds junk fuel h list l value vcount hl hin hfuel hh
  · intro h2 r hsplit
    exact splitInBounds_of_split junk fuel h list l value vcount _ hl hsplit

/-- C2, counterexample: the bytes `"ab "` split on `" "` give the single segment `"ab"`;
joining the segments with the delimiter between them gives `"ab"`, not the three elements
of the source. -/
theorem object_list_split_join_counterexample :
    (do
      let (h1, list) ← object_list_create [] [97, 98, 32] 3 1
      let (h2, r) ← object_list_split (fun _ => 0) 4 h1 list [32] 1
      let segs ← children h2 r
      let l ← h2.get list
      pure (segs.map content, content l)) = some ([[97, 98]], [97, 98, 32]) ∧
    List.intercalate [32] [[97, 98]] ≠ [97, 98, 32] := by
  decide!

theorem splitCuts_whole (l : Object) (value : List Nat) (fuel : Nat)
    (hes : 1 ≤ l.elemSize) (hc : 1 ≤ l.count) (hv : l.elemSize * l.count ≤ value.length)
    (hbuf : l.count * l.elemSize ≤ l.data.length)
    (heq : l.data.take (l.elemSize * l.count) = value.take (l.elemSize * l.count))
    (hfuel : 2 ≤ fuel) :
    splitCuts l value l.count fuel = some [(0, 0)] := by
  obtain ⟨f, rfl⟩ : ∃ f, fuel = f + 2 := ⟨fuel - 2, by omega⟩
  have hi : ¬ (0 + l.count * l.elemSize + 1 < l.count) := by
    have := Nat.le_mul_of_pos_right l.count (show 0 < l.elemSize by omega)
    omega
  have hm : memcmp_eq (l.data.drop (0 * l.elemSize)) value (l.elemSize * l.count) =
      some true := by
    rw [Nat.zero_mul, List.drop_zero, memcmp_eq_some (by rw [Nat.mul_comm]; exact hbuf) hv]
    simp [heq]
  have hscan : splitScan l value l.count (f + 2) 0 0 = some ([(0, 0)], l.count * l.elemSize) := by
    rw [splitScan, if_pos (by omega), hm]
    simp only [udiv_pos _ hes]
    rw [splitScan, if_neg hi]
    simp
  unfold splitCuts
  rw [hscan]
  simp

theorem memcmp_eq_val {a b : List Nat} {n : Nat} {r : Bool} (h : memcmp_eq a b n = some r) :
    r = decide (a.take n = b.take n) := by
  unfold memcmp_eq at h
  split at h
  · simpa using h.symm
  · simp at h

theorem splitScan_leading (l : Object) (value : List Nat) (vcount fuel : Nat)
    (rs : List (Nat × Nat)) (c : Nat) (hc : 1 ≤ l.count)
    (heq : l.data.take (l.elemSize * vcount) = value.take (l.elemSize * vcount))
    (hscan : splitScan l value vcount fuel 0 0 = some (rs, c)) :
    ∃ rest, rs = (0, 0) :: rest := by
  cases fuel with
  | zero => simp [splitScan] at hscan
  | succ f =>
    rw [splitScan, if_pos (by omega)] at hscan
    cases hm : memcmp_eq (l.data.drop (0 * l.elemSize)) value (l.elemSize * vcount) with
    | none =>
      simp only [hm] at hscan
      exact absurd hscan (by simp)
    | some b =>
      have hb := memcmp_eq_val hm
      rw [Nat.zero_mul, List.drop_zero, heq] at hb
      simp only [decide_True] at hb
      subst hb
      simp only [hm] at hscan
      cases hd : udiv (0 * l.elemSize - 0) l.elemSize with
      | none =>
        simp only [hd] at hscan
        exact absurd hscan (by simp)
      | some n =>
        have hn : n = 0 := by
          unfold udiv at hd
          split at hd
          · simp at hd
          · simp at hd; exact hd.symm
        subst hn
        simp only [hd] at hscan
        split at hscan
        · cases hrec : splitScan l value vcount f (0 + vcount * l.elemSize + 1)
              (0 * l.elemSize + vcount * l.elemSize) with
          | none =>
            simp only [hrec] at hscan
            exact absurd hscan (by simp)
          | some res =>
            simp only [hrec, Option.some.injEq, Prod.mk.injEq] at hscan
            exact ⟨_, hscan.1.symm⟩
        · simp at hscan

theorem splitCuts_leading (l : Object) (value : List Nat) (vcount fuel : Nat)
    (cuts : List (Nat × Nat)) (hc : 1 ≤ l.count)
    (heq : l.data.take (l.elemSize * vcount) = value.take (l.elemSize * vcount))
    (hcuts : splitCuts l value vcount fuel = some cuts) :
    ∃ rest, cuts = (0, 0) :: rest := by
  unfold splitCuts at hcuts
  cases hscan : splitScan l value vcount fuel 0 0 with
  | none => simp [hscan] at hcuts
  | some res =>
    obtain ⟨rs, c⟩ := res
    obtain ⟨rest, hrest⟩ := splitScan_leading l value vcount fuel rs c hc heq hscan
    subst hrest
    simp only [hscan] at hcuts
    split at hcuts
    · split at hcuts
      · simp at hcuts
      · split at hcuts
        · simp only [Option.some.injEq] at hcuts
          exact ⟨_, by rw [← hcuts]; rfl⟩
        · simp at hcuts
    · simp only [Option.some.injEq] at hcuts
      exact ⟨rest, hcuts.symm⟩

/-- C1, at the failing input: the bytes `"a  b"` (two spaces) split on `" "` give the two
segments `"a"` and `" b"`, without a zero-length segment: after the match at index 1 the loop
adds `vcount * elemSize` to `i` and then increments it, so index 2 is never compared. -/
theorem object_list_split_adjacent_skipped :
    (do
      let (h1, list) ← object_list_create [] [97, 32, 32, 98] 4 1
      let (h2, r) ← object_list_split (fun _ => 0) 5 h1 list [32] 1
      let segs ← children h2 r
      pure (segs.map content)) = some [[97], [32, 98]] := by
  decide!

/-- C3, counterexample: the byte `" "` split on `" "` gives exactly one segment (of count 0),
not two; the bytes `"ab "` split on `" "` give the single segment `"ab"`, whose count is 2. -/
theorem object_list_split_trailing_counterexample :
    (do
      let (h1, list) ← object_list_create [] [32] 1 1
      let (h2, r) ← object_list_split (fun _ => 0) 4 h1 list [32] 1
      let segs ← children h2 r
      pure (segs.map (fun s => s.count))) = some [0] ∧
    (do
      let (h1, list) ← object_list_create [] [97, 98, 32] 3 1
      let (h2, r) ← object_list_split (fun _ => 0) 4 h1 list [32] 1
      let segs ← children h2 r
      pure (segs.map (fun s => s.count))) = some [2] := by
  decide!

/-- C3, as amended: for a non-empty source list whose entire content equals the delimiter
(element size at least 1), `object_list_split` returns exactly one segment, of count 0: the
delimiter at the very end closes the segment before it and no trailing segment follows. -/
theorem object_list_split_whole_delimiter (junk : Nat → Nat) (fuel : Nat) (h : Heap)
    (list : Nat) (l : Object) (value : List Nat)
    (hl : h.get list = some l) (hes : 1 ≤ l.elemSize) (hc : 1 ≤ l.count)
    (hv : l.elemSize * l.count ≤ value.length)
    (hbuf : l.count * l.elemSize ≤ l.data.length)
    (heq : l.data.take (l.elemSize * l.count) = value.take (l.elemSize * l.count))
    (hfuel : 2 ≤ fuel) (hh : h.length + 2 ≤ SIZE_MAX1) :
    ∃ h2 r seg, object_list_split junk fuel h list value l.count = some (h2, r) ∧
      children h2 r = some [seg] ∧ seg.count = 0 ∧ seg.elemSize = l.elemSize := by
  have hcuts := splitCuts_whole l value fuel hes hc hv hbuf heq hfuel
  obtain ⟨h2, R, hsplit, -, -, hch, -, -⟩ := object_list_split_children junk fuel h list l value
    l.count [(0, 0)] hl hcuts (by simpa using hh)
  exact ⟨h2, h.length, blobOf l (0, 0), hsplit, hch, rfl, rfl⟩

/-- C4: for a source list with `count >= 1` whose buffer begins with the bytes of the
delimiter: whenever `object_list_split` has a result, it holds at least one segment and the
first segment has count 0.  The split has a result (with fuel above `count`, in a heap with
room for the new objects) when the scan of the source stays inside the buffers, and only
then. -/
theorem object_list_split_leading_delimiter (junk : Nat → Nat) (fuel : Nat) (h : Heap)
    (list : Nat) (l : Object) (value : List Nat) (vcount : Nat)
    (hl : h.get list = some l) (hc : 1 ≤ l.count)
    (hbegin : l.data.take (l.elemSize * vcount) = value.take (l.elemSize * vcount)) :
    (∀ h2 r, object_list_split junk fuel h list value vcount = some (h2, r) →
      ∃ seg rest, children h2 r = some (seg :: rest) ∧ seg.count = 0) ∧
    (splitInBounds l value vcount = true → l.count < fuel →
      h.length + l.count + 2 ≤ SIZE_MAX1 →
      ∃ h2 r, object_list_split junk fuel h list value vcount = some (h2, r)) ∧
    (∀ h2 r, object_list_split junk fuel h list value vcount = some (h2, r) →
      splitInBounds l value vcount = true) := by
  refine ⟨?_, ?_, ?_⟩
  · intro h2 r hsplit
    obtain ⟨-, cuts, R, hcuts, -, -, hch, -, -⟩ := object_list_split_returns junk fuel h list l
      value vcount h2 r hl hsplit
    obtain ⟨rest, hrest⟩ := splitCuts_leading l value vcount fuel cuts hc hbegin hcuts
    subst hrest
    exact ⟨blobOf l (0, 0), rest.map (blobOf l), hch, rfl⟩
  · intro hin hfuel hh
    exact object_list_split_of_inBounds junk fuel h list l value vcount hl hin hfuel hh
  · intro h2 r hsplit
    exact splitInBounds_of_split junk fuel h list l value vcount _ hl hsplit

theorem object_list_push_front_object_noop (h : Heap) (list value : Nat) (l : Object)
    (hl : h.get list = some l) (hr : l.recurse = false) :
    object_list_push_front_object h list value = some h := by
  simp [object_list_push_front_object, hl, hr]

theorem object_list_push_back_object_noop (junk : Nat → Nat) (h : Heap) (list value : Nat)
    (l : Object) (hl : h.get list = some l) (hr : l.recurse = false) :
    object_list_push_back_object junk h list value = some h := by
  simp [object_list_push_back_object, hl, hr]

theorem main_build_eq (junk : Nat → Nat) :
    main_build junk [] = some (demoHeap, 0, 1, 2, 3) := by
  have c1 : object_create_string [] [121, 101, 101, 97, 116] =
      some ([some (createdObject [121, 101, 101, 97, 116, 0] 5 1)], 0) :=
    object_list_create_eq [] _ 5 1 (by decide) (by decide)
  have c2 : object_create_string [some (createdObject [121, 101, 101, 97, 116, 0] 5 1)] [32] =
      some ([some (createdObject [121, 101, 101, 97, 116, 0] 5 1),
        some (createdObject [32, 0] 1 1)], 1) :=
    object_list_create_eq [_] _ 1 1 (by decide) (by decide)
  have c3 : object_create_string [some (createdObject [121, 101, 101, 97, 116, 0] 5 1),
        some (createdObject [32, 0] 1 1)] [101, 101] =
      some ([some (createdObject [121, 101, 101, 97, 116, 0] 5 1),
        some (createdObject [32, 0] 1 1), some (createdObject [101, 101, 0] 2 1)], 2) :=
    object_list_create_eq [_, _] _ 2 1 (by decide) (by decide)
  have c4 : object_create_string [some (createdObject [121, 101, 101, 97, 116, 0] 5 1),
        some (createdObject [32, 0] 1 1), some (createdObject [101, 101, 0] 2 1)]
        [115, 112, 108] =
      some ([some (createdObject [121, 101, 101, 97, 116, 0] 5 1),
        some (createdObject [32, 0] 1 1), some (createdObject [101, 101, 0] 2 1),
        some (createdObject [115, 112, 108, 0] 3 1)], 3) :=
    object_list_create_eq [_, _, _] _ 3 1 (by decide) (by decide)
  have a1 : object_list_append junk [some (createdObject [121, 101, 101, 97, 116, 0] 5 1),
        some (createdObject [32, 0] 1 1), some (createdObject [101, 101, 0] 2 1),
        some (createdObject [115, 112, 108, 0] 3 1)] 0 1 =
      some [some (Object.mk [121, 101, 101, 97, 116, 32, 0, 0, 0, 0] 1 1 6 10 false
          ObjectType.TYPE_LIST),
        some (createdObject [32, 0] 1 1), some (createdObject [101, 101, 0] 2 1),
        some (createdObject [115, 112, 108, 0] 3 1)] :=
    object_list_append_eq junk (l := createdObject [121, 101, 101, 97, 116, 0] 5 1)
      (o := createdObject [32, 0] 1 1) rfl rfl (by decide) (by decide) (by decide)
  have a2 : object_list_append junk [some (Object.mk [121, 101, 101, 97, 116, 32, 0, 0, 0, 0]
          1 1 6 10 false ObjectType.TYPE_LIST),
        some (createdObject [32, 0] 1 1), some (createdObject [101, 101, 0] 2 1),
        some (createdObject [115, 112, 108, 0] 3 1)] 0 3 =
      some [some (Object.mk [121, 101, 101, 97, 116, 32, 115, 112, 108, 0] 1 1 9 10 false
          ObjectType.TYPE_LIST),
        some (createdObject [32, 0] 1 1), some (createdObject [101, 101, 0] 2 1),
        some (createdObject [115, 112, 108, 0] 3 1)] :=
    object_list_append_eq junk
      (l := Object.mk [121, 101, 101, 97, 116, 32, 0, 0, 0, 0] 1 1 6 10 false
        ObjectType.TYPE_LIST)
      (o := createdObject [115, 112, 108, 0] 3 1) rfl rfl (by decide) (by decide) (by decide)
  have p1 : object_list_prepend [some (Object.mk [121, 101, 101, 97, 116, 32, 115, 112, 108, 0]
          1 1 9 10 false ObjectType.TYPE_LIST),
        some (createdObject [32, 0] 1 1), some (createdObject [101, 101, 0] 2 1),
        some (createdObject [115, 112, 108, 0] 3 1)] 0 1 =
      some [some (Object.mk [32, 121, 101, 101, 97, 116, 32, 115, 112, 108, 0] 1 1 10 11 false
          ObjectType.TYPE_LIST),
        some (createdObject [32, 0] 1 1), some (createdObject [101, 101, 0] 2 1),
        some (createdObject [115, 112, 108, 0] 3 1)] :=
    object_list_prepend_eq
      (l := Object.mk [121, 101, 101, 97, 116, 32, 115, 112, 108, 0] 1 1 9 10 false
        ObjectType.TYPE_LIST)
      (o := createdObject [32, 0] 1 1) rfl rfl (by decide) rfl (by decide) (by decide)
      (by decide)
  have p2 : object_list_prepend [some (Object.mk [32, 121, 101, 101, 97, 116, 32, 115, 112, 108,
          0] 1 1 10 11 false ObjectType.TYPE_LIST),
        some (createdObject [32, 0] 1 1), some (createdObject [101, 101, 0] 2 1),
        some (createdObject [115, 112, 108, 0] 3 1)] 0 3 = some demoHeap :=
    object_list_prepend_eq
      (l := Object.mk [32, 121, 101, 101, 97, 116, 32, 115, 112, 108, 0] 1 1 10 11 false
        ObjectType.TYPE_LIST)
      (o := createdObject [115, 112, 108, 0] 3 1) rfl rfl (by decide) rfl (by decide) (by decide)
      (by decide)
  simp only [main_build, c1, c2, c3, c4, a1, a2, p1, p2, Option.bind_eq_bind, Option.some_bind,
    Option.pure_def]

/-- C5: the demo.  On the empty heap, the first eight statements of `main` leave `str1` with
count 13 and content `"spl yeeat spl"`; `object_split` on `" "` returns the segments `"spl"`,
`"yeeat"`, `"spl"` and on `"ee"` the segments `"spl y"`, `"at spl"`; `object_list_pop_front`
then `object_list_pop_back` return Scalar containers holding `'s'` and `'l'` and leave the
list with count 11 and content `"pl yeeat sp"`. -/
theorem main_scenario (junk : Nat → Nat) :
    ∃ (h4 h5 h6 h7 h8 : Heap) (str1 space ee str2 split split2 pf pb : Nat)
      (l13 opf opb l11 : Object) (segs segs2 : List Object),
      main_build junk [] = some (h4, str1, space, ee, str2) ∧
      h4.get str1 = some l13 ∧ l13.count = 13 ∧ l13.elemSize = 1 ∧
      content l13 = [115, 112, 108, 32, 121, 101, 101, 97, 116, 32, 115, 112, 108] ∧
      object_split junk 14 h4 str1 space = some (h5, split) ∧
      children h5 split = some segs ∧
      segs.map content = [[115, 112, 108], [121, 101, 101, 97, 116], [115, 112, 108]] ∧
      object_split junk 14 h5 str1 ee = some (h6, split2) ∧
      children h6 split2 = some segs2 ∧
      segs2.map content = [[115, 112, 108, 32, 121], [97, 116, 32, 115, 112, 108]] ∧
      object_list_pop_front junk h6 str1 = some (h7, pf) ∧
      object_list_pop_back junk h7 str1 = some (h8, pb) ∧
      h8.get pf = some opf ∧ opf.type = ObjectType.TYPE_OBJECT ∧ opf.count = 1 ∧
      opf.data = [115] ∧
      h8.get pb = some opb ∧ opb.type = ObjectType.TYPE_OBJECT ∧ opb.count = 1 ∧
      opb.data = [108] ∧
      h8.get str1 = some l11 ∧ l11.count = 11 ∧
      content l11 = [112, 108, 32, 121, 101, 101, 97, 116, 32, 115, 112] ∧
      main junk 14 [] = some (h8, str1, split, split2, pf, pb) := by
  have hb := main_build_eq junk
  have g0 : demoHeap.get 0 = some demoList := rfl
  have g1 : demoHeap.get 1 = some (createdObject [32, 0] 1 1) := rfl
  have g2 : demoHeap.get 2 = some (createdObject [101, 101, 0] 2 1) := rfl
  have hlen4 : demoHeap.length = 4 := rfl
  -- the first split
  have hcuts1 : splitCuts demoList [32, 0] 1 14 = some [(0, 3), (4, 5), (10, 3)] := by decide
  obtain ⟨h5, R1, hs1, -, -, hch1, hlen5, hfr5⟩ := object_list_split_children junk 14 demoHeap 0
    demoList [32, 0] 1 _ g0 hcuts1 (by decide)
  have hsp1 : object_split junk 14 demoHeap 0 1 = some (h5, 4) := by
    simp only [object_split, g1, Option.bind_eq_bind, Option.some_bind]
    exact hs1
  have hl5 : h5.get 0 = some demoList := by rw [hfr5 0 (by decide)]; exact g0
  have he5 : h5.get 2 = some (createdObject [101, 101, 0] 2 1) := by
    rw [hfr5 2 (by decide)]; exact g2
  -- the second split
  have hcuts2 : splitCuts demoList [101, 101, 0, 0] 2 14 = some [(0, 5), (7, 6)] := by decide
  obtain ⟨h6, R2, hs2, -, -, hch2, hlen6, hfr6⟩ := object_list_split_children junk 14 h5 0
    demoList [101, 101, 0, 0] 2 _ hl5 hcuts2 (by rw [hlen5]; decide)
  have hsp2 : object_split junk 14 h5 0 2 = some (h6, h5.length) := by
    simp only [object_split, he5, Option.bind_eq_bind, Option.some_bind]
    exact hs2
  have hl6 : h6.get 0 = some demoList := by rw [hfr6 0 (by rw [hlen5]; decide)]; exact hl5
  have hlen6' : h6.length = 11 := by rw [hlen6, hlen5]; rfl
  -- the pops
  have hpf := object_list_pop_front_eq junk hl6 (by rw [hlen6']; decide) (by decide)
    (by decide) (by decide)
  rw [singleObject_createdObject junk _ _ (by decide)] at hpf
  have hp6 : 0 < h6.length := by rw [hlen6']; decide
  have hl7 : Heap.get (h6.put 0 (poppedFrontObject demoList) ++
      [some (scalarObject (demoList.data.take demoList.elemSize) demoList.elemSize)]) 0 =
      some (poppedFrontObject demoList) := by
    rw [Heap.get_append_left _ (by rw [Heap.length_put]; exact hp6), Heap.get_put_same _ hp6]
  have hlen7 : (h6.put 0 (poppedFrontObject demoList) ++
      [some (scalarObject (demoList.data.take demoList.elemSize) demoList.elemSize)]).length =
      12 := by
    simp [Heap.length_put, hlen6']
  have hpb := object_list_pop_back_eq junk hl7 (by rw [hlen7]; decide) (by decide) (by decide)
  rw [singleObject_createdObject junk _ _ (by decide), hlen7] at hpb
  refine ⟨demoHeap, h5, h6, _, _, 0, 1, 2, 3, 4, h5.length, h6.length, 12, demoList,
    scalarObject (demoList.data.take demoList.elemSize) demoList.elemSize,
    scalarObject (((poppedFrontObject demoList).data.drop
      ((poppedFrontObject demoList).count - 1)).take (poppedFrontObject demoList).elemSize)
      (poppedFrontObject demoList).elemSize,
    poppedBackObject (poppedFrontObject demoList), _, _, hb, g0, rfl, rfl, by decide, hsp1, hch1,
    by decide, hsp2, hch2, by decide, hpf, hpb, ?_, rfl, rfl, by decide, ?_, rfl, rfl,
    by decide, ?_, by decide, by decide, ?_⟩
  · rw [Heap.get_append_left _ (by rw [Heap.length_put, hlen7, hlen6']; decide),
      Heap.get_put_ne _ (by rw [hlen6']; decide)]
    exact Heap.get_last _ _ _ (by rw [Heap.length_put])
  · exact Heap.get_last _ _ _ (by rw [Heap.length_put, hlen7])
  · rw [Heap.get_append_left _ (by rw [Heap.length_put, hlen7]; decide),
      Heap.get_put_same _ (by rw [hlen7]; decide)]
  · simp only [main, hb, hsp1, hsp2, hpf, hpb, hlen5, Option.bind_eq_bind, Option.some_bind,
      Option.pure_def]

/-- Witness of C7: `"c"` prepended to `"ab"`, then three pops. -/
theorem object_list_prepend_pop_front_spec_witness :
    ∃ h1 h2 ps, object_list_prepend
        [some (createdObject [97, 98] 2 1), some (createdObject [99] 1 1)] 0 1 = some h1 ∧
      pop_front_repeat (fun _ => 0) 3 h1 0 = some (h2, ps) ∧ ps.length = 3 ∧
      ∀ j, j < 3 → ∃ p, ps[j]? = some p ∧
        h2.get p = some (scalarObject
          (if j < 1 then element (createdObject [99] 1 1) j
            else element (createdObject [97, 98] 2 1) (j - 1)) 1) :=
  object_list_prepend_pop_front_spec (fun _ => 0)
    [some (createdObject [97, 98] 2 1), some (createdObject [99] 1 1)] 0 1
    (createdObject [97, 98] 2 1) (createdObject [99] 1 1) rfl rfl (by decide) rfl (by decide)
    (by decide) (by decide) 3 (by decide) (by decide)

/-- Witness of C9: a pop from the front of `"ab"`. -/
theorem object_list_pop_front_spec_witness :
    ∃ h2 r o l2, object_list_pop_front (fun _ => 0) [some (createdObject [97, 98] 2 1)] 0 =
        some (h2, r) ∧
      Heap.get [some (createdObject [97, 98] 2 1)] r = none ∧ h2.get r = some o ∧
      o.refcount = 1 ∧ o.type = ObjectType.TYPE_OBJECT ∧ o.count = 1 ∧ o.capacity = 1 ∧
      o.elemSize = 1 ∧ element o 0 = element (createdObject [97, 98] 2 1) 0 ∧
      h2.get 0 = some l2 ∧ l2.count = 2 - 1 ∧ l2.elemSize = 1 ∧
      (∀ i, i + 1 < 2 → element l2 i = element (createdObject [97, 98] 2 1) (i + 1)) ∧
      l2.type = ObjectType.TYPE_LIST :=
  object_list_pop_front_spec (fun _ => 0) [some (createdObject [97, 98] 2 1)] 0
    (createdObject [97, 98] 2 1) rfl (by decide) rfl (by decide) (by decide) (by decide)

/-- Witness of C2: `"aba"` in a buffer of exactly 3 bytes, split on `"ab"`. -/
theorem object_list_split_join_witness :
    ∃ h2 r segs, object_list_split (fun _ => 0) 4
        [some (Object.mk [97, 98, 97] 1 1 3 3 false ObjectType.TYPE_LIST)] 0 [97, 98] 2 =
        some (h2, r) ∧
      children h2 r = some segs ∧
      List.intercalate ([97, 98].take (1 * 2)) (segs.map content) =
        content (Object.mk [97, 98, 97] 1 1 3 3 false ObjectType.TYPE_LIST) := by
  have T := object_list_split_join (fun _ => 0) 4
    [some (Object.mk [97, 98, 97] 1 1 3 3 false ObjectType.TYPE_LIST)] 0
    (Object.mk [97, 98, 97] 1 1 3 3 false ObjectType.TYPE_LIST) [97, 98] 2 rfl (by decide)
  obtain ⟨h2, r, e⟩ := T.2.1 (by decide) (by decide) (by decide)
  obtain ⟨segs, hch, hj⟩ := T.1 h2 r e
  exact ⟨h2, r, segs, e, hch, hj⟩

/-- Witness of C3: `" "` split on `" "`. -/
theorem object_list_split_whole_delimiter_witness :
    ∃ h2 r seg, object_list_split (fun _ => 0) 2 [some (createdObject [32] 1 1)] 0 [32] 1 =
        some (h2, r) ∧
      children h2 r = some [seg] ∧ seg.count = 0 ∧ seg.elemSize = 1 :=
  object_list_split_whole_delimiter (fun _ => 0) 2 [some (createdObject [32] 1 1)] 0
    (createdObject [32] 1 1) [32] rfl (by decide) (by decide) (by decide) (by decide)
    (by decide) (by decide) (by decide)

/-- Witness of C4: the list `str1` of `main`, `"spl yeeat spl"` in a buffer of 14 bytes, split
on the three elements of `str2`, `"spl"`. -/
theorem object_list_split_leading_delimiter_witness :
    ∃ h2 r seg rest, object_list_split (fun _ => 0) 14 demoHeap 0
        (createdObject [115, 112, 108, 0] 3 1).data 3 = some (h2, r) ∧
      children h2 r = some (seg :: rest) ∧ seg.count = 0 := by
  have T := object_list_split_leading_delimiter (fun _ => 0) 14 demoHeap 0 demoList
    (createdObject [115, 112, 108, 0] 3 1).data 3 rfl (by decide) (by decide)
  obtain ⟨h2, r, e⟩ := T.2.1 (by decide) (by decide) (by decide)
  obtain ⟨seg, rest, hch, hs⟩ := T.1 h2 r e
  exact ⟨h2, r, seg, rest, e, hch, hs⟩

/-- C11, counterexample: the list created from `"abc"` has count 3 and capacity 6;
`object_list_resize(list, 1)` sets the capacity to 2, smaller than before and smaller than the
count, and the buffer keeps only the first two elements. -/
theorem object_list_resize_counterexample :
    (do
      let (h1, list) ← object_list_create [] [97, 98, 99] 3 1
      let l ← h1.get list
      let h2 ← object_list_resize (fun _ => 0) h1 list 1
      let l2 ← h2.get list
      pure (l.count, l.capacity, l2.count, l2.capacity, l2.data)) =
      some (3, 6, 3, 2, [97, 98]) := by
  decide!

/-- C12, at the failing input: the list created from `"abc"` has count 3 and capacity 6;
after `object_list_trim` the buffer holds exactly the 3 elements, and the capacity field is
still 6. -/
theorem object_list_trim_capacity_stale :
    (do
      let (h1, list) ← object_list_create [] [97, 98, 99] 3 1
      let h2 ← object_list_trim (fun _ => 0) h1 list
      let l2 ← h2.get list
      pure (l2.count, l2.capacity, l2.data)) = some (3, 6, [97, 98, 99]) := by
  decide!

/-- C18, at the failing inputs: after `object_list_create` of `"ab"` the buffer holds the 4
elements of the capacity; after `object_list_pop_front` it holds 3 elements while the capacity
is still 4, and after `object_list_trim` it holds 2 elements while the capacity is still 4.
For the result list of `object_list_split` with one segment (count 1, capacity 2),
`object_list_trim` leaves a buffer of one slot with capacity 2, and the following
`object_list_push_back_object` (count < capacity, so no resize) writes slot 1 outside the
buffer: the model has no result. -/
theorem capacity_overstates_buffer :
    (do
      let (h1, list) ← object_list_create [] [97, 98] 2 1
      let l ← h1.get list
      let (h2, _) ← object_list_pop_front (fun _ => 0) h1 list
      let l2 ← h2.get list
      let h3 ← object_list_trim (fun _ => 0) h1 list
      let l3 ← h3.get list
      pure ((l.data.length, l.capacity * l.elemSize), (l2.data.length, l2.capacity * l2.elemSize),
        (l3.data.length, l3.capacity * l3.elemSize))) = some ((4, 4), (3, 4), (2, 4)) ∧
    (do
      let (h1, list) ← object_list_create [] [97] 1 1
      let (h2, r) ← object_list_split (fun _ => 0) 2 h1 list [32] 1
      let h3 ← object_list_trim (fun _ => 0) h2 r
      let R ← h3.get r
      pure (R.recurse, R.count, R.capacity, R.data.length, R.elemSize,
        (object_list_push_back_object (fun _ => 0) h3 r list).isSome)) =
      some (true, 1, 2, 8, 8, false) := by
  decide!

/-- C19, at the failing input: the result list of `object_list_split` on an empty source has
`recurse` set and `count = capacity = 0`; `object_list_push_front_object` increments the count
before it copies `count` slots from the old buffer, so it reads one slot from the empty buffer
and writes it behind the one slot of the new buffer: the model has no result.  On the result
list of a split with one segment (count 1, capacity 2, slot 1 holding the bytes 7 that the
reallocation left there) the copy takes two slots, not one: slot 2 of the new buffer holds the
bytes of the old slot 1. -/
theorem object_list_push_front_object_copies_one_more :
    (do
      let (h1, list) ← object_list_create [] [] 0 1
      let (h2, r) ← object_list_split (fun _ => 7) 1 h1 list [32] 1
      let R ← h2.get r
      pure (R.recurse, R.count, R.capacity, R.data.length,
        (object_list_push_front_object h2 r list).isSome)) = some (true, 0, 0, 0, false) ∧
    (do
      let (h1, list) ← object_list_create [] [97] 1 1
      let (h2, r) ← object_list_split (fun _ => 7) 2 h1 list [32] 1
      let R ← h2.get r
      let h3 ← object_list_push_front_object h2 r list
      let R3 ← h3.get r
      pure (R.count, R.capacity, R.data.drop 8, R3.count, R3.capacity, R3.data.drop 16)) =
      some (1, 2, [7, 7, 7, 7, 7, 7, 7, 7], 2, 3, [7, 7, 7, 7, 7, 7, 7, 7]) := by
  constructor
  · decide!
  · decide!

/-- C20, at the failing inputs: the list created from `"abc"` after `object_list_pop_back` and
the list created from `"ab"` have the same count 2 and the same content `"ab"`; split on
`"bc"` the first gives the single segment `"a"` (the match at index 1 uses the stale byte
behind the content) and the second gives `"ab"`.  The list created from `"ab"` split on the
two bytes `'b', 0` gives `"a"`: the match at index 1 uses the zero-filled slack. -/
theorem object_list_split_matches_slack :
    (do
      let (h1, s1) ← object_list_create [] [97, 98, 99] 3 1
      let (h2, _) ← object_list_pop_back (fun _ => 0) h1 s1
      let (h3, s2) ← object_list_create h2 [97, 98] 2 1
      let l1 ← h3.get s1
      let l2 ← h3.get s2
      let (h4, r1) ← object_list_split (fun _ => 0) 3 h3 s1 [98, 99] 2
      let (h5, r2) ← object_list_split (fun _ => 0) 3 h4 s2 [98, 99] 2
      let segs1 ← children h5 r1
      let segs2 ← children h5 r2
      pure ((l1.count, content l1), (l2.count, content l2), segs1.map content,
        segs2.map content)) =
      some ((2, [97, 98]), (2, [97, 98]), [[97]], [[97, 98]]) ∧
    (do
      let (h1, s) ← object_list_create [] [97, 98] 2 1
      let (h2, r) ← object_list_split (fun _ => 0) 3 h1 s [98, 0] 2
      let segs ← children h2 r
      pure (segs.map content)) = some [[97]] := by
  decide!

theorem element_congr (a b : Object) (i : Nat) (hi : i < b.count) (hc : a.count = b.count)
    (he : a.elemSize = b.elemSize) (hcont : content a = content b) :
    element a i = element b i := by
  rw [element_eq_content a i (by rw [hc]; exact hi), element_eq_content b i hi, he, hcont]

/-- C11, as amended: `object_list_resize(list, n)` returns for every live list and every `n`,
sets the capacity and the buffer to `2 * n` elements, reduced modulo `2 ^ 64` as the `size_t`
product is (`2 * n` itself whenever that fits), and leaves count and element size unchanged;
the capacity is not smaller than before when the new value is at least the old capacity (as
for a request of `capacity + k` whose double fits a `size_t`, which is what
`object_list_append` and `object_list_push_back_object` pass); when the new capacity is at
least the count, `count <= capacity` holds afterwards and, for a buffer that held the `count`
elements, these are unchanged. -/
theorem object_list_resize_spec (junk : Nat → Nat) (h : Heap) (list : Nat) (l : Object)
    (n : Nat) (hl : h.get list = some l) :
    ∃ h2 l2, object_list_resize junk h list n = some h2 ∧ h2.get list = some l2 ∧
      l2.capacity = 2 * n % SIZE_MAX1 ∧ l2.data.length = l2.capacity * l.elemSize ∧
      l2.count = l.count ∧ l2.elemSize = l.elemSize ∧
      (2 * n < SIZE_MAX1 → l2.capacity = 2 * n) ∧
      (l.capacity ≤ 2 * n % SIZE_MAX1 → l.capacity ≤ l2.capacity) ∧
      (∀ k, n = l.capacity + k → 2 * n < SIZE_MAX1 → l.capacity ≤ l2.capacity) ∧
      (l.count ≤ 2 * n % SIZE_MAX1 → l2.count ≤ l2.capacity) ∧
      (l.count ≤ 2 * n % SIZE_MAX1 → l.count * l.elemSize ≤ l.data.length →
        content l2 = content l ∧ ∀ i, i < l.count → element l2 i = element l i) := by
  have hp := Heap.get_lt hl
  have e2 : n * 2 = 2 * n := Nat.mul_comm _ _
  refine ⟨_, _, object_list_resize_eq junk n hl, Heap.get_put_same _ hp, by rw [e2],
    by simp only [length_reallocarray], rfl, rfl, ?_, ?_, ?_, ?_, ?_⟩
  · intro hc
    simp only [e2]
    exact Nat.mod_eq_of_lt hc
  · intro hc; simp only [e2]; exact hc
  · intro k hk hc
    simp only [e2]
    rw [Nat.mod_eq_of_lt hc]; omega
  · intro hc; simp only [e2]; exact hc
  · intro hc hbuf
    have hcont : ∀ o : Object, o.count = l.count → o.elemSize = l.elemSize →
        o.data = reallocarray junk l.data (n * 2 % SIZE_MAX1) l.elemSize →
        content o = content l := by
      intro o h1 h2 h3
      unfold content
      rw [h1, h2, h3]
      exact take_reallocarray junk _ _ _ _ hbuf (Nat.mul_le_mul_right _ (by rw [e2]; exact hc))
    refine ⟨hcont _ rfl rfl rfl, ?_⟩
    intro i hi
    exact element_congr _ l i hi rfl rfl (hcont _ rfl rfl rfl)

/-- Witness of C11: the list created from `"abc"` resized to 4. -/
theorem object_list_resize_spec_witness :
    ∃ h2 l2, object_list_resize (fun _ => 0) [some (createdObject [97, 98, 99] 3 1)] 0 4 =
        some h2 ∧ h2.get 0 = some l2 ∧
      l2.capacity = 2 * 4 % SIZE_MAX1 ∧ l2.data.length = l2.capacity * 1 ∧
      l2.count = 3 ∧ l2.elemSize = 1 ∧
      (2 * 4 < SIZE_MAX1 → l2.capacity = 2 * 4) ∧
      (6 ≤ 2 * 4 % SIZE_MAX1 → 6 ≤ l2.capacity) ∧
      (∀ k, 4 = 6 + k → 2 * 4 < SIZE_MAX1 → 6 ≤ l2.capacity) ∧
      (3 ≤ 2 * 4 % SIZE_MAX1 → l2.count ≤ l2.capacity) ∧
      (3 ≤ 2 * 4 % SIZE_MAX1 → 3 * 1 ≤ 6 →
        content l2 = content (createdObject [97, 98, 99] 3 1) ∧
        ∀ i, i < 3 → element l2 i = element (createdObject [97, 98, 99] 3 1) i) :=
  object_list_resize_spec (fun _ => 0) [some (createdObject [97, 98, 99] 3 1)] 0
    (createdObject [97, 98, 99] 3 1) 4 rfl

/-- C16: on a list with `recurse = false`, `object_list_push_front_object` and
`object_list_push_back_object` return and leave the whole heap unchanged: the struct of the
list (count, capacity, buffer, element size, type, refcount) and the cell of the value, with
its refcount, are as before. -/
theorem object_list_push_object_noop (junk : Nat → Nat) (h : Heap) (list value : Nat)
    (l : Object) (hl : h.get list = some l) (hr : l.recurse = false) :
    (∃ h2, object_list_push_front_object h list value = some h2 ∧ h2 = h ∧
      h2.get list = some l ∧ h2.get value = h.get value) ∧
    (∃ h2, object_list_push_back_object junk h list value = some h2 ∧ h2 = h ∧
      h2.get list = some l ∧ h2.get value = h.get value) :=
  ⟨⟨h, object_list_push_front_object_noop h list value l hl hr, rfl, hl, rfl⟩,
    ⟨h, object_list_push_back_object_noop junk h list value l hl hr, rfl, hl, rfl⟩⟩

/-- Witness of C16: a push of `"c"` into the byte list `"ab"`. -/
theorem object_list_push_object_noop_witness :
    (∃ h2, object_list_push_front_object
        [some (createdObject [97, 98] 2 1), some (createdObject [99] 1 1)] 0 1 = some h2 ∧
      h2 = [some (createdObject [97, 98] 2 1), some (createdObject [99] 1 1)] ∧
      h2.get 0 = some (createdObject [97, 98] 2 1) ∧
      h2.get 1 = Heap.get [some (createdObject [97, 98] 2 1), some (createdObject [99] 1 1)] 1) ∧
    (∃ h2, object_list_push_back_object (fun _ => 0)
        [some (createdObject [97, 98] 2 1), some (createdObject [99] 1 1)] 0 1 = some h2 ∧
      h2 = [some (createdObject [97, 98] 2 1), some (createdObject [99] 1 1)] ∧
      h2.get 0 = some (createdObject [97, 98] 2 1) ∧
      h2.get 1 = Heap.get [some (createdObject [97, 98] 2 1), some (createdObject [99] 1 1)] 1) :=
  object_list_push_object_noop (fun _ => 0)
    [some (createdObject [97, 98] 2 1), some (createdObject [99] 1 1)] 0 1
    (createdObject [97, 98] 2 1) rfl rfl

/-- C17: for every source list and delimiter, whenever `object_list_split` has a result, the
container it returns has type `TYPE_LIST`, `recurse` set and refcount 1, whatever the number
of segments, and every segment it holds is a `TYPE_LIST` with the element size of the source
and refcount exactly 1 after the split has returned.  The split has a result (with fuel above
`count`, in a heap with room for the new objects) when the scan of the source stays inside the
buffers, and only then. -/
theorem object_list_split_result_shape (junk : Nat → Nat) (fuel : Nat) (h : Heap) (list : Nat)
    (l : Object) (value : List Nat) (vcount : Nat) (hl : h.get list = some l) :
    (∀ h2 r, object_list_split junk fuel h list value vcount = some (h2, r) →
      ∃ R segs, h2.get r = some R ∧ R.type = ObjectType.TYPE_LIST ∧ R.recurse = true ∧
        R.refcount = 1 ∧ R.count = segs.length ∧ children h2 r = some segs ∧
        ∀ s, s ∈ segs → s.type = ObjectType.TYPE_LIST ∧ s.elemSize = l.elemSize ∧
          s.refcount = 1) ∧
    (splitInBounds l value vcount = true → l.count < fuel →
      h.length + l.count + 2 ≤ SIZE_MAX1 →
      ∃ h2 r, object_list_split junk fuel h list value vcount = some (h2, r)) ∧
    (∀ h2 r, object_list_split junk fuel h list value vcount = some (h2, r) →
      splitInBounds l value vcount = true) := by
  refine ⟨?_, ?_, ?_⟩
  · intro h2 r hsplit
    obtain ⟨-, cuts, R, -, hR, hRes, hch, -, -⟩ := object_list_split_returns junk fuel h list
      l value vcount h2 r hl hsplit
    obtain ⟨hrec, -, hrc, hty, hcnt, -, -, -, -⟩ := hRes
    refine ⟨R, _, hR, hty, hrec, hrc, by rw [hcnt]; simp, hch, ?_⟩
    intro s hs
    rw [List.mem_map] at hs
    obtain ⟨c, -, rfl⟩ := hs
    exact ⟨rfl, rfl, rfl⟩
  · intro hin hfuel hh
    exact object_list_split_of_inBounds junk fuel h list l value vcount hl hin hfuel hh
  · intro h2 r hsplit
    exact splitInBounds_of_split junk fuel h list l value vcount _ hl hsplit

/-- Witness of C17: `"a"` split on `" "`, a result of exactly one segment. -/
theorem object_list_split_result_shape_witness :
    ∃ h2 r R segs, object_list_split (fun _ => 0) 2 [some (createdObject [97] 1 1)] 0 [32] 1 =
        some (h2, r) ∧
      h2.get r = some R ∧ R.type = ObjectType.TYPE_LIST ∧ R.recurse = true ∧
      R.refcount = 1 ∧ R.count = segs.length ∧ children h2 r = some segs ∧
      ∀ s, s ∈ segs → s.type = ObjectType.TYPE_LIST ∧ s.elemSize = 1 ∧ s.refcount = 1 := by
  have T := object_list_split_result_shape (fun _ => 0) 2 [some (createdObject [97] 1 1)] 0
    (createdObject [97] 1 1) [32] 1 rfl
  obtain ⟨h2, r, e⟩ := T.2.1 (by decide) (by decide) (by decide)
  obtain ⟨R, segs, hs⟩ := T.1 h2 r e
  exact ⟨h2, r, R, segs, e, hs⟩

theorem Heap.get_free_same (h : Heap) (p : Nat) : (free h p).get p = none := by
  unfold free Heap.get
  by_cases hp : p < h.length
  · simp [hp]
  · have : (h.set p none)[p]? = none := by simp; omega
    simp [this]

theorem Heap.get_free_ne {h : Heap} {p q : Nat} (hne : p ≠ q) :
    (free h p).get q = h.get q := by
  simp [free, Heap.get, List.getElem?_set_ne hne]

theorem Heap.length_free (h : Heap) (p : Nat) : (free h p).length = h.length := by
  simp [free]

theorem Heap.free_put (h : Heap) (p : Nat) (o : Object) : free (h.put p o) p = free h p := by
  simp [free, Heap.put]

theorem object_decref_eq_of_last (fuel : Nat) {h : Heap} {p : Nat} {o : Object}
    (ho : h.get p = some o) (hr : o.refcount = 1) (hrec : o.recurse = false) :
    object_decref (fuel + 1) h p = some (free h p) := by
  have hp := Heap.get_lt ho
  have hw : wdec o.refcount = 0 := by rw [hr]; rfl
  simp [object_decref, ho, Heap.get_put_same _ hp, hw, hrec, Heap.free_put]

theorem Heap.put_get_same {h : Heap} {p : Nat} {o : Object} (ho : h.get p = some o) :
    h.put p o = h := by
  have hp := Heap.get_lt ho
  apply List.ext_getElem?
  intro i
  by_cases hi : p = i
  · subst hi
    unfold Heap.get at ho
    cases hh : h[p]? with
    | none => simp [hh] at ho
    | some c =>
      cases c with
      | none => simp [hh] at ho
      | some w =>
        simp [hh] at ho
        simp [Heap.put, hp, hh, ho]
  · simp [Heap.put, List.getElem?_set_ne hi]

theorem incref_repeat_eq (n : Nat) : ∀ (h : Heap) (p : Nat) (o : Object), h.get p = some o →
    o.refcount < SIZE_MAX1 →
    incref_repeat n h p =
      some (h.put p { o with refcount := (o.refcount + n) % SIZE_MAX1 }) := by
  induction n with
  | zero =>
    intro h p o ho hr
    simp only [incref_repeat, Nat.add_zero, Nat.mod_eq_of_lt hr]
    rw [Heap.put_get_same ho]
  | succ n ih =>
    intro h p o ho hr
    have hp := Heap.get_lt ho
    have hM : 0 < SIZE_MAX1 := by decide
    simp only [incref_repeat, object_incref_eq ho, Option.bind_eq_bind, Option.some_bind]
    rw [ih _ p _ (Heap.get_put_same _ hp) (Nat.mod_lt _ hM), Heap.put_put]
    simp only [Nat.mod_add_mod, Nat.add_assoc, Nat.add_comm 1 n]

theorem decref_repeat_eq (fuel : Nat) (k : Nat) : ∀ (h : Heap) (p : Nat) (o : Object),
    h.get p = some o → k < o.refcount →
    decref_repeat (fuel + 1) k h p = some (h.put p { o with refcount := o.refcount - k }) := by
  induction k with
  | zero =>
    intro h p o ho _
    simp only [decref_repeat, Nat.sub_zero]
    rw [Heap.put_get_same ho]
  | succ k ih =>
    intro h p o ho hk
    have hp := Heap.get_lt ho
    simp only [decref_repeat, object_decref_eq_of_shared fuel ho (by omega),
      Option.bind_eq_bind, Option.some_bind]
    rw [ih _ p _ (Heap.get_put_same _ hp) (by simp only; omega), Heap.put_put]
    simp only [Nat.sub_sub, Nat.add_comm 1 k]

theorem decref_repeat_add (fuel : Nat) (a : Nat) : ∀ (b : Nat) (h h1 : Heap) (p : Nat),
    decref_repeat fuel a h p = some h1 →
    decref_repeat fuel (a + b) h p = decref_repeat fuel b h1 p := by
  induction a with
  | zero =>
    intro b h h1 p ha
    simp only [decref_repeat, Option.some.injEq] at ha
    subst ha
    simp
  | succ a ih =>
    intro b h h1 p ha
    simp only [decref_repeat, Option.bind_eq_bind] at ha
    cases hd : object_decref fuel h p with
    | none => simp [hd] at ha
    | some hm =>
      simp only [hd, Option.some_bind] at ha
      rw [show a + 1 + b = (a + b) + 1 by omega]
      simp only [decref_repeat, hd, Option.bind_eq_bind, Option.some_bind]
      exact ih b hm h1 p ha

/-- C13, as amended: for a container as the create functions return it (refcount 1,
`recurse` not set) and every `N` with `1 + N <= SIZE_MAX`: `N` calls of `object_incref`
return; after `k <= N` further calls of `object_decref` the container is still allocated,
with refcount `1 + N - k >= 1` and otherwise unchanged; the `(N + 1)`-th `object_decref` finds
refcount 1 and frees the cell, leaving every other cell as it was; no earlier call freed it,
and a further `object_decref` of the freed container has no defined result. -/
theorem refcount_lifecycle (fuel N k : Nat) (h : Heap) (p : Nat) (o : Object)
    (ho : h.get p = some o) (hr : o.refcount = 1) (hrec : o.recurse = false)
    (hf : 1 ≤ fuel) (hk : k ≤ N) (hN : 1 + N < SIZE_MAX1) :
    ∃ h1 h2 hN h3, incref_repeat N h p = some h1 ∧
      decref_repeat fuel k h1 p = some h2 ∧
      h2.get p = some { o with refcount := 1 + N - k } ∧ 1 ≤ 1 + N - k ∧
      decref_repeat fuel N h1 p = some hN ∧
      hN.get p = some o ∧
      object_decref fuel hN p = some h3 ∧
      decref_repeat fuel (N + 1) h1 p = some h3 ∧
      h3.get p = none ∧ (∀ q, q ≠ p → h3.get q = h.get q) ∧
      object_decref fuel h3 p = none := by
  obtain ⟨f, rfl⟩ : ∃ f, fuel = f + 1 := ⟨fuel - 1, by omega⟩
  have hp := Heap.get_lt ho
  have h1eq := incref_repeat_eq N h p o ho (by rw [hr]; decide)
  rw [hr, Nat.mod_eq_of_lt hN] at h1eq
  have hg1 : (h.put p { o with refcount := 1 + N }).get p =
      some { o with refcount := 1 + N } := Heap.get_put_same _ hp
  have hdk := decref_repeat_eq f k _ p _ hg1 (by simp only; omega)
  have hdN := decref_repeat_eq f N _ p _ hg1 (by simp only; omega)
  simp only [Heap.put_put] at hdk hdN
  have hoN : ({ o with refcount := 1 + N - N } : Object) = o := by
    cases o; simp at hr ⊢; omega
  rw [hoN] at hdN
  have hgN : (h.put p o).get p = some o := Heap.get_put_same _ hp
  have hlast := object_decref_eq_of_last f hgN hr hrec
  rw [Heap.free_put] at hlast
  have hall : decref_repeat (f + 1) (N + 1) (h.put p { o with refcount := 1 + N }) p =
      some (free h p) := by
    rw [decref_repeat_add (f + 1) N 1 _ _ p hdN]
    simp only [decref_repeat, hlast, Option.bind_eq_bind, Option.some_bind]
  refine ⟨_, _, _, _, h1eq, hdk, ?_, by omega, hdN, hgN, hlast, hall, Heap.get_free_same _ _,
    fun q hq => Heap.get_free_ne (Ne.symm hq), ?_⟩
  · rw [Heap.get_put_same _ hp]
  · simp [object_decref, Heap.get_free_same]

/-- Witness of C13: the list created from `"a"`, retained twice, released once and then three
times. -/
theorem refcount_lifecycle_witness :
    ∃ h1 h2 hN h3, incref_repeat 2 [some (createdObject [97] 1 1)] 0 = some h1 ∧
      decref_repeat 1 1 h1 0 = some h2 ∧
      h2.get 0 = some { createdObject [97] 1 1 with refcount := 1 + 2 - 1 } ∧ 1 ≤ 1 + 2 - 1 ∧
      decref_repeat 1 2 h1 0 = some hN ∧
      hN.get 0 = some (createdObject [97] 1 1) ∧
      object_decref 1 hN 0 = some h3 ∧
      decref_repeat 1 (2 + 1) h1 0 = some h3 ∧
      h3.get 0 = none ∧
      (∀ q, q ≠ 0 → h3.get q = Heap.get [some (createdObject [97] 1 1)] q) ∧
      object_decref 1 h3 0 = none :=
  refcount_lifecycle 1 2 1 [some (createdObject [97] 1 1)] 0 (createdObject [97] 1 1) rfl rfl
    rfl (by decide) (by decide) (by decide)

/-- C13, counterexample: `object_incref` increments a `size_t`.  After `SIZE_MAX` calls on a
container created with refcount 1 the refcount is 0, not `1 + SIZE_MAX`; after `SIZE_MAX + 1`
calls it is 1 again, and the first `object_decref` frees the container, which the claim says
is alive with refcount `SIZE_MAX + 1` after one release. -/
theorem refcount_lifecycle_counterexample :
    incref_repeat (SIZE_MAX1 - 1) [some (createdObject [97] 1 1)] 0 =
      some [some { createdObject [97] 1 1 with refcount := 0 }] ∧
    incref_repeat SIZE_MAX1 [some (createdObject [97] 1 1)] 0 =
      some [some (createdObject [97] 1 1)] ∧
    decref_repeat 1 1 [some (createdObject [97] 1 1)] 0 = some [none] := by
  have g : Heap.get [some (createdObject [97] 1 1)] 0 = some (createdObject [97] 1 1) := rfl
  have h1 := incref_repeat_eq (SIZE_MAX1 - 1) [some (createdObject [97] 1 1)] 0 _ g
    (by decide)
  have h2 := incref_repeat_eq SIZE_MAX1 [some (createdObject [97] 1 1)] 0 _ g (by decide)
  have e1 : ((createdObject [97] 1 1).refcount + (SIZE_MAX1 - 1)) % SIZE_MAX1 = 0 := by decide
  have e2 : ((createdObject [97] 1 1).refcount + SIZE_MAX1) % SIZE_MAX1 = 1 := by decide
  rw [e1] at h1
  rw [e2] at h2
  exact ⟨h1, h2, by decide⟩

theorem bytesPtr_drop_congr (a b : List Nat) (k m : Nat) (hab : a.take m = b.take m)
    (hk : k + sizeofPtr ≤ m) : bytesPtr (a.drop k) = bytesPtr (b.drop k) := by
  have key : ∀ c : List Nat, (c.drop k).take sizeofPtr = ((c.take m).drop k).take sizeofPtr := by
    intro c
    rw [List.drop_take, List.take_take]
    congr 1
    omega
  unfold bytesPtr
  rw [key a, key b, hab]

theorem pushedBackObject_data (junk : Nat → Nat) (l : Object) (p : Nat)
    (hes : l.elemSize = sizeofPtr) (hbuf : l.count * l.elemSize ≤ l.data.length)
    (hroom : (l.count + 1) * l.elemSize ≤
      if l.count ≥ l.capacity then (l.capacity + 1) * 2 % SIZE_MAX1 * l.elemSize
      else l.data.length) :
    ∃ d : List Nat, (pushedBackObject junk l p).data =
        d.take (l.count * sizeofPtr) ++ ptrBytes p ++ d.drop (l.count * sizeofPtr + sizeofPtr) ∧
      d.take (l.count * sizeofPtr) = l.data.take (l.count * sizeofPtr) ∧
      l.count * sizeofPtr + sizeofPtr ≤ d.length := by
  have hpb : (ptrBytes p).take sizeofPtr = ptrBytes p :=
    List.take_of_length_le (by rw [length_ptrBytes]; decide)
  rw [hes] at hbuf
  rw [hes, Nat.add_mul, Nat.one_mul] at hroom
  unfold pushedBackObject
  by_cases hc : l.count ≥ l.capacity
  · rw [if_pos hc] at hroom
    rw [if_pos hc]
    refine ⟨reallocarray junk l.data ((l.capacity + 1) * 2 % SIZE_MAX1) sizeofPtr,
      by simp only [hes, hpb], take_reallocarray junk _ _ _ _ hbuf (by omega), ?_⟩
    rw [length_reallocarray]; exact hroom
  · rw [if_neg hc] at hroom
    rw [if_neg hc]
    exact ⟨l.data, by simp only [hes, hpb], rfl, hroom⟩

theorem object_vat_pushedBackObject (junk : Nat → Nat) (l : Object) (p : Nat)
    (hes : l.elemSize = sizeofPtr) (hbuf : l.count * l.elemSize ≤ l.data.length)
    (hroom : (l.count + 1) * l.elemSize ≤
      if l.count ≥ l.capacity then (l.capacity + 1) * 2 % SIZE_MAX1 * l.elemSize
      else l.data.length) (hp : p < SIZE_MAX1) :
    object_vat (pushedBackObject junk l p) l.count = some p ∧
    ∀ i, i < l.count → object_vat (pushedBackObject junk l p) i = object_vat l i := by
  obtain ⟨d, hdata, hdtake, hdlen⟩ := pushedBackObject_data junk l p hes hbuf hroom
  have hw := take_write d (ptrBytes p) (l.count * sizeofPtr) sizeofPtr hdlen (length_ptrBytes p)
  have hn8 : l.count * sizeofPtr ≤ l.data.length := by rw [← hes]; exact hbuf
  constructor
  · unfold object_vat
    rw [hdata, hw.2, if_pos hdlen, List.append_assoc,
      List.drop_append_of_le_length (by simp; omega),
      List.drop_of_length_le (by simp), List.nil_append, bytesPtr_ptrBytes _ _ hp]
  · intro i hi
    have hi8 : i * sizeofPtr + sizeofPtr ≤ l.count * sizeofPtr := by
      have := Nat.mul_le_mul_right sizeofPtr (show i + 1 ≤ l.count by omega)
      rw [Nat.add_mul, Nat.one_mul] at this
      exact this
    unfold object_vat
    rw [hdata, hw.2, if_pos (by omega), if_pos (by omega)]
    congr 1
    apply bytesPtr_drop_congr _ _ _ (l.count * sizeofPtr) _ hi8
    rw [List.append_assoc, List.take_append_of_le_length (by simp; omega), List.take_take,
      Nat.min_self, hdtake]

/-- C15, as amended: for a list with `recurse` set whose slots are `sizeof(Object *)` wide and
whose buffer holds its `count` slots, and every live value (the list itself included) whose
refcount is below `SIZE_MAX`.  `object_list_push_back_object` returns exactly when the buffer,
after the reallocation to `(capacity + 1) * 2` slots (as a `size_t`) when
`count >= capacity`, holds `count + 1` slots.  Then the refcount of the value is one more than
before, the count of the list is one more than before, the new last slot holds the pointer to
the value, and the slots before it hold the same pointers as before; no other object changes.
Otherwise the call has no defined result.  With `count <= capacity` the reallocated buffer
always has the room when the doubled capacity fits a `size_t`. -/
theorem object_list_push_back_object_spec (junk : Nat → Nat) (h : Heap) (list value : Nat)
    (l v : Object) (hl : h.get list = some l) (hv : h.get value = some v)
    (hr : l.recurse = true) (hes : l.elemSize = sizeofPtr)
    (hbuf : l.count * l.elemSize ≤ l.data.length) (hh : h.length ≤ SIZE_MAX1)
    (hrc : v.refcount + 1 < SIZE_MAX1) :
    ((l.count + 1) * l.elemSize ≤
        (if l.count ≥ l.capacity then (l.capacity + 1) * 2 % SIZE_MAX1 * l.elemSize
          else l.data.length) →
      ∃ h2 l2 v2, object_list_push_back_object junk h list value = some h2 ∧
        h2.get value = some v2 ∧ v2.refcount = v.refcount + 1 ∧
        h2.get list = some l2 ∧ l2.count = l.count + 1 ∧
        object_vat l2 l.count = some value ∧
        (∀ i, i < l.count → object_vat l2 i = object_vat l i) ∧
        l2.recurse = true ∧ l2.elemSize = l.elemSize ∧ l2.type = l.type ∧
        (∀ q, q ≠ list → q ≠ value → h2.get q = h.get q)) ∧
    (¬ ((l.count + 1) * l.elemSize ≤
        (if l.count ≥ l.capacity then (l.capacity + 1) * 2 % SIZE_MAX1 * l.elemSize
          else l.data.length)) →
      object_list_push_back_object junk h list value = none) ∧
    (l.count ≤ l.capacity → l.count ≥ l.capacity → (l.capacity + 1) * 2 < SIZE_MAX1 →
      (l.count + 1) * l.elemSize ≤ (l.capacity + 1) * 2 % SIZE_MAX1 * l.elemSize) := by
  have hp := Heap.get_lt hl
  have hpv := Heap.get_lt hv
  have hes8 : l.elemSize ≤ 8 := by rw [hes]; decide
  have hval : value < SIZE_MAX1 := by omega
  have hmod : (v.refcount + 1) % SIZE_MAX1 = v.refcount + 1 := Nat.mod_eq_of_lt hrc
  refine ⟨?_, ?_, ?_⟩
  · intro hroom
    by_cases hne : list = value
    · subst hne
      rw [hl] at hv
      cases hv
      have hvat := object_vat_pushedBackObject junk
        (Object.mk l.data ((l.refcount + 1) % SIZE_MAX1) l.elemSize l.count l.capacity l.recurse
          l.type) list hes hbuf hroom hval
      refine ⟨_, _, _, object_list_push_back_object_eq_self junk hl hr hes8 hroom,
        Heap.get_put_same _ hp, ?_, Heap.get_put_same _ hp, ?_, hvat.1, hvat.2, ?_, ?_, ?_, ?_⟩
      · unfold pushedBackObject; split <;> exact hmod
      · unfold pushedBackObject; split <;> rfl
      · unfold pushedBackObject; split <;> exact hr
      · unfold pushedBackObject; split <;> rfl
      · unfold pushedBackObject; split <;> rfl
      · intro q hq _
        rw [Heap.get_put_ne _ (Ne.symm hq)]
    · have hvat := object_vat_pushedBackObject junk l value hes hbuf hroom hval
      have hp1 : list < (h.put value { v with refcount := (v.refcount + 1) % SIZE_MAX1 }).length := by
        rw [Heap.length_put]; exact hp
      refine ⟨_, _, { v with refcount := (v.refcount + 1) % SIZE_MAX1 },
        object_list_push_back_object_eq junk hl hv hne hr hes8 hroom, ?_, hmod,
        Heap.get_put_same _ hp1, ?_, hvat.1, hvat.2, ?_, ?_, ?_, ?_⟩
      · rw [Heap.get_put_ne _ hne, Heap.get_put_same _ hpv]
      · unfold pushedBackObject; split <;> rfl
      · unfold pushedBackObject; split <;> exact hr
      · unfold pushedBackObject; split <;> rfl
      · unfold pushedBackObject; split <;> rfl
      · intro q hq hqv
        rw [Heap.get_put_ne _ (Ne.symm hq), Heap.get_put_ne _ (Ne.symm hqv)]
  · intro hn
    exact object_list_push_back_object_eq_none junk hl hv hr (fun hx => hn hx.2)
  · intro hcap hge hfit
    rw [Nat.mod_eq_of_lt hfit]
    exact Nat.mul_le_mul_right _ (by omega)

/-- Witness of C15: the result list of a split with three segments after
`object_list_pop_front` (count 2, capacity 6, a buffer of 5 slots), and a push into it. -/
theorem object_list_push_back_object_spec_witness :
    ∃ h2 l2 v2, object_list_push_back_object (fun _ => 0)
        [some (Object.mk (List.replicate 40 0) 1 8 2 6 true ObjectType.TYPE_LIST),
          some (createdObject [99] 1 1)] 0 1 = some h2 ∧
      h2.get 1 = some v2 ∧ v2.refcount = 1 + 1 ∧
      h2.get 0 = some l2 ∧ l2.count = 2 + 1 ∧
      object_vat l2 2 = some 1 ∧
      (∀ i, i < 2 → object_vat l2 i =
        object_vat (Object.mk (List.replicate 40 0) 1 8 2 6 true ObjectType.TYPE_LIST) i) ∧
      l2.recurse = true ∧ l2.elemSize = 8 ∧ l2.type = ObjectType.TYPE_LIST ∧
      (∀ q, q ≠ 0 → q ≠ 1 →
        h2.get q = Heap.get [some (Object.mk (List.replicate 40 0) 1 8 2 6 true
          ObjectType.TYPE_LIST), some (createdObject [99] 1 1)] q) :=
  (object_list_push_back_object_spec (fun _ => 0)
    [some (Object.mk (List.replicate 40 0) 1 8 2 6 true ObjectType.TYPE_LIST),
      some (createdObject [99] 1 1)] 0 1
    (Object.mk (List.replicate 40 0) 1 8 2 6 true ObjectType.TYPE_LIST)
    (createdObject [99] 1 1) rfl rfl rfl rfl (by decide) (by decide) (by decide)).1 (by decide)

/-- C15, counterexample: a value whose refcount is `SIZE_MAX` is pushed into an empty list of
`Object *` with room for two; `object_incref` wraps and the refcount of the value is 0
afterwards, not one more than before. -/
theorem object_list_push_back_object_counterexample :
    (do
      let h2 ← object_list_push_back_object (fun _ => 0)
        [some exampleRefList, some { createdObject [99] 1 1 with refcount := SIZE_MAX1 - 1 }] 0 1
      let l2 ← h2.get 0
      let v2 ← h2.get 1
      pure (l2.count, object_vat l2 0, v2.refcount)) = some (1, some 1, 0) ∧
    (0 : Nat) ≠ SIZE_MAX1 - 1 + 1 := by
  constructor
  · decide!
  · decide

theorem Heap.Sub.refl (h : Heap) : Heap.Sub h h :=
  ⟨rfl, fun _ o2 ho => ⟨o2, ho, rfl, rfl, rfl⟩⟩

theorem Heap.Sub.trans {h3 h2 h1 : Heap} (a : Heap.Sub h3 h2) (b : Heap.Sub h2 h1) :
    Heap.Sub h3 h1 := by
  refine ⟨a.1.trans b.1, ?_⟩
  intro q o3 ho3
  obtain ⟨o2, ho2, e1, e2, e3⟩ := a.2 q o3 ho3
  obtain ⟨o1, ho1, f1, f2, f3⟩ := b.2 q o2 ho2
  exact ⟨o1, ho1, e1.trans f1, e2.trans f2, e3.trans f3⟩

theorem Heap.Sub.put {h : Heap} {p : Nat} {o : Object} (ho : h.get p = some o) (o2 : Object)
    (e1 : o2.data = o.data) (e2 : o2.count = o.count) (e3 : o2.recurse = o.recurse) :
    Heap.Sub (h.put p o2) h := by
  have hp := Heap.get_lt ho
  refine ⟨Heap.length_put _ _ _, ?_⟩
  intro q oq hq
  by_cases hqp : p = q
  · subst hqp
    rw [Heap.get_put_same _ hp] at hq
    cases hq
    exact ⟨o, ho, e1, e2, e3⟩
  · rw [Heap.get_put_ne _ hqp] at hq
    exact ⟨oq, hq, rfl, rfl, rfl⟩

theorem Heap.Sub.free (h : Heap) (p : Nat) : Heap.Sub (free h p) h := by
  refine ⟨Heap.length_free _ _, ?_⟩
  intro q oq hq
  by_cases hqp : p = q
  · subst hqp
    rw [Heap.get_free_same] at hq
    exact absurd hq (by simp)
  · rw [Heap.get_free_ne hqp] at hq
    exact ⟨oq, hq, rfl, rfl, rfl⟩

theorem object_decref_none (fuel : Nat) {h : Heap} {c : Nat} (ho : h.get c = none) :
    object_decref fuel h c = none := by
  cases fuel with
  | zero => rfl
  | succ f => simp [object_decref, ho]

theorem object_decref_succ (f : Nat) {h : Heap} {c : Nat} {o : Object} (ho : h.get c = some o) :
    object_decref (f + 1) h c =
      if wdec o.refcount = 0 then
        if o.recurse = true then
          (object_decref_children f (h.put c { o with refcount := wdec o.refcount }) c 0).map
            (fun h2 => free h2 c)
        else some (free (h.put c { o with refcount := wdec o.refcount }) c)
      else some (h.put c { o with refcount := wdec o.refcount }) := by
  have hp := Heap.get_lt ho
  rw [object_decref]
  simp only [ho, Option.bind_eq_bind, Option.some_bind, Heap.get_put_same _ hp, Option.pure_def]
  by_cases h0 : wdec o.refcount = 0
  · rw [if_pos h0, if_pos h0]
    by_cases hr : o.recurse = true
    · rw [if_pos hr, if_pos hr]
      cases object_decref_children f (h.put c { o with refcount := wdec o.refcount }) c 0 <;> rfl
    · rw [if_neg hr, if_neg hr]
  · rw [if_neg h0, if_neg h0]

theorem object_decref_children_none (fuel : Nat) {h : Heap} {p : Nat} (i : Nat)
    (ho : h.get p = none) : object_decref_children fuel h p i = none := by
  cases fuel with
  | zero => rfl
  | succ f => simp [object_decref_children, ho]

theorem object_decref_children_succ (f : Nat) {h : Heap} {p : Nat} {o : Object} (i : Nat)
    (ho : h.get p = some o) :
    object_decref_children (f + 1) h p i =
      if i < o.count then
        (object_vat o i).bind (fun cur =>
          (object_decref f h cur).bind (fun h2 => object_decref_children f h2 p (i + 1)))
      else some h := by
  rw [object_decref_children]
  simp only [ho, Option.bind_eq_bind, Option.some_bind, Option.pure_def]

theorem object_decref_sub (fuel : Nat) :
    (∀ (h : Heap) (c : Nat) (h2 : Heap), object_decref fuel h c = some h2 → Heap.Sub h2 h) ∧
    (∀ (h : Heap) (p i : Nat) (h2 : Heap), object_decref_children fuel h p i = some h2 →
      Heap.Sub h2 h) := by
  induction fuel with
  | zero =>
    constructor
    · intro h c h2 hd; simp [object_decref] at hd
    · intro h p i h2 hd; simp [object_decref_children] at hd
  | succ f ih =>
    obtain ⟨ihd, ihc⟩ := ih
    constructor
    · intro h c h2 hd
      cases ho : h.get c with
      | none => rw [object_decref_none _ ho] at hd; exact absurd hd (by simp)
      | some o =>
        have hs1 : Heap.Sub (h.put c { o with refcount := wdec o.refcount }) h :=
          Heap.Sub.put ho _ rfl rfl rfl
        rw [object_decref_succ f ho] at hd
        split at hd
        · split at hd
          · cases hc : object_decref_children f
                (h.put c { o with refcount := wdec o.refcount }) c 0 with
            | none => rw [hc] at hd; exact absurd hd (by simp)
            | some h3 =>
              rw [hc] at hd
              simp only [Option.map_some', Option.some.injEq] at hd
              subst hd
              exact (Heap.Sub.free _ _).trans ((ihc _ _ _ _ hc).trans hs1)
          · simp only [Option.some.injEq] at hd
            subst hd
            exact (Heap.Sub.free _ _).trans hs1
        · simp only [Option.some.injEq] at hd
          subst hd
          exact hs1
    · intro h p i h2 hd
      cases ho : h.get p with
      | none => rw [object_decref_children_none _ _ ho] at hd; exact absurd hd (by simp)
      | some o =>
        rw [object_decref_children_succ f i ho] at hd
        split at hd
        · cases hv : object_vat o i with
          | none => rw [hv] at hd; exact absurd hd (by simp)
          | some cur =>
            rw [hv] at hd
            simp only [Option.some_bind] at hd
            cases hdc : object_decref f h cur with
            | none => rw [hdc] at hd; exact absurd hd (by simp)
            | some h3 =>
              rw [hdc] at hd
              simp only [Option.some_bind] at hd
              exact (ihc _ _ _ _ hd).trans (ihd _ _ _ hdc)
        · simp only [Option.some.injEq] at hd
          subst hd
          exact Heap.Sub.refl _

theorem object_decref_mono (fuel : Nat) :
    (∀ (fuel2 : Nat) (h : Heap) (c : Nat) (h2 : Heap), fuel ≤ fuel2 →
      object_decref fuel h c = some h2 → object_decref fuel2 h c = some h2) ∧
    (∀ (fuel2 : Nat) (h : Heap) (p i : Nat) (h2 : Heap), fuel ≤ fuel2 →
      object_decref_children fuel h p i = some h2 →
      object_decref_children fuel2 h p i = some h2) := by
  induction fuel with
  | zero =>
    constructor
    · intro _ h c h2 _ hd; simp [object_decref] at hd
    · intro _ h p i h2 _ hd; simp [object_decref_children] at hd
  | succ f ih =>
    obtain ⟨ihd, ihc⟩ := ih
    constructor
    · intro fuel2 h c h2 hle hd
      obtain ⟨g, rfl⟩ : ∃ g, fuel2 = g + 1 := ⟨fuel2 - 1, by omega⟩
      cases ho : h.get c with
      | none => rw [object_decref_none _ ho] at hd; exact absurd hd (by simp)
      | some o =>
        rw [object_decref_succ f ho] at hd
        rw [object_decref_succ g ho]
        split
        · rw [if_pos (by assumption)] at hd
          split
          · rw [if_pos (by assumption)] at hd
            cases hc : object_decref_children f
                (h.put c { o with refcount := wdec o.refcount }) c 0 with
            | none => rw [hc] at hd; exact absurd hd (by simp)
            | some h3 =>
              rw [ihc g _ _ _ _ (by omega) hc]
              rw [hc] at hd
              exact hd
          · rw [if_neg (by assumption)] at hd
            exact hd
        · rw [if_neg (by assumption)] at hd
          exact hd
    · intro fuel2 h p i h2 hle hd
      obtain ⟨g, rfl⟩ : ∃ g, fuel2 = g + 1 := ⟨fuel2 - 1, by omega⟩
      cases ho : h.get p with
      | none => rw [object_decref_children_none _ _ ho] at hd; exact absurd hd (by simp)
      | some o =>
        rw [object_decref_children_succ f i ho] at hd
        rw [object_decref_children_succ g i ho]
        split
        · rw [if_pos (by assumption)] at hd
          cases hv : object_vat o i with
          | none => rw [hv] at hd; exact absurd hd (by simp)
          | some cur =>
            rw [hv] at hd
            simp only [Option.some_bind] at hd ⊢
            cases hdc : object_decref f h cur with
            | none => rw [hdc] at hd; exact absurd hd (by simp)
            | some h3 =>
              rw [hdc] at hd
              rw [ihd g _ _ _ (by omega) hdc]
              simp only [Option.some_bind] at hd ⊢
              exact ihc g _ _ _ _ (by omega) hd
        · rw [if_neg (by assumption)] at hd
          exact hd

theorem Reach.mono {h2 h : Heap} (hs : Heap.Sub h2 h) {a b : Nat} (hr : Reach h2 a b) :
    Reach h a b := by
  induction hr with
  | refl a => exact Reach.refl a
  | step a b d o j ho hrec hj hv _ ih =>
    obtain ⟨o1, ho1, e1, e2, e3⟩ := hs.2 a o ho
    refine Reach.step a b d o1 j ho1 (by rw [← e3]; exact hrec) (by rw [← e2]; exact hj) ?_ ih
    unfold object_vat at hv ⊢
    rw [← e1]; exact hv

/-- The cells that `object_decref(c)` does not reach are unchanged. -/
theorem object_decref_frame (fuel : Nat) :
    (∀ (h : Heap) (c : Nat) (h2 : Heap) (q : Nat), object_decref fuel h c = some h2 →
      ¬ Reach h c q → h2.get q = h.get q) ∧
    (∀ (h : Heap) (p i : Nat) (h2 : Heap) (q : Nat),
      object_decref_children fuel h p i = some h2 →
      (∀ o, h.get p = some o → o.recurse = true) →
      (∀ o j d, h.get p = some o → i ≤ j → j < o.count → object_vat o j = some d →
        ¬ Reach h d q) →
      h2.get q = h.get q) := by
  induction fuel with
  | zero =>
    constructor
    · intro h c h2 q hd; simp [object_decref] at hd
    · intro h p i h2 q hd; simp [object_decref_children] at hd
  | succ f ih =>
    obtain ⟨ihd, ihc⟩ := ih
    constructor
    · intro h c h2 q hd hnr
      have hqc : c ≠ q := fun e => hnr (e ▸ Reach.refl c)
      cases ho : h.get c with
      | none => rw [object_decref_none _ ho] at hd; exact absurd hd (by simp)
      | some o =>
        have hp := Heap.get_lt ho
        have hs1 : Heap.Sub (h.put c { o with refcount := wdec o.refcount }) h :=
          Heap.Sub.put ho _ rfl rfl rfl
        rw [object_decref_succ f ho] at hd
        split at hd
        · split at hd
          · rename_i hrec
            cases hc : object_decref_children f
                (h.put c { o with refcount := wdec o.refcount }) c 0 with
            | none => rw [hc] at hd; exact absurd hd (by simp)
            | some h3 =>
              rw [hc] at hd
              simp only [Option.map_some', Option.some.injEq] at hd
              subst hd
              rw [Heap.get_free_ne hqc]
              rw [ihc _ _ _ _ q hc ?_ ?_, Heap.get_put_ne _ hqc]
              · intro o2 ho2
                rw [Heap.get_put_same _ hp] at ho2
                cases ho2
                exact hrec
              · intro o2 j d ho2 _ hj hv hr
                rw [Heap.get_put_same _ hp] at ho2
                cases ho2
                exact hnr (Reach.step c q d o j ho hrec hj hv (Reach.mono hs1 hr))
          · simp only [Option.some.injEq] at hd
            subst hd
            rw [Heap.get_free_ne hqc, Heap.get_put_ne _ hqc]
        · simp only [Option.some.injEq] at hd
          subst hd
          rw [Heap.get_put_ne _ hqc]
    · intro h p i h2 q hd hrec hnr
      cases ho : h.get p with
      | none => rw [object_decref_children_none _ _ ho] at hd; exact absurd hd (by simp)
      | some o =>
        rw [object_decref_children_succ f i ho] at hd
        split at hd
        · rename_i hi
          cases hv : object_vat o i with
          | none => rw [hv] at hd; exact absurd hd (by simp)
          | some cur =>
            rw [hv] at hd
            simp only [Option.some_bind] at hd
            cases hdc : object_decref f h cur with
            | none => rw [hdc] at hd; exact absurd hd (by simp)
            | some h3 =>
              rw [hdc] at hd
              simp only [Option.some_bind] at hd
              have hs3 := (object_decref_sub f).1 _ _ _ hdc
              rw [ihc _ _ _ _ q hd ?_ ?_, ihd _ _ _ q hdc (hnr o i cur ho (le_refl _) hi hv)]
              · intro o3 ho3
                obtain ⟨o1, ho1, -, -, e3⟩ := hs3.2 p o3 ho3
                rw [e3]; exact hrec o1 ho1
              · intro o3 j d ho3 hij hj hv3 hr
                obtain ⟨o1, ho1, e1, e2, -⟩ := hs3.2 p o3 ho3
                refine hnr o1 j d ho1 (by omega) (by rw [← e2]; exact hj) ?_ (Reach.mono hs3 hr)
                unfold object_vat at hv3 ⊢
                rw [← e1]; exact hv3
        · simp only [Option.some.injEq] at hd
          subst hd
          rfl

theorem wdec_eq_zero (n : Nat) : wdec n = 0 ↔ n = 1 := by
  unfold wdec
  split
  · rename_i h0
    subst h0
    simp [SIZE_MAX1]
  · omega

theorem object_vat_congr {a b : Object} (h : a.data = b.data) (i : Nat) :
    object_vat a i = object_vat b i := by
  unfold object_vat
  rw [h]

theorem children_to_each (L : Object) (slots : List Nat) (hlen : slots.length = L.count)
    (hvat : ∀ j (hj : j < slots.length), object_vat L j = some slots[j]) (p : Nat) :
    ∀ (f i : Nat) (h h2 : Heap) (F : Nat), f ≤ F →
      (∀ o, h.get p = some o → o.data = L.data ∧ o.count = L.count) →
      object_decref_children f h p i = some h2 → i ≤ L.count →
      decref_each F h (slots.drop i) = some h2 := by
  intro f
  induction f with
  | zero => intro i h h2 F _ _ hd; simp [object_decref_children] at hd
  | succ f ih =>
    intro i h h2 F hF hcell hd hi
    cases ho : h.get p with
    | none => rw [object_decref_children_none _ _ ho] at hd; exact absurd hd (by simp)
    | some o =>
      obtain ⟨e1, e2⟩ := hcell o ho
      rw [object_decref_children_succ f i ho, e2] at hd
      split at hd
      · rename_i hlt
        have his : i < slots.length := by omega
        rw [object_vat_congr e1, hvat i his] at hd
        simp only [Option.some_bind] at hd
        cases hdc : object_decref f h slots[i] with
        | none => rw [hdc] at hd; exact absurd hd (by simp)
        | some h3 =>
          rw [hdc] at hd
          simp only [Option.some_bind] at hd
          have hs3 := (object_decref_sub f).1 _ _ _ hdc
          rw [List.drop_eq_getElem_cons his]
          simp only [decref_each, (object_decref_mono f).1 F _ _ _ (by omega) hdc,
            Option.bind_eq_bind, Option.some_bind]
          refine ih (i + 1) h3 h2 F (by omega) ?_ hd (by omega)
          intro o3 ho3
          obtain ⟨o1, ho1, f1, f2, -⟩ := hs3.2 p o3 ho3
          obtain ⟨g1, g2⟩ := hcell o1 ho1
          exact ⟨f1.trans g1, f2.trans g2⟩
      · simp only [Option.some.injEq] at hd
        subst hd
        rw [List.drop_of_length_le (by omega)]
        rfl

theorem each_to_children (L : Object) (slots : List Nat) (hlen : slots.length = L.count)
    (hvat : ∀ j (hj : j < slots.length), object_vat L j = some slots[j]) (p : Nat) :
    ∀ (m i : Nat) (h h2 : Heap) (g f : Nat) (o : Object), i + m = L.count → g + m + 1 ≤ f →
      h.get p = some o → o.data = L.data → o.count = L.count →
      (∀ c, c ∈ slots.drop i → ¬ Reach h c p) →
      decref_each g h (slots.drop i) = some h2 →
      object_decref_children f h p i = some h2 := by
  intro m
  induction m with
  | zero =>
    intro i h h2 g f o him hf ho e1 e2 _ he
    obtain ⟨f1, rfl⟩ : ∃ f1, f = f1 + 1 := ⟨f - 1, by omega⟩
    rw [List.drop_of_length_le (by omega)] at he
    simp only [decref_each, Option.some.injEq] at he
    subst he
    rw [object_decref_children_succ f1 i ho, if_neg (by omega)]
  | succ m ih =>
    intro i h h2 g f o him hf ho e1 e2 hnr he
    obtain ⟨f1, rfl⟩ : ∃ f1, f = f1 + 1 := ⟨f - 1, by omega⟩
    have his : i < slots.length := by omega
    rw [List.drop_eq_getElem_cons his] at he hnr
    simp only [decref_each, Option.bind_eq_bind] at he
    cases hdc : object_decref g h slots[i] with
    | none => rw [hdc] at he; exact absurd he (by simp)
    | some h3 =>
      rw [hdc] at he
      simp only [Option.some_bind] at he
      have hs3 := (object_decref_sub g).1 _ _ _ hdc
      have hp3 : h3.get p = some o := by
        rw [(object_decref_frame g).1 _ _ _ p hdc (hnr _ (List.mem_cons_self _ _))]
        exact ho
      rw [object_decref_children_succ f1 i ho, if_pos (by omega), object_vat_congr e1,
        hvat i his]
      simp only [Option.some_bind, (object_decref_mono g).1 f1 _ _ _ (by omega) hdc]
      exact ih (i + 1) h3 h2 g f1 o (by omega) (by omega) hp3 e1 e2
        (fun c hc hr => hnr c (List.mem_cons_of_mem _ hc) (Reach.mono hs3 hr)) he

/-- A teardown that returns has released the children slot by slot. -/
theorem object_decref_trace (L : Object) (slots : List Nat) (p : Nat) (h : Heap)
    (hl : h.get p = some L) (hrc : L.refcount = 1) (hrec : L.recurse = true)
    (hlen : slots.length = L.count)
    (hvat : ∀ j (hj : j < slots.length), object_vat L j = some slots[j])
    (F : Nat) (h2 : Heap) (hd : object_decref F h p = some h2) :
    ∃ hn, decref_each F (h.put p { L with refcount := 0 }) slots = some hn ∧
      h2 = free hn p := by
  have hp := Heap.get_lt hl
  cases F with
  | zero => simp [object_decref] at hd
  | succ f =>
    have hw : wdec L.refcount = 0 := (wdec_eq_zero _).2 hrc
    rw [object_decref_succ f hl, if_pos hw, if_pos hrec, hw] at hd
    cases hc : object_decref_children f (h.put p { L with refcount := 0 }) p 0 with
    | none => rw [hc] at hd; exact absurd hd (by simp)
    | some hn =>
      rw [hc] at hd
      simp only [Option.map_some', Option.some.injEq] at hd
      refine ⟨hn, ?_, hd.symm⟩
      have := children_to_each L slots hlen hvat p f 0 _ hn (f + 1) (by omega) ?_ hc
        (by omega)
      · simpa using this
      · intro o ho
        rw [Heap.get_put_same _ hp] at ho
        cases ho
        exact ⟨rfl, rfl⟩

/-- A teardown returns when the releases of the children, slot by slot, return and the list
is not reachable from its children. -/
theorem object_decref_of_each (L : Object) (slots : List Nat) (p : Nat) (h : Heap)
    (hl : h.get p = some L) (hrc : L.refcount = 1) (hrec : L.recurse = true)
    (hlen : slots.length = L.count)
    (hvat : ∀ j (hj : j < slots.length), object_vat L j = some slots[j])
    (hnr : ∀ c, c ∈ slots → ¬ Reach h c p)
    (g : Nat) (hn : Heap)
    (he : decref_each g (h.put p { L with refcount := 0 }) slots = some hn) :
    object_decref (g + L.count + 2) h p = some (free hn p) := by
  have hp := Heap.get_lt hl
  have hw : wdec L.refcount = 0 := (wdec_eq_zero _).2 hrc
  have hs0 : Heap.Sub (h.put p { L with refcount := 0 }) h := Heap.Sub.put hl _ rfl rfl rfl
  rw [object_decref_succ (g + L.count + 1) hl, if_pos hw, if_pos hrec, hw]
  rw [each_to_children L slots hlen hvat p L.count 0 _ hn g (g + L.count + 1)
    { L with refcount := 0 } (by omega) (by omega) (Heap.get_put_same _ hp) rfl rfl
    (fun c hc hr => hnr c (by simpa using hc) (Reach.mono hs0 hr)) (by simpa using he)]
  rfl

theorem object_decref_freed_iff (F : Nat) (h : Heap) (c : Nat) (o : Object) (h2 : Heap)
    (ho : h.get c = some o) (hd : object_decref F h c = some h2) :
    h2.get c = none ↔ o.refcount = 1 := by
  have hp := Heap.get_lt ho
  cases F with
  | zero => simp [object_decref] at hd
  | succ f =>
    rw [object_decref_succ f ho] at hd
    split at hd
    · rename_i hw
      have h1 := (wdec_eq_zero _).1 hw
      have : h2.get c = none := by
        split at hd
        · cases hc : object_decref_children f
              (h.put c { o with refcount := wdec o.refcount }) c 0 with
          | none => rw [hc] at hd; exact absurd hd (by simp)
          | some h3 =>
            rw [hc] at hd
            simp only [Option.map_some', Option.some.injEq] at hd
            subst hd
            exact Heap.get_free_same _ _
        · simp only [Option.some.injEq] at hd
          subst hd
          exact Heap.get_free_same _ _
      exact ⟨fun _ => h1, fun _ => this⟩
    · rename_i hw
      simp only [Option.some.injEq] at hd
      subst hd
      rw [Heap.get_put_same _ hp]
      constructor
      · intro hx; exact absurd hx (by simp)
      · intro hx; exact absurd ((wdec_eq_zero _).2 hx) hw

theorem object_decref_eq_of_ne_one (fuel : Nat) {h : Heap} {p : Nat} {o : Object}
    (ho : h.get p = some o) (hr : o.refcount ≠ 1) :
    object_decref (fuel + 1) h p = some (h.put p { o with refcount := wdec o.refcount }) := by
  rw [object_decref_succ fuel ho, if_neg (fun hw => hr ((wdec_eq_zero _).1 hw))]

theorem object_decref_leaflike (fuel : Nat) {h : Heap} {c : Nat} {o : Object}
    (ho : h.get c = some o) (hr : 1 ≤ o.refcount)
    (hleaf : o.recurse = false ∨ 1 < o.refcount) :
    ∃ h2, object_decref (fuel + 1) h c = some h2 ∧ h2.length = h.length ∧
      h2.get c = releasedTimes o 1 ∧ ∀ q, q ≠ c → h2.get q = h.get q := by
  by_cases h1 : o.refcount = 1
  · have hrec : o.recurse = false := by
      rcases hleaf with hl | hl
      · exact hl
      · omega
    refine ⟨free h c, object_decref_eq_of_last fuel ho h1 hrec, Heap.length_free _ _, ?_,
      fun q hq => Heap.get_free_ne (Ne.symm hq)⟩
    rw [Heap.get_free_same, releasedTimes, if_pos h1]
  · refine ⟨_, object_decref_eq_of_shared fuel ho (by omega), Heap.length_put _ _ _, ?_,
      fun q hq => Heap.get_put_ne _ (Ne.symm hq)⟩
    rw [Heap.get_put_same _ (Heap.get_lt ho), releasedTimes, if_neg h1]

theorem releasedTimes_succ (o : Object) (k : Nat) (hr : k + 1 ≤ o.refcount) :
    releasedTimes { o with refcount := o.refcount - 1 } k = releasedTimes o (k + 1) := by
  unfold releasedTimes
  by_cases hk : o.refcount = k + 1
  · rw [if_pos hk, if_pos (by simp only; omega)]
  · rw [if_neg hk, if_neg (by simp only; omega)]
    simp only [Nat.sub_sub, Nat.add_comm 1 k]

theorem object_decref_children_leaves (p : Nat) (L0 : Object) (slots : List Nat)
    (hlen : slots.length = L0.count)
    (hvat : ∀ j (hj : j < slots.length), object_vat L0 j = some slots[j]) :
    ∀ (m i : Nat) (h : Heap) (fuel : Nat), i + m = L0.count → m + 1 ≤ fuel →
      h.get p = some L0 → p ∉ slots.drop i →
      (∀ c, c ∈ slots.drop i → ∃ o, h.get c = some o ∧
        (slots.drop i).count c ≤ o.refcount ∧
        (o.recurse = false ∨ (slots.drop i).count c < o.refcount)) →
      ∃ h2, object_decref_children fuel h p i = some h2 ∧ h2.length = h.length ∧
        (∀ c, c ∈ slots.drop i → ∀ o, h.get c = some o →
          h2.get c = releasedTimes o ((slots.drop i).count c)) ∧
        (∀ q, q ∉ slots.drop i → h2.get q = h.get q) := by
  intro m
  induction m with
  | zero =>
    intro i h fuel him hf hp _ _
    obtain ⟨f, rfl⟩ : ∃ f, fuel = f + 1 := ⟨fuel - 1, by omega⟩
    have hd : slots.drop i = [] := List.drop_of_length_le (by omega)
    refine ⟨h, ?_, rfl, ?_, fun _ _ => rfl⟩
    · rw [object_decref_children_succ f i hp, if_neg (by omega)]
    · intro c hc; rw [hd] at hc; simp at hc
  | succ m ih =>
    intro i h fuel him hf hp hpn halive
    obtain ⟨f, rfl⟩ : ∃ f, fuel = f + 1 := ⟨fuel - 1, by omega⟩
    obtain ⟨g, rfl⟩ : ∃ g, f = g + 1 := ⟨f - 1, by omega⟩
    have hi : i < L0.count := by omega
    have his : i < slots.length := by omega
    have hd : slots.drop i = slots[i] :: slots.drop (i + 1) := List.drop_eq_getElem_cons his
    rw [hd] at hpn halive
    rw [hd]
    obtain ⟨o, ho, hcnt, hleaf⟩ := halive slots[i] (List.mem_cons_self _ _)
    rw [List.count_cons_self] at hcnt hleaf
    obtain ⟨h1, hdec, hlen1, hget1, hfr1⟩ := object_decref_leaflike g ho (by omega)
      (by rcases hleaf with hl | hl
          · exact Or.inl hl
          · exact Or.inr (by omega))
    have hpc : p ≠ slots[i] := fun e => hpn (e ▸ List.mem_cons_self _ _)
    have hp1 : h1.get p = some L0 := by rw [hfr1 p hpc]; exact hp
    obtain ⟨h2, hloop, hlen2, hch2, hfr2⟩ := ih (i + 1) h1 (g + 1) (by omega) (by omega) hp1
      (fun hm => hpn (List.mem_cons_of_mem _ hm))
      (fun c hc => by
        by_cases hne : c = slots[i]
        · subst hne
          have hpos : 0 < (slots.drop (i + 1)).count slots[i] := List.count_pos_iff.mpr hc
          have h1r : o.refcount ≠ 1 := by omega
          refine ⟨{ o with refcount := o.refcount - 1 }, ?_, by simp only; omega, ?_⟩
          · rw [hget1, releasedTimes, if_neg h1r]
          · rcases hleaf with hl | hl
            · exact Or.inl hl
            · exact Or.inr (by simp only; omega)
        · obtain ⟨oc, hoc, h1c, h2c⟩ := halive c (List.mem_cons_of_mem _ hc)
          rw [List.count_cons_of_ne hne] at h1c h2c
          exact ⟨oc, by rw [hfr1 c hne]; exact hoc, h1c, h2c⟩)
    refine ⟨h2, ?_, by rw [hlen2, hlen1], ?_, ?_⟩
    · rw [object_decref_children_succ (g + 1) i hp, if_pos hi, hvat i his]
      simp only [Option.some_bind, hdec, hloop]
    · intro c hc o2 ho2
      by_cases hne : c = slots[i]
      · subst hne
        rw [ho] at ho2
        cases ho2
        rw [List.count_cons_self]
        by_cases hin : slots[i] ∈ slots.drop (i + 1)
        · have hpos : 0 < (slots.drop (i + 1)).count slots[i] := List.count_pos_iff.mpr hin
          have h1r : o.refcount ≠ 1 := by omega
          rw [hch2 _ hin { o with refcount := o.refcount - 1 }
            (by rw [hget1, releasedTimes, if_neg h1r])]
          exact releasedTimes_succ o _ hcnt
        · rw [hfr2 _ hin, hget1, List.count_eq_zero_of_not_mem hin]
      · rw [List.mem_cons] at hc
        rcases hc with hc | hc
        · exact absurd hc hne
        · rw [List.count_cons_of_ne hne]
          exact hch2 c hc o2 (by rw [hfr1 c hne]; exact ho2)
    · intro q hq
      rw [List.mem_cons, not_or] at hq
      rw [hfr2 q hq.2, hfr1 q hq.1]

theorem object_decref_teardown (fuel : Nat) (h : Heap) (p : Nat) (L : Object)
    (slots : List Nat) (hl : h.get p = some L) (hrc : L.refcount = 1) (hrec : L.recurse = true)
    (hlen : slots.length = L.count)
    (hvat : ∀ j (hj : j < slots.length), object_vat L j = some slots[j])
    (hpn : p ∉ slots)
    (halive : ∀ c, c ∈ slots → ∃ o, h.get c = some o ∧ slots.count c ≤ o.refcount ∧
      (o.recurse = false ∨ slots.count c < o.refcount))
    (hf : L.count + 2 ≤ fuel) :
    ∃ h2, object_decref fuel h p = some h2 ∧ h2.length = h.length ∧ h2.get p = none ∧
      (∀ c, c ∈ slots → ∀ o, h.get c = some o →
        h2.get c = releasedTimes o (slots.count c)) ∧
      (∀ q, q ≠ p → q ∉ slots → h2.get q = h.get q) := by
  obtain ⟨f, rfl⟩ : ∃ f, fuel = f + 1 := ⟨fuel - 1, by omega⟩
  have hp := Heap.get_lt hl
  have hw : wdec L.refcount = 0 := (wdec_eq_zero _).2 hrc
  have hg0 : (h.put p { L with refcount := 0 }).get p = some { L with refcount := 0 } :=
    Heap.get_put_same _ hp
  obtain ⟨h1, hloop, hlen1, hch1, hfr1⟩ := object_decref_children_leaves p
    { L with refcount := 0 } slots hlen hvat
    L.count 0 (h.put p { L with refcount := 0 })
    f (by simp) (by omega) hg0 (by simpa using hpn)
    (fun c hc => by
      have hc2 : c ∈ slots := by simpa using hc
      have hne : p ≠ c := fun e => hpn (e ▸ hc2)
      rw [Heap.get_put_ne _ hne]
      simpa using halive c hc2)
  refine ⟨free h1 p, ?_, by rw [Heap.length_free, hlen1, Heap.length_put],
    Heap.get_free_same _ _, ?_, ?_⟩
  · rw [object_decref_succ f hl, if_pos hw, if_pos hrec, hw, hloop]
    rfl
  · intro c hc o ho
    have hne : p ≠ c := fun e => hpn (e ▸ hc)
    rw [Heap.get_free_ne hne]
    have := hch1 c (by simpa using hc) o (by rw [Heap.get_put_ne _ hne]; exact ho)
    simpa using this
  · intro q hq hqs
    rw [Heap.get_free_ne (Ne.symm hq), hfr1 q (by simpa using hqs), Heap.get_put_ne _ (Ne.symm hq)]

/-- A list that holds one list: the inner list is torn down with the outer one. -/
theorem object_decref_nested (fuel : Nat) (h : Heap) (p q : Nat) (P Q : Object)
    (qs : List Nat) (hP : h.get p = some P) (hQ : h.get q = some Q) (hpq : p ≠ q)
    (hPrc : P.refcount = 1) (hPrec : P.recurse = true) (hPc : P.count = 1)
    (hPv : object_vat P 0 = some q)
    (hQrc : Q.refcount = 1) (hQrec : Q.recurse = true) (hlen : qs.length = Q.count)
    (hvat : ∀ j (hj : j < qs.length), object_vat Q j = some qs[j])
    (hpn : p ∉ qs) (hqn : q ∉ qs)
    (halive : ∀ c, c ∈ qs → ∃ o, h.get c = some o ∧ qs.count c ≤ o.refcount ∧
      (o.recurse = false ∨ qs.count c < o.refcount))
    (hf : Q.count + 4 ≤ fuel) :
    ∃ h2, object_decref fuel h p = some h2 ∧ h2.get p = none ∧ h2.get q = none ∧
      (∀ c, c ∈ qs → ∀ o, h.get c = some o → h2.get c = releasedTimes o (qs.count c)) ∧
      (∀ x, x ≠ p → x ≠ q → x ∉ qs → h2.get x = h.get x) := by
  obtain ⟨f, rfl⟩ : ∃ f, fuel = f + 3 := ⟨fuel - 3, by omega⟩
  have hp := Heap.get_lt hP
  have hw : wdec P.refcount = 0 := (wdec_eq_zero _).2 hPrc
  have hg0 : (h.put p { P with refcount := 0 }).get p = some { P with refcount := 0 } :=
    Heap.get_put_same _ hp
  have hQ0 : (h.put p { P with refcount := 0 }).get q = some Q := by
    rw [Heap.get_put_ne _ hpq]; exact hQ
  obtain ⟨h1, hd1, -, hq1, hc1, hfr1⟩ := object_decref_teardown (f + 1)
    (h.put p { P with refcount := 0 }) q Q qs hQ0 hQrc hQrec hlen hvat hqn
    (fun c hc => by
      have hne : p ≠ c := fun e => hpn (e ▸ hc)
      rw [Heap.get_put_ne _ hne]
      exact halive c hc) (by omega)
  have hp1 : h1.get p = some { P with refcount := 0 } := by
    rw [hfr1 p hpq hpn]; exact hg0
  refine ⟨free h1 p, ?_, Heap.get_free_same _ _, ?_, ?_, ?_⟩
  · rw [object_decref_succ (f + 2) hP, if_pos hw, if_pos hPrec, hw,
      object_decref_children_succ (f + 1) 0 hg0, if_pos (by simp only; omega)]
    have hv0 : object_vat { P with refcount := 0 } 0 = some q := hPv
    rw [hv0]
    simp only [Option.some_bind, hd1]
    rw [object_decref_children_succ f 1 hp1, if_neg (by simp only; omega)]
    rfl
  · rw [Heap.get_free_ne hpq]; exact hq1
  · intro c hc o ho
    have hne : p ≠ c := fun e => hpn (e ▸ hc)
    rw [Heap.get_free_ne hne]
    exact hc1 c hc o (by rw [Heap.get_put_ne _ hne]; exact ho)
  · intro x hxp hxq hxs
    rw [Heap.get_free_ne (Ne.symm hxp), hfr1 x hxq hxs, Heap.get_put_ne _ (Ne.symm hxp)]

theorem buffer_of_slots (l : Object) (slots : List Nat) (hlen : slots.length = l.count)
    (hvat : ∀ j (hj : j < slots.length), object_vat l j = some slots[j]) :
    l.count * sizeofPtr ≤ l.data.length := by
  by_cases h0 : l.count = 0
  · rw [h0]; simp
  · have hj : l.count - 1 < slots.length := by omega
    have hv := hvat (l.count - 1) hj
    unfold object_vat at hv
    split at hv
    · rename_i hb
      have e : l.count * sizeofPtr = (l.count - 1) * sizeofPtr + sizeofPtr := by
        have : l.count = (l.count - 1) + 1 := by omega
        nth_rewrite 1 [this]; ring
      omega
    · simp at hv

theorem pushedBackObject_fields (junk : Nat → Nat) (l : Object) (p : Nat) :
    (pushedBackObject junk l p).refcount = l.refcount ∧
    (pushedBackObject junk l p).recurse = l.recurse ∧
    (pushedBackObject junk l p).count = l.count + 1 ∧
    (pushedBackObject junk l p).elemSize = l.elemSize ∧
    (pushedBackObject junk l p).type = l.type := by
  unfold pushedBackObject
  split <;> exact ⟨rfl, rfl, rfl, rfl, rfl⟩

theorem slots_pushedBackObject (junk : Nat → Nat) (l : Object) (value : Nat)
    (slots : List Nat) (hes : l.elemSize = sizeofPtr) (hlen : slots.length = l.count)
    (hvat : ∀ j (hj : j < slots.length), object_vat l j = some slots[j])
    (hroom : (l.count + 1) * l.elemSize ≤
      if l.count ≥ l.capacity then (l.capacity + 1) * 2 % SIZE_MAX1 * l.elemSize
      else l.data.length) (hval : value < SIZE_MAX1) :
    (slots ++ [value]).length = (pushedBackObject junk l value).count ∧
    ∀ j (hj : j < (slots ++ [value]).length),
      object_vat (pushedBackObject junk l value) j = some (slots ++ [value])[j] := by
  have hbuf : l.count * l.elemSize ≤ l.data.length := by
    rw [hes]; exact buffer_of_slots l slots hlen hvat
  obtain ⟨hv1, hv2⟩ := object_vat_pushedBackObject junk l value hes hbuf hroom hval
  refine ⟨by rw [(pushedBackObject_fields junk l value).2.2.1]; simp [hlen], ?_⟩
  intro j hj
  by_cases hjl : j < slots.length
  · rw [hv2 j (by omega), hvat j hjl, List.getElem_append_left hjl]
  · have hje : j = l.count := by
      simp only [List.length_append, List.length_singleton] at hj
      omega
    subst hje
    rw [hv1]
    simp [List.getElem_append_right, hlen]

theorem object_list_push_back_object_frame (junk : Nat → Nat) {h : Heap} {list value : Nat}
    {l v : Object} (hl : h.get list = some l) (hv : h.get value = some v) (hne : list ≠ value)
    (hr : l.recurse = true) (hes : l.elemSize = sizeofPtr)
    (hroom : (l.count + 1) * l.elemSize ≤
      if l.count ≥ l.capacity then (l.capacity + 1) * 2 % SIZE_MAX1 * l.elemSize
      else l.data.length) :
    ∃ h2, object_list_push_back_object junk h list value = some h2 ∧ h2.length = h.length ∧
      h2.get list = some (pushedBackObject junk l value) ∧
      h2.get value = some { v with refcount := (v.refcount + 1) % SIZE_MAX1 } ∧
      ∀ q, q ≠ list → q ≠ value → h2.get q = h.get q := by
  have hp := Heap.get_lt hl
  have hpv := Heap.get_lt hv
  refine ⟨_, object_list_push_back_object_eq junk hl hv hne hr (by rw [hes]; decide) hroom,
    by simp [Heap.length_put],
    Heap.get_put_same _ (by rw [Heap.length_put]; exact hp), ?_, ?_⟩
  · rw [Heap.get_put_ne _ hne, Heap.get_put_same _ hpv]
  · intro q hq hqv
    rw [Heap.get_put_ne _ (Ne.symm hq), Heap.get_put_ne _ (Ne.symm hqv)]

theorem shared_child_teardown (junk : Nat → Nat) (fuel : Nat) (h : Heap) (p1 p2 c : Nat)
    (P1 P2 C : Object) (s1 s2 : List Nat)
    (h1 : h.get p1 = some P1) (h2 : h.get p2 = some P2)
    (hc : h.get c = some C) (h12 : p1 ≠ p2) (h1c : p1 ≠ c) (h2c : p2 ≠ c)
    (hr1 : P1.recurse = true) (hes1 : P1.elemSize = sizeofPtr) (hrc1 : P1.refcount = 1)
    (hl1 : s1.length = P1.count)
    (hv1 : ∀ j (hj : j < s1.length), object_vat P1 j = some s1[j])
    (hroom1 : (P1.count + 1) * P1.elemSize ≤
      if P1.count ≥ P1.capacity then (P1.capacity + 1) * 2 % SIZE_MAX1 * P1.elemSize
      else P1.data.length)
    (hr2 : P2.recurse = true) (hes2 : P2.elemSize = sizeofPtr) (hrc2 : P2.refcount = 1)
    (hl2 : s2.length = P2.count)
    (hv2 : ∀ j (hj : j < s2.length), object_vat P2 j = some s2[j])
    (hroom2 : (P2.count + 1) * P2.elemSize ≤
      if P2.count ≥ P2.capacity then (P2.capacity + 1) * 2 % SIZE_MAX1 * P2.elemSize
      else P2.data.length)
    (hrC : C.recurse = false) (hrcC : C.refcount = 1)
    (hn1 : p1 ∉ s1 ++ s2) (hn2 : p2 ∉ s1 ++ s2) (hnc : c ∉ s1 ++ s2)
    (hothers : ∀ d, d ∈ s1 ++ s2 → ∃ o, h.get d = some o ∧
      (s1 ++ s2).count d ≤ o.refcount ∧
      (o.recurse = false ∨ (s1 ++ s2).count d < o.refcount))
    (hf1 : P1.count + 3 ≤ fuel) (hf2 : P2.count + 3 ≤ fuel) (hh : h.length ≤ SIZE_MAX1) :
    ∃ ha hb hk hd he, object_list_push_back_object junk h p1 c = some ha ∧
      object_list_push_back_object junk ha p2 c = some hb ∧
      object_decref fuel hb c = some hk ∧
      hk.get c = some { C with refcount := 2 } ∧
      object_decref fuel hk p1 = some hd ∧ hd.get p1 = none ∧ hd.get c = some C ∧
      object_decref fuel hd p2 = some he ∧ he.get p2 = none ∧ he.get c = none := by
  obtain ⟨f, rfl⟩ : ∃ f, fuel = f + 1 := ⟨fuel - 1, by omega⟩
  have hcl := Heap.get_lt hc
  have hcs : c < SIZE_MAX1 := by omega
  simp only [List.mem_append, not_or] at hn1 hn2 hnc
  -- the two pushes
  obtain ⟨ha, ea, hla, ga1, gac, fra⟩ := object_list_push_back_object_frame junk h1 hc h1c hr1
    hes1 hroom1
  have ga2 : ha.get p2 = some P2 := by rw [fra p2 (Ne.symm h12) h2c]; exact h2
  obtain ⟨hb, eb, hlb, gb2, gbc, frb⟩ := object_list_push_back_object_frame junk ga2 gac h2c hr2
    hes2 hroom2
  have gb1 : hb.get p1 = some (pushedBackObject junk P1 c) := by
    rw [frb p1 h12 h1c]; exact ga1
  have hC3 : ({ ({ C with refcount := (C.refcount + 1) % SIZE_MAX1 } : Object) with
      refcount := ((C.refcount + 1) % SIZE_MAX1 + 1) % SIZE_MAX1 } : Object) =
      { C with refcount := 3 } := by
    rw [hrcC]; rfl
  simp only [hC3] at gbc
  -- the creator releases the child
  have ek : object_decref (f + 1) hb c = some (hb.put c { C with refcount := 2 }) :=
    object_decref_eq_of_shared f gbc (by simp only; omega)
  have hclb : c < hb.length := by rw [hlb, hla]; exact hcl
  have gkc : (hb.put c { C with refcount := 2 }).get c = some { C with refcount := 2 } :=
    Heap.get_put_same _ hclb
  have gk1 : (hb.put c { C with refcount := 2 }).get p1 = some (pushedBackObject junk P1 c) := by
    rw [Heap.get_put_ne _ (Ne.symm h1c)]; exact gb1
  have gk2 : (hb.put c { C with refcount := 2 }).get p2 = some (pushedBackObject junk P2 c) := by
    rw [Heap.get_put_ne _ (Ne.symm h2c)]; exact gb2
  have gko : ∀ d, d ≠ p1 → d ≠ p2 → d ≠ c →
      (hb.put c { C with refcount := 2 }).get d = h.get d := by
    intro d d1 d2 dc
    rw [Heap.get_put_ne _ (Ne.symm dc), frb d d2 dc, fra d d1 dc]
  -- the slots of the two parents
  obtain ⟨sl1, sv1⟩ := slots_pushedBackObject junk P1 c s1 hes1 hl1 hv1 hroom1 hcs
  obtain ⟨sl2, sv2⟩ := slots_pushedBackObject junk P2 c s2 hes2 hl2 hv2 hroom2 hcs
  obtain ⟨q1r, q1c, q1n, -, -⟩ := pushedBackObject_fields junk P1 c
  obtain ⟨q2r, q2c, q2n, -, -⟩ := pushedBackObject_fields junk P2 c
  have cnt1 : ∀ d, d ≠ c → (s1 ++ [c]).count d = s1.count d := by
    intro d dc
    rw [List.count_append, List.count_cons_of_ne dc]; simp
  have cnt2 : ∀ d, d ≠ c → (s2 ++ [c]).count d = s2.count d := by
    intro d dc
    rw [List.count_append, List.count_cons_of_ne dc]; simp
  have cntc1 : (s1 ++ [c]).count c = 1 := by
    rw [List.count_append, List.count_eq_zero_of_not_mem hnc.1]; simp
  have cntc2 : (s2 ++ [c]).count c = 1 := by
    rw [List.count_append, List.count_eq_zero_of_not_mem hnc.2]; simp
  -- the first parent is torn down
  obtain ⟨hd, ed, -, gd1, gdc, frd⟩ := object_decref_teardown (f + 1) _ p1 _ (s1 ++ [c]) gk1
    (by rw [q1r, hrc1]) (by rw [q1c, hr1]) sl1 sv1
    (by simp only [List.mem_append, List.mem_singleton, not_or]; exact ⟨hn1.1, h1c⟩)
    (fun x hx => by
      simp only [List.mem_append, List.mem_singleton] at hx
      rcases hx with hx | hx
      · have xc : x ≠ c := fun e => hnc.1 (e ▸ hx)
        have x1 : x ≠ p1 := fun e => hn1.1 (e ▸ hx)
        have x2 : x ≠ p2 := fun e => hn2.1 (e ▸ hx)
        obtain ⟨o, ho, hoc, hor⟩ := hothers x (List.mem_append_left _ hx)
        rw [List.count_append] at hoc hor
        exact ⟨o, by rw [gko x x1 x2 xc]; exact ho, by rw [cnt1 x xc]; omega,
          hor.imp id (fun hlt => by rw [cnt1 x xc]; omega)⟩
      · subst hx
        exact ⟨_, gkc, by rw [cntc1]; simp, Or.inl hrC⟩)
    (by rw [q1n]; omega)
  have gdc2 : hd.get c = some C := by
    rw [gdc c (by simp) _ gkc, cntc1]
    simp only [releasedTimes]
    rw [if_neg (by decide)]
    cases C
    simp only [Nat.add_one_sub_one] at *
    simp [hrcC]
  have gd2 : hd.get p2 = some (pushedBackObject junk P2 c) := by
    rw [frd p2 (Ne.symm h12)
      (by simp only [List.mem_append, List.mem_singleton, not_or]; exact ⟨hn2.1, h2c⟩)]
    exact gk2
  -- the second parent is torn down
  obtain ⟨he, ee, -, ge2, gec, -⟩ := object_decref_teardown (f + 1) hd p2 _ (s2 ++ [c]) gd2
    (by rw [q2r, hrc2]) (by rw [q2c, hr2]) sl2 sv2
    (by simp only [List.mem_append, List.mem_singleton, not_or]; exact ⟨hn2.2, h2c⟩)
    (fun x hx => by
      simp only [List.mem_append, List.mem_singleton] at hx
      rcases hx with hx | hx
      · have xc : x ≠ c := fun e => hnc.2 (e ▸ hx)
        have x1 : x ≠ p1 := fun e => hn1.2 (e ▸ hx)
        have x2 : x ≠ p2 := fun e => hn2.2 (e ▸ hx)
        obtain ⟨o, ho, hoc, hor⟩ := hothers x (List.mem_append_right _ hx)
        rw [List.count_append] at hoc hor
        have hpos : 0 < s2.count x := List.count_pos_iff.mpr hx
        by_cases hx1 : x ∈ s1
        · refine ⟨{ o with refcount := o.refcount - s1.count x }, ?_, ?_,
            hor.imp id (fun hlt => by rw [cnt2 x xc]; simp only; omega)⟩
          · rw [gdc x (by simp [hx1]) o (by rw [gko x x1 x2 xc]; exact ho), cnt1 x xc,
              releasedTimes, if_neg (by omega)]
          · rw [cnt2 x xc]; simp only; omega
        · refine ⟨o, ?_, by rw [cnt2 x xc]; omega,
            hor.imp id (fun hlt => by rw [cnt2 x xc]; omega)⟩
          have hxn : x ∉ s1 ++ [c] := by
            simp only [List.mem_append, List.mem_singleton, not_or]
            exact ⟨hx1, xc⟩
          rw [frd x x1 hxn, gko x x1 x2 xc]
          exact ho
      · subst hx
        exact ⟨_, gdc2, by rw [cntc2, hrcC], Or.inl hrC⟩)
    (by rw [q2n]; omega)
  refine ⟨ha, hb, _, hd, he, ea, eb, ek, gkc, ed, gd1, gdc2, ee, ge2, ?_⟩
  rw [gec c (by simp) _ gdc2, cntc2, releasedTimes, if_pos hrcC]

theorem Reach_leaf {h : Heap} {c q : Nat} {o : Object} (ho : h.get c = some o)
    (hrec : o.recurse = false) (hr : Reach h c q) : q = c := by
  cases hr with
  | refl => rfl
  | step _ _ d o2 j ho2 hrec2 _ _ _ =>
    rw [ho] at ho2
    cases ho2
    rw [hrec] at hrec2
    exact absurd hrec2 (by simp)

/-- C14: recursive teardown.  When `object_decref` brings a list with `recurse` set from
refcount 1 to 0 and returns, the result is that of one `object_decref` per slot on the child
held there, in slot order (a child held in several slots is released once per slot, a child
that is itself a list with `recurse` set is torn down in turn), followed by the release of the
list; the call returns when these releases return and the list is not reachable from its
own children.  Whenever `object_decref` returns, the container is freed iff its refcount was
1.  In closed form: when each child holds at least as many references as slots hold it, and
reaches refcount 0 only if it does not recurse, the list is freed, each child has lost one
reference per slot (freed when none is left) and no other object has changed; a list with
`recurse` set and refcount 1 held in the single slot of the released list is freed with it
and its own children are released.  An `object_decref` that leaves the refcount of a
container above 0 changes nothing but that refcount.  Hence a child created with refcount 1
that is pushed into two lists with `recurse` set (empty or holding other children, under the
same condition on those) and released by its creator has refcount 2, is alive with refcount 1
after the first list is torn down, and is freed when the second list is torn down. -/
theorem object_decref_teardown_spec :
    (∀ (F : Nat) (h : Heap) (p : Nat) (L : Object) (slots : List Nat) (h2 : Heap),
      h.get p = some L → L.refcount = 1 → L.recurse = true → slots.length = L.count →
      (∀ j (hj : j < slots.length), object_vat L j = some slots[j]) →
      object_decref F h p = some h2 →
      ∃ hn, decref_each F (h.put p { L with refcount := 0 }) slots = some hn ∧
        h2 = free hn p ∧ h2.get p = none) ∧
    (∀ (g : Nat) (h : Heap) (p : Nat) (L : Object) (slots : List Nat) (hn : Heap),
      h.get p = some L → L.refcount = 1 → L.recurse = true → slots.length = L.count →
      (∀ j (hj : j < slots.length), object_vat L j = some slots[j]) →
      (∀ c, c ∈ slots → ¬ Reach h c p) →
      decref_each g (h.put p { L with refcount := 0 }) slots = some hn →
      object_decref (g + L.count + 2) h p = some (free hn p)) ∧
    (∀ (F : Nat) (h : Heap) (c : Nat) (o : Object) (h2 : Heap), h.get c = some o →
      object_decref F h c = some h2 → (h2.get c = none ↔ o.refcount = 1)) ∧
    (∀ (fuel : Nat) (h : Heap) (p : Nat) (L : Object) (slots : List Nat),
      h.get p = some L → L.refcount = 1 → L.recurse = true → slots.length = L.count →
      (∀ j (hj : j < slots.length), object_vat L j = some slots[j]) →
      p ∉ slots →
      (∀ c, c ∈ slots → ∃ o, h.get c = some o ∧ slots.count c ≤ o.refcount ∧
        (o.recurse = false ∨ slots.count c < o.refcount)) →
      L.count + 2 ≤ fuel →
      ∃ h2, object_decref fuel h p = some h2 ∧ h2.get p = none ∧
        (∀ c, c ∈ slots → ∀ o, h.get c = some o →
          h2.get c = releasedTimes o (slots.count c)) ∧
        (∀ q, q ≠ p → q ∉ slots → h2.get q = h.get q)) ∧
    (∀ (fuel : Nat) (h : Heap) (p q : Nat) (P Q : Object) (qs : List Nat),
      h.get p = some P → h.get q = some Q → p ≠ q →
      P.refcount = 1 → P.recurse = true → P.count = 1 → object_vat P 0 = some q →
      Q.refcount = 1 → Q.recurse = true → qs.length = Q.count →
      (∀ j (hj : j < qs.length), object_vat Q j = some qs[j]) →
      p ∉ qs → q ∉ qs →
      (∀ c, c ∈ qs → ∃ o, h.get c = some o ∧ qs.count c ≤ o.refcount ∧
        (o.recurse = false ∨ qs.count c < o.refcount)) →
      Q.count + 4 ≤ fuel →
      ∃ h2, object_decref fuel h p = some h2 ∧ h2.get p = none ∧ h2.get q = none ∧
        (∀ c, c ∈ qs → ∀ o, h.get c = some o → h2.get c = releasedTimes o (qs.count c)) ∧
        (∀ x, x ≠ p → x ≠ q → x ∉ qs → h2.get x = h.get x)) ∧
    (∀ (fuel : Nat) (h : Heap) (p : Nat) (o : Object), h.get p = some o →
      2 ≤ o.refcount → 1 ≤ fuel →
      ∃ h2, object_decref fuel h p = some h2 ∧
        h2.get p = some { o with refcount := o.refcount - 1 } ∧
        (∀ q, q ≠ p → h2.get q = h.get q)) ∧
    (∀ (junk : Nat → Nat) (fuel : Nat) (h : Heap) (p1 p2 c : Nat) (P1 P2 C : Object)
      (s1 s2 : List Nat),
      h.get p1 = some P1 → h.get p2 = some P2 → h.get c = some C →
      p1 ≠ p2 → p1 ≠ c → p2 ≠ c →
      P1.recurse = true → P1.elemSize = sizeofPtr → P1.refcount = 1 →
      s1.length = P1.count → (∀ j (hj : j < s1.length), object_vat P1 j = some s1[j]) →
      (P1.count + 1) * P1.elemSize ≤
        (if P1.count ≥ P1.capacity then (P1.capacity + 1) * 2 % SIZE_MAX1 * P1.elemSize
          else P1.data.length) →
      P2.recurse = true → P2.elemSize = sizeofPtr → P2.refcount = 1 →
      s2.length = P2.count → (∀ j (hj : j < s2.length), object_vat P2 j = some s2[j]) →
      (P2.count + 1) * P2.elemSize ≤
        (if P2.count ≥ P2.capacity then (P2.capacity + 1) * 2 % SIZE_MAX1 * P2.elemSize
          else P2.data.length) →
      C.recurse = false → C.refcount = 1 →
      p1 ∉ s1 ++ s2 → p2 ∉ s1 ++ s2 → c ∉ s1 ++ s2 →
      (∀ d, d ∈ s1 ++ s2 → ∃ o, h.get d = some o ∧ (s1 ++ s2).count d ≤ o.refcount ∧
        (o.recurse = false ∨ (s1 ++ s2).count d < o.refcount)) →
      P1.count + 3 ≤ fuel → P2.count + 3 ≤ fuel → h.length ≤ SIZE_MAX1 →
      ∃ ha hb hk hd he, object_list_push_back_object junk h p1 c = some ha ∧
        object_list_push_back_object junk ha p2 c = some hb ∧
        object_decref fuel hb c = some hk ∧
        hk.get c = some { C with refcount := 2 } ∧
        object_decref fuel hk p1 = some hd ∧ hd.get p1 = none ∧ hd.get c = some C ∧
        object_decref fuel hd p2 = some he ∧ he.get p2 = none ∧ he.get c = none) := by
  refine ⟨?_, ?_, ?_, ?_, ?_, ?_, ?_⟩
  · intro F h p L slots h2 hl hrc hrec hlen hvat hd
    obtain ⟨hn, he, e⟩ := object_decref_trace L slots p h hl hrc hrec hlen hvat F h2 hd
    exact ⟨hn, he, e, by rw [e]; exact Heap.get_free_same _ _⟩
  · intro g h p L slots hn hl hrc hrec hlen hvat hnr he
    exact object_decref_of_each L slots p h hl hrc hrec hlen hvat hnr g hn he
  · intro F h c o h2 ho hd
    exact object_decref_freed_iff F h c o h2 ho hd
  · intro fuel h p L slots hl hrc hrec hlen hvat hpn halive hf
    obtain ⟨h2, e, -, gp, gc, fr⟩ := object_decref_teardown fuel h p L slots hl hrc hrec hlen
      hvat hpn halive hf
    exact ⟨h2, e, gp, gc, fr⟩
  · intro fuel h p q P Q qs hP hQ hpq hPrc hPrec hPc hPv hQrc hQrec hlen hvat hpn hqn halive hf
    exact object_decref_nested fuel h p q P Q qs hP hQ hpq hPrc hPrec hPc hPv hQrc hQrec hlen
      hvat hpn hqn halive hf
  · intro fuel h p o ho hr hf
    obtain ⟨f, rfl⟩ : ∃ f, fuel = f + 1 := ⟨fuel - 1, by omega⟩
    exact ⟨_, object_decref_eq_of_shared f ho hr, Heap.get_put_same _ (Heap.get_lt ho),
      fun q hq => Heap.get_put_ne _ (Ne.symm hq)⟩
  · intro junk fuel h p1 p2 c P1 P2 C s1 s2 h1 h2 hc h12 h1c h2c hr1 hes1 hrc1 hl1 hv1 hroom1
      hr2 hes2 hrc2 hl2 hv2 hroom2 hrC hrcC hn1 hn2 hnc hothers hf1 hf2 hh
    exact shared_child_teardown junk fuel h p1 p2 c P1 P2 C s1 s2 h1 h2 hc h12 h1c h2c hr1 hes1
      hrc1 hl1 hv1 hroom1 hr2 hes2 hrc2 hl2 hv2 hroom2 hrC hrcC hn1 hn2 hnc hothers hf1 hf2 hh

/-- Witness of C14: a list holding one child in two slots, a list holding a list holding a
leaf, and two lists that share a child next to a child of their own. -/
theorem object_decref_teardown_spec_witness :
    (∃ hn, decref_each 4
        (Heap.put [some exampleTwice, some (exampleChild 3)] 0
          { exampleTwice with refcount := 0 }) [1, 1] = some hn ∧
      [none, some (exampleChild 1)] = free hn 0 ∧
      Heap.get [none, some (exampleChild 1)] 0 = none) ∧
    object_decref (1 + exampleTwice.count + 2) [some exampleTwice, some (exampleChild 3)] 0 =
      some (free [some { exampleTwice with refcount := 0 }, some (exampleChild 1)] 0) ∧
    (Heap.get [none] 0 = none ↔ (exampleChild 1).refcount = 1) ∧
    (∃ h2, object_decref 4 [some exampleTwice, some (exampleChild 3)] 0 = some h2 ∧
      h2.get 0 = none ∧
      (∀ c, c ∈ [1, 1] → ∀ o,
        Heap.get [some exampleTwice, some (exampleChild 3)] c = some o →
        h2.get c = releasedTimes o (List.count c [1, 1])) ∧
      (∀ q, q ≠ 0 → q ∉ [1, 1] →
        h2.get q = Heap.get [some exampleTwice, some (exampleChild 3)] q)) ∧
    (∃ h2, object_decref 5
        [some (exampleHolder 1), some (exampleHolder 2), some (exampleChild 1)] 0 = some h2 ∧
      h2.get 0 = none ∧ h2.get 1 = none ∧
      (∀ c, c ∈ [2] → ∀ o,
        Heap.get [some (exampleHolder 1), some (exampleHolder 2), some (exampleChild 1)] c =
          some o →
        h2.get c = releasedTimes o (List.count c [2])) ∧
      (∀ x, x ≠ 0 → x ≠ 1 → x ∉ [2] →
        h2.get x =
          Heap.get [some (exampleHolder 1), some (exampleHolder 2), some (exampleChild 1)] x)) ∧
    (∃ h2, object_decref 1 [some (exampleChild 2)] 0 = some h2 ∧
      h2.get 0 = some { exampleChild 2 with refcount := (exampleChild 2).refcount - 1 } ∧
      (∀ q, q ≠ 0 → h2.get q = Heap.get [some (exampleChild 2)] q)) ∧
    (∃ ha hb hk hd he, object_list_push_back_object (fun _ => 0)
        [some (exampleHolder 3), some (exampleHolder 3), some (exampleChild 1),
          some (exampleChild 2)] 0 2 = some ha ∧
      object_list_push_back_object (fun _ => 0) ha 1 2 = some hb ∧
      object_decref 4 hb 2 = some hk ∧
      hk.get 2 = some { exampleChild 1 with refcount := 2 } ∧
      object_decref 4 hk 0 = some hd ∧ hd.get 0 = none ∧
      hd.get 2 = some (exampleChild 1) ∧
      object_decref 4 hd 1 = some he ∧ he.get 1 = none ∧ he.get 2 = none) := by
  have hleaf : ∀ c, c ∈ [1, 1] →
      ¬ Reach [some exampleTwice, some (exampleChild 3)] c 0 := by
    intro c hc hr
    have hc1 : c = 1 := by simpa using hc
    subst hc1
    have ho : Heap.get [some exampleTwice, some (exampleChild 3)] 1 = some (exampleChild 3) :=
      rfl
    exact absurd (Reach_leaf ho rfl hr) (by decide)
  refine ⟨?_, ?_, ?_, ?_, ?_, ?_, ?_⟩
  · exact object_decref_teardown_spec.1 4 [some exampleTwice, some (exampleChild 3)] 0
      exampleTwice [1, 1] [none, some (exampleChild 1)] rfl rfl rfl rfl (by decide)
      (by decide!)
  · exact object_decref_teardown_spec.2.1 1 [some exampleTwice, some (exampleChild 3)] 0
      exampleTwice [1, 1] [some { exampleTwice with refcount := 0 }, some (exampleChild 1)]
      rfl rfl rfl rfl (by decide) hleaf (by decide!)
  · exact object_decref_teardown_spec.2.2.1 1 [some (exampleChild 1)] 0 (exampleChild 1)
      [none] rfl (by decide!)
  · exact object_decref_teardown_spec.2.2.2.1 4 [some exampleTwice, some (exampleChild 3)] 0
      exampleTwice [1, 1] rfl rfl rfl rfl (by decide) (by decide)
      (fun c hc => by
        have hc1 : c = 1 := by simpa using hc
        subst hc1
        exact ⟨exampleChild 3, rfl, by decide, Or.inl rfl⟩)
      (by decide)
  · exact object_decref_teardown_spec.2.2.2.2.1 5
      [some (exampleHolder 1), some (exampleHolder 2), some (exampleChild 1)] 0 1
      (exampleHolder 1) (exampleHolder 2) [2] rfl rfl (by decide) rfl rfl rfl (by decide)
      rfl rfl rfl (by decide) (by decide) (by decide)
      (fun c hc => by
        have hc1 : c = 2 := by simpa using hc
        subst hc1
        exact ⟨exampleChild 1, rfl, by decide, Or.inl rfl⟩)
      (by decide)
  · exact object_decref_teardown_spec.2.2.2.2.2.1 1 [some (exampleChild 2)] 0 (exampleChild 2)
      rfl (by decide) (by decide)
  · exact object_decref_teardown_spec.2.2.2.2.2.2 (fun _ => 0) 4
      [some (exampleHolder 3), some (exampleHolder 3), some (exampleChild 1),
        some (exampleChild 2)] 0 1 2 (exampleHolder 3) (exampleHolder 3) (exampleChild 1)
      [3] [3] rfl rfl rfl (by decide) (by decide) (by decide)
      rfl rfl rfl rfl (by decide) (by decide)
      rfl rfl rfl rfl (by decide) (by decide)
      rfl rfl (by decide) (by decide) (by decide)
      (fun d hd => by
        have hd1 : d = 3 := by simpa using hd
        subst hd1
        exact ⟨exampleChild 2, rfl, by decide, Or.inl rfl⟩)
      (by decide) (by decide) (by decide)

end Astrophe
